import Mathlib

/-! Stock-market simulator: the pointer-linked heap and the matching engine.

A shallow embedding of `src/Main.cpp`.

* A `Node*` is a `Ptr`: `none` is `NULL`, `some a` is the node stored at
  address `a` of the free store `mem` (a list of nodes; `new Node` appends).
  Nodes are never freed by the modelled code (`removeNode` only unlinks).
* Every function that dereferences a pointer returns an `Option`: `none`
  stands for undefined behaviour (a `NULL` or dangling dereference) or for a
  loop that does not terminate. The loops carry fuel: the tree loops one more
  than the size of the store, the matching loop two more than the number of
  resting orders. The theorems show that this is enough on every state the
  program reaches.
* An `Elem*` stored in a node is modelled by the element itself: the code
  never writes through a `Key*` or `Value*` after construction.
* The definitions are generic in the arithmetic: the type `α` of `double`
  values comes with the operations the code uses (`<`, `<=`, `==`, `+`, `-`,
  `*`, unary minus, the conversion from `int`) and with `wrapInt α`, which
  says what an `int` holds after an operation on order quantities. They are
  read with two arithmetics. Exact numbers: `α` a linearly ordered commutative
  ring (no NaN, no infinity, no rounding) and `int` as `Int` (no overflow);
  the theorems on order, prices and ledger sums are about this one. Machine
  arithmetic: `α` is `Dbl`, with NaN and infinities, and `int` wraps at 32
  bits; the runs at the end of the file show where the program leaves the
  behaviour of exact numbers. The node count `n` and the order counter are
  `Int` in both: they overflow only after `2 ^ 31` insertions or submissions.
-/

set_option autoImplicit false

/-! ## Keys, values, elements -/

/-- Key of an order: `struct Key`. -/
structure Key (α : Type) where
  price : α
  timeStamp : Int
deriving DecidableEq

/-- Payload of an order: `struct Value`. -/
structure Value where
  numShares : Int
  traderID : Int
deriving DecidableEq

/-- Element of a node: `struct Elem` (a key and a value). -/
structure Elem (α : Type) where
  key : Key α
  value : Value
deriving DecidableEq

/-- A node pointer: `none` is `NULL`. -/
abbrev Ptr := Option Nat

/-- Tree node: `struct BT::Node`. -/
structure Node (α : Type) where
  elem : Elem α
  left : Ptr
  right : Ptr
  parent : Ptr
deriving DecidableEq

/-- Binary tree: `class BT` (fields `root`, `n`) together with the store its nodes live in. -/
structure BT (α : Type) where
  mem : List (Node α)
  root : Ptr
  n : Int
deriving DecidableEq

/-- Complete binary tree: `class CompleteBT : public BT` adds `lastNode`. -/
structure CompleteBT (α : Type) extends BT α where
  lastNode : Ptr
deriving DecidableEq

/-- The class `Heap : public CompleteBT` adds no field. -/
abbrev Heap (α : Type) := CompleteBT α

/-- Trader record of the ledger: `struct Ledger::Record`. -/
structure Record (α : Type) where
  id : Int
  balance : α
  holdings : Int
  buyTrans : List (Elem α)
  sellTrans : List (Elem α)
deriving DecidableEq

/-- Ledger: `class Ledger`; `book` is the `unordered_map<int, Record*>`, as an
association list with at most one entry per key. -/
structure Ledger (α : Type) where
  book : List (Int × Record α)
deriving DecidableEq

/-- Stock market: `class StockMarket`. -/
structure StockMarket (α : Type) where
  buyOrders : Heap α
  sellOrders : Heap α
  books : Ledger α
  bank : α
  counter : Int
deriving DecidableEq

/-- The `int` arithmetic the program is run with, named by the type `α` that models `double`:
`wrap k` is the value an `int` variable holds after an operation whose exact result is `k`. -/
class IntArith (α : Type) where
  wrap : Int → Int

/-- The value an `int` holds after an operation with the exact result `k`. -/
def wrapInt (α : Type) [IntArith α] (k : Int) : Int :=
  @IntArith.wrap α _ k

/-- Exact arithmetic: over a linearly ordered commutative ring of prices, `int` is `Int` and
no operation overflows. -/
instance instIntArithExact {α : Type} [LinearOrderedCommRing α] : IntArith α :=
  ⟨fun k => k⟩

section Definitions

variable {α : Type} [LT α] [∀ a b : α, Decidable (a < b)] [LE α] [∀ a b : α, Decidable (a ≤ b)]
  [BEq α] [Add α] [Sub α] [Mul α] [Neg α] [Zero α] [One α] [IntCast α] [IntArith α]

/-- Comparison `operator<(const Key&, const Key&)`: by price, ties by time stamp. -/
def Key.lt (x y : Key α) : Bool :=
  decide (x.price < y.price) || (x.price == y.price && decide (x.timeStamp < y.timeStamp))

/-- Comparison `operator<(const Elem&, const Elem&)`: the keys are compared. -/
def Elem.lt (x y : Elem α) : Bool :=
  Key.lt x.key y.key

/-- Comparison `operator>(const Elem&, const Elem&)`. -/
def Elem.gt (x y : Elem α) : Bool :=
  Elem.lt y x

/-- Dereference `*p`: fails on `NULL` and on an address outside the store. -/
def Mem.read (m : List (Node α)) (p : Ptr) : Option (Node α) :=
  match p with
  | none => none
  | some a => m[a]?

/-- Assignment through a pointer, `p->field = ...`: fails on `NULL` and on an address outside the store. -/
def Mem.write (m : List (Node α)) (p : Ptr) (f : Node α → Node α) : Option (List (Node α)) :=
  match p with
  | none => none
  | some a =>
    match m[a]? with
    | none => none
    | some nd => some (m.set a (f nd))

namespace BT

/-- Constructor `BT() : root(NULL), n(0)`. -/
def init : BT α :=
  { mem := [], root := none, n := 0 }

/-- Method `int size()`. -/
def size (t : BT α) : Int :=
  t.n

/-- Method `bool empty()`: `n == 0`. -/
def empty (t : BT α) : Bool :=
  decide (t.n = 0)

/-- Method `BT::swapElem(Node* w, Node* z)`: three assignments through `tmp`. -/
def swapElem (t : BT α) (w z : Ptr) : Option (BT α) :=
  match Mem.read t.mem w with
  | none => none
  | some wn =>
    match Mem.read t.mem z with
    | none => none
    | some zn =>
      match Mem.write t.mem w (fun nd => { nd with elem := zn.elem }) with
      | none => none
      | some m1 =>
        match Mem.write m1 z (fun nd => { nd with elem := wn.elem }) with
        | none => none
        | some m2 => some { t with mem := m2 }

/-- Method `BT::makeChild(Node* p, Node* c, bool isLeft)`. -/
def makeChild (t : BT α) (p c : Ptr) (isLeft : Bool) : Option (BT α) :=
  match (if p.isSome then
      Mem.write t.mem p (fun nd => if isLeft then { nd with left := c } else { nd with right := c })
    else some t.mem) with
  | none => none
  | some m1 =>
    match (if c.isSome then Mem.write m1 c (fun nd => { nd with parent := p }) else some m1) with
    | none => none
    | some m2 => some { t with mem := m2 }

/-- Method `BT::removeNode(Node* w)`: returns the tree and the element of `w`. -/
def removeNode (t : BT α) (w : Ptr) : Option (BT α × Elem α) :=
  match Mem.read t.mem w with
  | none => none
  | some wn =>
    let e := wn.elem
    let z := wn.parent
    let x := if wn.left.isSome then wn.left else wn.right
    match (match z with
        | none => some true
        | some _ => (Mem.read t.mem z).map (fun zn => decide (zn.left = w))) with
    | none => none
    | some isLeft =>
      match t.makeChild z x isLeft with
      | none => none
      | some t1 =>
        let t2 := if z.isNone then { t1 with root := x } else t1
        some ({ t2 with n := t2.n - 1 }, e)

/-- Method `BT::minChild(Node* w)`. -/
def minChild (t : BT α) (w : Ptr) : Option Ptr :=
  match w with
  | none => some none
  | some _ =>
    match Mem.read t.mem w with
    | none => none
    | some wn =>
      let wL := wn.left
      let wR := wn.right
      if wR.isNone then some wL
      else if wL.isNone then some wR
      else
        match Mem.read t.mem wL, Mem.read t.mem wR with
        | some l, some r => some (if Elem.lt l.elem r.elem then wL else wR)
        | _, _ => none

/-- The loop of `youngestAncestorType`: `while (x && (check_left ? x->right : x->left) == z)`. -/
def ancestorLoop (m : List (Node α)) (check_left : Bool) : Nat → Nat → Ptr → Option Ptr
  | 0, _, _ => none
  | _ + 1, _, none => some none
  | fuel + 1, z, some xa =>
    match m[xa]? with
    | none => none
    | some xn =>
      if (if check_left then xn.right else xn.left) = some z then
        ancestorLoop m check_left fuel xa xn.parent
      else some (some xa)

/-- Method `BT::youngestAncestorType(Node* w, bool check_left)`. -/
def youngestAncestorType (t : BT α) (w : Ptr) (check_left : Bool) : Option Ptr :=
  match w with
  | none => some none
  | some wa =>
    match t.mem[wa]? with
    | none => none
    | some wn => ancestorLoop t.mem check_left (t.mem.length + 1) wa wn.parent

/-- The loop of `youngestDescendantType`: `while (check_left ? w->left : w->right)`. -/
def descendantLoop (m : List (Node α)) (check_left : Bool) : Nat → Nat → Option Ptr
  | 0, _ => none
  | fuel + 1, wa =>
    match m[wa]? with
    | none => none
    | some wn =>
      match (if check_left then wn.left else wn.right) with
      | none => some (some wa)
      | some c => descendantLoop m check_left fuel c

/-- Method `BT::youngestDescendantType(Node* w, bool check_left)`. -/
def youngestDescendantType (t : BT α) (w : Ptr) (check_left : Bool) : Option Ptr :=
  match w with
  | none => some none
  | some wa => descendantLoop t.mem check_left (t.mem.length + 1) wa

/-- Method `BT::firstLeftAncestor(Node* w)`. -/
def firstLeftAncestor (t : BT α) (w : Ptr) : Option Ptr :=
  t.youngestAncestorType w true

/-- Method `BT::lastLeftDescendant(Node* w)`. -/
def lastLeftDescendant (t : BT α) (w : Ptr) : Option Ptr :=
  t.youngestDescendantType w true

/-- Method `BT::firstRightAncestor(Node* w)`. -/
def firstRightAncestor (t : BT α) (w : Ptr) : Option Ptr :=
  t.youngestAncestorType w false

/-- Method `BT::lastRightDescendant(Node* w)`. -/
def lastRightDescendant (t : BT α) (w : Ptr) : Option Ptr :=
  t.youngestDescendantType w false

end BT

namespace CompleteBT

/-- Constructor `CompleteBT() : lastNode(NULL)` over `BT()`. -/
def init : CompleteBT α :=
  { toBT := BT.init, lastNode := none }

/-- Method `CompleteBT::getParentOfNewLastNode()`. -/
def getParentOfNewLastNode (t : CompleteBT α) : Option Ptr :=
  match Mem.read t.mem t.lastNode with
  | none => none
  | some ln =>
    if ln.parent.isNone then some t.lastNode
    else
      match Mem.read t.mem ln.parent with
      | none => none
      | some pn =>
        if pn.right.isNone then some ln.parent
        else
          match t.toBT.firstLeftAncestor t.lastNode with
          | none => none
          | some none => t.toBT.lastLeftDescendant t.root
          | some (some wa) =>
            match t.mem[wa]? with
            | none => none
            | some wn =>
              if wn.right.isSome then t.toBT.lastLeftDescendant wn.right else some (some wa)

/-- Method `CompleteBT::getNewLastNode()`. -/
def getNewLastNode (t : CompleteBT α) : Option Ptr :=
  match Mem.read t.mem t.lastNode with
  | none => none
  | some ln =>
    if ln.parent.isNone then some none
    else
      match t.toBT.lastLeftDescendant t.root with
      | none => none
      | some lld =>
        if t.lastNode = lld then t.toBT.lastRightDescendant t.root
        else
          match Mem.read t.mem ln.parent with
          | none => none
          | some pn =>
            if t.lastNode = pn.right then some pn.left
            else
              match t.toBT.firstRightAncestor t.lastNode with
              | none => none
              | some w =>
                match Mem.read t.mem w with
                | none => none
                | some wn => t.toBT.lastRightDescendant wn.left

/-- Method `CompleteBT::add(Elem* e)`: returns the tree and the new node. -/
def add (t : CompleteBT α) (e : Elem α) : Option (CompleteBT α × Ptr) :=
  let node : Ptr := some t.mem.length
  let t0 : CompleteBT α := { t with mem := t.mem ++ [{ elem := e, left := none, right := none, parent := none }] }
  match (if t0.toBT.empty then some { t0.toBT with root := node }
    else
      match t0.getParentOfNewLastNode with
      | none => none
      | some parent =>
        match Mem.read t0.mem parent with
        | none => none
        | some pn => t0.toBT.makeChild parent node pn.left.isNone) with
  | none => none
  | some b => some ({ toBT := { b with n := b.n + 1 }, lastNode := node }, node)

/-- Method `CompleteBT::remove()`: returns the tree and the removed element (`none` is `NULL`). -/
def remove (t : CompleteBT α) : Option (CompleteBT α × Option (Elem α)) :=
  if t.toBT.empty then some (t, none)
  else
    let w := t.lastNode
    match t.getNewLastNode with
    | none => none
    | some l =>
      match t.toBT.removeNode w with
      | none => none
      | some (b, e) => some ({ toBT := b, lastNode := l }, some e)

end CompleteBT

namespace Heap

/-- The empty heap a `PriorityQueue` member starts as. -/
def init : Heap α :=
  CompleteBT.init

/-- The loop of `upHeapBubbling`: `while (curr->parent)`. -/
def upLoop : Nat → Heap α → Ptr → Option (Heap α)
  | 0, _, _ => none
  | fuel + 1, t, curr =>
    match Mem.read t.mem curr with
    | none => none
    | some cn =>
      if cn.parent.isNone then some t
      else
        match Mem.read t.mem cn.parent with
        | none => none
        | some pn =>
          if Elem.lt cn.elem pn.elem then
            match t.toBT.swapElem curr cn.parent with
            | none => none
            | some b =>
              match Mem.read b.mem curr with
              | none => none
              | some cn1 => upLoop fuel { t with toBT := b } cn1.parent
          else some t

/-- Method `Heap::upHeapBubbling()`. -/
def upHeapBubbling (t : Heap α) : Option (Heap α) :=
  upLoop (t.mem.length + 1) t t.lastNode

/-- The loop of `downHeapBubbling`: `while (curr)`. -/
def downLoop : Nat → Heap α → Ptr → Option (Heap α)
  | 0, _, _ => none
  | _ + 1, t, none => some t
  | fuel + 1, t, some ca =>
    match t.toBT.minChild (some ca) with
    | none => none
    | some none => some t
    | some (some ch) =>
      match Mem.read t.mem (some ch), Mem.read t.mem (some ca) with
      | some chn, some cn =>
        if Elem.lt chn.elem cn.elem then
          match t.toBT.swapElem (some ch) (some ca) with
          | none => none
          | some b => downLoop fuel { t with toBT := b } (some ch)
        else some t
      | _, _ => none

/-- Method `Heap::downHeapBubbling()`. -/
def downHeapBubbling (t : Heap α) : Option (Heap α) :=
  downLoop (t.mem.length + 1) t t.root

/-- Method `Heap::insert(Elem* e)`. -/
def insert (t : Heap α) (e : Elem α) : Option (Heap α) :=
  match CompleteBT.add t e with
  | none => none
  | some (t1, _) => upHeapBubbling t1

/-- Method `Heap::min()`: `none` is `NULL`. The body only reads, so no heap is returned. -/
def min (t : Heap α) : Option (Option (Elem α)) :=
  match t.root with
  | none => some none
  | some a =>
    match t.mem[a]? with
    | none => none
    | some rn => some (some rn.elem)

/-- Method `Heap::removeMin()`. -/
def removeMin (t : Heap α) : Option (Heap α) :=
  if t.root.isNone then some t
  else
    match t.toBT.swapElem t.root t.lastNode with
    | none => none
    | some b =>
      match CompleteBT.remove { t with toBT := b } with
      | none => none
      | some (t1, _) => downHeapBubbling t1

end Heap

namespace Ledger

/-- Constructor `Ledger()`: no record. -/
def init : Ledger α :=
  { book := [] }

/-- Assignment `book[id] = r` of the hash map: replaces the entry of `id`, or adds one. -/
def store : List (Int × Record α) → Int → Record α → List (Int × Record α)
  | [], id, r => [(id, r)]
  | (k, v) :: rest, id, r => if k = id then (id, r) :: rest else (k, v) :: store rest id r

/-- Method `Ledger::trans(Elem* e, bool isBuyTrans)`. -/
def trans (L : Ledger α) (e : Elem α) (isBuyTrans : Bool) : Ledger α :=
  let price := e.key.price
  let num := e.value.numShares
  let id := e.value.traderID
  let record : Record α :=
    match L.book.lookup id with
    | some r => r
    | none => { id := id, balance := 0, holdings := 0, buyTrans := [], sellTrans := [] }
  let r1 : Record α := { record with holdings := wrapInt α (record.holdings + num) }
  let r2 : Record α := { r1 with balance := r1.balance + (num : α) * price }
  let r3 : Record α :=
    if isBuyTrans then { r2 with buyTrans := r2.buyTrans ++ [e] }
    else { r2 with sellTrans := r2.sellTrans ++ [e] }
  { book := store L.book id r3 }

/-- Method `Ledger::buy(Elem* e)`. -/
def buy (L : Ledger α) (e : Elem α) : Ledger α :=
  L.trans e true

/-- Method `Ledger::sell(Elem* e)`. -/
def sell (L : Ledger α) (e : Elem α) : Ledger α :=
  L.trans e false

end Ledger

namespace StockMarket

/-- Constructor `StockMarket() : bank(0.0)` with `counter = 0`. -/
def init : StockMarket α :=
  { buyOrders := Heap.init, sellOrders := Heap.init, books := Ledger.init, bank := 0, counter := 0 }

/-- Method `StockMarket::transAux(int num, double price, int id, int t, bool buyTrans)`. -/
def transAux (m : StockMarket α) (num : Int) (price : α) (id : Int) (t : Int) (buyTrans : Bool) :
    Option (StockMarket α) :=
  let k : Key α := { price := price * (if buyTrans then -1 else 1), timeStamp := t }
  let v : Value := { numShares := num, traderID := id }
  let e : Elem α := { key := k, value := v }
  if buyTrans then
    match Heap.insert m.buyOrders e with
    | none => none
    | some h => some { m with buyOrders := h }
  else
    match Heap.insert m.sellOrders e with
    | none => none
    | some h => some { m with sellOrders := h }

/-- Method `StockMarket::buyAux(int num, double price, int id, int t)`. -/
def buyAux (m : StockMarket α) (num : Int) (price : α) (id : Int) (t : Int) : Option (StockMarket α) :=
  m.transAux num price id t true

/-- Method `StockMarket::sellAux(int num, double price, int id, int t)`. -/
def sellAux (m : StockMarket α) (num : Int) (price : α) (id : Int) (t : Int) : Option (StockMarket α) :=
  m.transAux num price id t false

/-- Method `StockMarket::processTrade()`. -/
def processTrade (m : StockMarket α) : Option (StockMarket α) :=
  match Heap.min m.buyOrders, Heap.min m.sellOrders with
  | some (some buyMin), some (some sellMin) =>
    let buyLimitOrder : Elem α := buyMin
    let sellLimitOrder : Elem α := sellMin
    let priceBuy := -buyLimitOrder.key.price
    let priceSell := sellLimitOrder.key.price
    let timeBuy := buyLimitOrder.key.timeStamp
    let timeSell := sellLimitOrder.key.timeStamp
    let numBuy := buyLimitOrder.value.numShares
    let numSell := sellLimitOrder.value.numShares
    let idBuy := buyLimitOrder.value.traderID
    let idSell := sellLimitOrder.value.traderID
    let priceDiff := priceBuy - priceSell
    match Heap.removeMin m.sellOrders with
    | none => none
    | some s1 =>
      match Heap.removeMin m.buyOrders with
      | none => none
      | some b1 =>
        let m1 : StockMarket α := { m with sellOrders := s1, buyOrders := b1 }
        if numBuy > numSell then
          let numTrade := numSell
          let sellTrade := sellLimitOrder
          let buyTrade : Elem α :=
            { key := { price := -priceBuy, timeStamp := timeBuy },
              value := { numShares := numTrade, traderID := idBuy } }
          let numRemain := wrapInt α (numBuy - numSell)
          match (if numRemain > 0 then m1.buyAux numRemain priceBuy idBuy timeBuy else some m1) with
          | none => none
          | some m2 =>
            some { m2 with
              books := (m2.books.buy buyTrade).sell sellTrade,
              bank := m2.bank + priceDiff * (numTrade : α) }
        else
          let numTrade := numBuy
          let buyTrade := buyLimitOrder
          let sellTrade : Elem α :=
            { key := { price := priceSell, timeStamp := timeSell },
              value := { numShares := numTrade, traderID := idSell } }
          let numRemain := wrapInt α (numSell - numBuy)
          match (if numRemain > 0 then m1.sellAux numRemain priceSell idSell timeSell else some m1) with
          | none => none
          | some m2 =>
            some { m2 with
              books := (m2.books.buy buyTrade).sell sellTrade,
              bank := m2.bank + priceDiff * (numTrade : α) }
  | _, _ => none

/-- The loop of `trade`: `while (tradeAvail && !(buyOrders.empty() || sellOrders.empty()))`. -/
def tradeLoop : Nat → StockMarket α → Bool → Option (StockMarket α)
  | 0, _, _ => none
  | fuel + 1, m, tradeAvail =>
    if tradeAvail && !(m.buyOrders.toBT.empty || m.sellOrders.toBT.empty) then
      match Heap.min m.buyOrders, Heap.min m.sellOrders with
      | some (some buyLimitOrder), some (some sellLimitOrder) =>
        let buyPrice := -buyLimitOrder.key.price
        let sellPrice := sellLimitOrder.key.price
        let marketSpread := sellPrice - buyPrice
        if marketSpread ≤ 0 then
          match m.processTrade with
          | none => none
          | some m1 => tradeLoop fuel m1 true
        else tradeLoop fuel m false
      | _, _ => none
    else some m

/-- Method `StockMarket::trade()`. The loop gets one more step than there are
resting orders, plus one: every trade takes an order off the books. -/
def trade (m : StockMarket α) : Option (StockMarket α) :=
  if m.buyOrders.toBT.empty || m.sellOrders.toBT.empty then some m
  else tradeLoop ((m.buyOrders.n + m.sellOrders.n).toNat + 2) m true

/-- Method `StockMarket::buy(double price, int num, int id)`; `counter++` is passed as the time. -/
def buy (m : StockMarket α) (price : α) (num : Int) (id : Int) : Option (StockMarket α) :=
  let t := m.counter
  match ({ m with counter := m.counter + 1 } : StockMarket α).buyAux num price id t with
  | none => none
  | some m1 => m1.trade

/-- Method `StockMarket::sell(double price, int num, int id)`; `counter++` is passed as the time. -/
def sell (m : StockMarket α) (price : α) (num : Int) (id : Int) : Option (StockMarket α) :=
  let t := m.counter
  match ({ m with counter := m.counter + 1 } : StockMarket α).sellAux num price id t with
  | none => none
  | some m1 => m1.trade

end StockMarket

/-! ## Specification vocabulary -/

/-- Address at level-order position `p` of the listing `as`; the root is position 1,
and positions `0` and beyond the end are absent. -/
def atPos (as : List Nat) (p : Nat) : Ptr :=
  if p = 0 then none else as[p - 1]?

/-- Node `a` can be reached from the root by following `left` and `right` links. -/
inductive BT.Reach (t : BT α) : Nat → Prop
  | root {a : Nat} : t.root = some a → BT.Reach t a
  | left {a b : Nat} {nd : Node α} : BT.Reach t a → t.mem[a]? = some nd → nd.left = some b → BT.Reach t b
  | right {a b : Nat} {nd : Node α} : BT.Reach t a → t.mem[a]? = some nd → nd.right = some b → BT.Reach t b

/-- The tree is the complete binary tree whose nodes, in level order, are the
distinct addresses `as`: the node at position `p` has its children at positions
`2 * p` and `2 * p + 1` (absent beyond the end) and its parent at position `p / 2`
(absent for the root), and `n` is the number of nodes. -/
structure BT.Shape (t : BT α) (as : List Nat) : Prop where
  nodup : as.Nodup
  size : t.n = as.length
  root : t.root = atPos as 1
  links : ∀ p, 1 ≤ p → p ≤ as.length → ∃ nd, Mem.read t.mem (atPos as p) = some nd ∧
    nd.left = atPos as (2 * p) ∧ nd.right = atPos as (2 * p + 1) ∧ nd.parent = atPos as (p / 2)

/-- Representation of a complete tree: `as` lists the addresses of its nodes and
`es` their elements, both in level order, and `lastNode` is the last position. -/
structure CompleteBT.Rep (t : CompleteBT α) (as : List Nat) (es : List (Elem α)) : Prop where
  len : es.length = as.length
  nodup : as.Nodup
  size : t.n = as.length
  root : t.root = atPos as 1
  last : t.lastNode = atPos as as.length
  node : ∀ p, 1 ≤ p → p ≤ as.length → ∃ a e, as[p - 1]? = some a ∧ es[p - 1]? = some e ∧
    t.mem[a]? = some
      { elem := e, left := atPos as (2 * p), right := atPos as (2 * p + 1), parent := atPos as (p / 2) }

/-- The elements stored in the nodes of the tree are `es`, in level order. -/
def CompleteBT.Stores (t : CompleteBT α) (es : List (Elem α)) : Prop :=
  ∃ as, CompleteBT.Rep t as es

/-- Heap order on the linked nodes: no child reachable from the root compares `<` its parent. -/
def Heap.Ordered (t : Heap α) : Prop :=
  ∀ (a c : Nat) (nd cn : Node α), t.toBT.Reach a → t.mem[a]? = some nd →
    (nd.left = some c ∨ nd.right = some c) → t.mem[c]? = some cn → Elem.lt cn.elem nd.elem = false

/-- In the listing `es`, the element at position `j` does not compare `<` the element at position `i`. -/
def LeAt (es : List (Elem α)) (i j : Nat) : Prop :=
  ∀ x y, es[i - 1]? = some x → es[j - 1]? = some y → Elem.lt y x = false

/-- Heap order on the level-order listing of the elements: the element at position `q`
does not compare `<` the element at position `q / 2`. -/
def OrdList (es : List (Elem α)) : Prop :=
  ∀ q, 2 ≤ q → LeAt es (q / 2) q

/-- Heap order everywhere except between position `p` and its parent, where the
parent of `p` is in order with the children of `p`: the state of the up-heap bubbling at `p`. -/
def UpOK (es : List (Elem α)) (p : Nat) : Prop :=
  (∀ q, 2 ≤ q → q ≠ p → LeAt es (q / 2) q) ∧ (∀ q, 2 ≤ p → q / 2 = p → LeAt es (p / 2) q)

/-- Heap order everywhere except between position `p` and its children, where the
parent of `p` is in order with the children of `p`: the state of the down-heap bubbling at `p`. -/
def DownOK (es : List (Elem α)) (p : Nat) : Prop :=
  (∀ q, 2 ≤ q → q / 2 ≠ p → LeAt es (q / 2) q) ∧ (∀ q, 2 ≤ p → q / 2 = p → LeAt es (p / 2) q)

/-- The heap stores the elements `es` (in level order) and is in heap order. -/
def Heap.Holds (t : Heap α) (es : List (Elem α)) : Prop :=
  CompleteBT.Stores t es ∧ OrdList es

/-- No trade is available between books whose level-order listings are `bs` and `ss`:
if neither is empty, the price of the first buy order (its key negated) is below the price
of the first sell order. -/
def Uncrossed (bs ss : List (Elem α)) : Prop :=
  ∀ b s, bs.head? = some b → ss.head? = some s → -b.key.price < s.key.price

/-- A call of the public interface of `Heap`. -/
inductive Heap.Call (α : Type) where
  | insert (e : Elem α)
  | removeMin
deriving DecidableEq

/-- A call of the public interface of `CompleteBT`, including the methods `Heap` adds. -/
inductive CompleteBT.Call (α : Type) where
  | add (e : Elem α)
  | remove
  | insert (e : Elem α)
  | removeMin
deriving DecidableEq

/-- Runs a sequence of `insert` / `removeMin` calls. -/
def Heap.run : List (Heap.Call α) → Heap α → Option (Heap α)
  | [], t => some t
  | Heap.Call.insert e :: cs, t =>
    match Heap.insert t e with
    | none => none
    | some t1 => Heap.run cs t1
  | Heap.Call.removeMin :: cs, t =>
    match Heap.removeMin t with
    | none => none
    | some t1 => Heap.run cs t1

/-- One call of the `CompleteBT` interface. -/
def CompleteBT.call (t : CompleteBT α) : CompleteBT.Call α → Option (CompleteBT α)
  | CompleteBT.Call.add e => (CompleteBT.add t e).map Prod.fst
  | CompleteBT.Call.remove => (CompleteBT.remove t).map Prod.fst
  | CompleteBT.Call.insert e => Heap.insert t e
  | CompleteBT.Call.removeMin => Heap.removeMin t

/-- Runs a sequence of `add` / `remove` / `insert` / `removeMin` calls. -/
def CompleteBT.run : List (CompleteBT.Call α) → CompleteBT α → Option (CompleteBT α)
  | [], t => some t
  | c :: cs, t =>
    match CompleteBT.call t c with
    | none => none
    | some t1 => CompleteBT.run cs t1

/-- Inserts the elements of a list, first to last. -/
def Heap.insertAll : List (Elem α) → Heap α → Option (Heap α)
  | [], t => some t
  | e :: es, t =>
    match Heap.insert t e with
    | none => none
    | some t1 => Heap.insertAll es t1

/-- Performs `k` times: read `min()`, then `removeMin()`; returns what `min()` gave, in order. -/
def Heap.drain : Nat → Heap α → Option (List (Option (Elem α)) × Heap α)
  | 0, t => some ([], t)
  | k + 1, t =>
    match Heap.min t with
    | none => none
    | some r =>
      match Heap.removeMin t with
      | none => none
      | some t1 =>
        match Heap.drain k t1 with
        | none => none
        | some (out, t2) => some (r :: out, t2)

/-- A submission to the market: `buy(price, num, id)` or `sell(price, num, id)`. -/
inductive StockMarket.Call (α : Type) where
  | buy (price : α) (num : Int) (id : Int)
  | sell (price : α) (num : Int) (id : Int)
deriving DecidableEq

/-- Runs a sequence of submissions. -/
def StockMarket.run : List (StockMarket.Call α) → StockMarket α → Option (StockMarket α)
  | [], m => some m
  | StockMarket.Call.buy price num id :: cs, m =>
    match m.buy price num id with
    | none => none
    | some m1 => StockMarket.run cs m1
  | StockMarket.Call.sell price num id :: cs, m =>
    match m.sell price num id with
    | none => none
    | some m1 => StockMarket.run cs m1

/-- A heap that some sequence of `insert` / `removeMin` calls builds from the empty heap. -/
def Heap.Reachable (t : Heap α) : Prop :=
  ∃ cs : List (Heap.Call α), Heap.run cs Heap.init = some t

/-- The record the ledger holds for trader `id`; a trader without a record counts as
`Record(id, 0.0, 0)` with empty histories, the record `trans` creates on first use. -/
def Ledger.recordOf (L : Ledger α) (id : Int) : Record α :=
  match L.book.lookup id with
  | some r => r
  | none => { id := id, balance := 0, holdings := 0, buyTrans := [], sellTrans := [] }

/-- The loop of `trade`, returning also the log of the trades it executed: for each
`processTrade` call, in order, the orders `min()` gave for the buy book and for the sell book
when the call was made. -/
def StockMarket.tradeLoopLog : Nat → StockMarket α → Bool →
    Option (StockMarket α × List (Elem α × Elem α))
  | 0, _, _ => none
  | fuel + 1, m, tradeAvail =>
    if tradeAvail && !(m.buyOrders.toBT.empty || m.sellOrders.toBT.empty) then
      match Heap.min m.buyOrders, Heap.min m.sellOrders with
      | some (some buyLimitOrder), some (some sellLimitOrder) =>
        let buyPrice := -buyLimitOrder.key.price
        let sellPrice := sellLimitOrder.key.price
        let marketSpread := sellPrice - buyPrice
        if marketSpread ≤ 0 then
          match m.processTrade with
          | none => none
          | some m1 =>
            match StockMarket.tradeLoopLog fuel m1 true with
            | none => none
            | some (m2, log) => some (m2, (buyLimitOrder, sellLimitOrder) :: log)
        else StockMarket.tradeLoopLog fuel m false
      | _, _ => none
    else some (m, [])

/-- Method `StockMarket::trade()`, returning also the log of the trades it executed. -/
def StockMarket.tradeLog (m : StockMarket α) : Option (StockMarket α × List (Elem α × Elem α)) :=
  if m.buyOrders.toBT.empty || m.sellOrders.toBT.empty then some (m, [])
  else StockMarket.tradeLoopLog ((m.buyOrders.n + m.sellOrders.n).toNat + 2) m true

/-- One submission (`StockMarket::buy` or `StockMarket::sell`), returning also the log of the
trades it executed. -/
def StockMarket.submitLog (m : StockMarket α) :
    StockMarket.Call α → Option (StockMarket α × List (Elem α × Elem α))
  | StockMarket.Call.buy price num id =>
    match ({ m with counter := m.counter + 1 } : StockMarket α).buyAux num price id m.counter with
    | none => none
    | some m1 => m1.tradeLog
  | StockMarket.Call.sell price num id =>
    match ({ m with counter := m.counter + 1 } : StockMarket α).sellAux num price id m.counter with
    | none => none
    | some m1 => m1.tradeLog

/-- Runs a sequence of submissions, returning also the log of all trades executed, in order. -/
def StockMarket.runLog : List (StockMarket.Call α) → StockMarket α →
    Option (StockMarket α × List (Elem α × Elem α))
  | [], m => some (m, [])
  | c :: cs, m =>
    match m.submitLog c with
    | none => none
    | some (m1, log1) =>
      match StockMarket.runLog cs m1 with
      | none => none
      | some (m2, log2) => some (m2, log1 ++ log2)

/-- What `processTrade` adds to the bank for a trade between the buy order `tr.1` and the sell
order `tr.2`: `priceDiff * numTrade`, the buy price being the negated key price. -/
def tradeGain (tr : Elem α × Elem α) : α :=
  (-tr.1.key.price - tr.2.key.price) * ((min tr.1.value.numShares tr.2.value.numShares : Int) : α)

/-- The quantity of a submission. -/
def StockMarket.Call.num : StockMarket.Call α → Int
  | StockMarket.Call.buy _ num _ => num
  | StockMarket.Call.sell _ num _ => num

/-- The order of which a trade between the orders `b` and `s` posts `q` shares to the
ledger on the side of `b`: the key and the trader of `b`, the quantity `q`. -/
def filled (b : Elem α) (q : Int) : Elem α :=
  { key := b.key, value := { numShares := q, traderID := b.value.traderID } }

/-- Every order resting in either book has a positive quantity. -/
def StockMarket.Positive (m : StockMarket α) : Prop :=
  ∀ es, CompleteBT.Stores m.buyOrders es ∨ CompleteBT.Stores m.sellOrders es →
    ∀ e ∈ es, 0 < e.value.numShares

/-- What holds of a trade of the matching loop between the buy order `tr.1` and the sell order
`tr.2` when all resting quantities are positive: the sell price does not exceed the buy price
(the negated key price), both quantities are positive, and the gain of the bank is not negative. -/
def GoodTrade (tr : Elem α × Elem α) : Prop :=
  tr.2.key.price ≤ -tr.1.key.price ∧ 0 < tr.1.value.numShares ∧ 0 < tr.2.value.numShares ∧
    0 ≤ tradeGain tr

/-- The child `removeNode` splices in: `(w->left) ? w->left : w->right`. -/
def Node.onlyChild (nd : Node α) : Ptr :=
  if nd.left.isSome then nd.left else nd.right

/-- Whether the submission is a `buy`. -/
def StockMarket.Call.isBuy : StockMarket.Call α → Bool
  | StockMarket.Call.buy _ _ _ => true
  | StockMarket.Call.sell _ _ _ => false

/-- The order `transAux` builds for a submission made at time `t`: the key price is
`price * -1.0` for a buy and `price * 1.0` for a sell. -/
def StockMarket.Call.order : StockMarket.Call α → Int → Elem α
  | StockMarket.Call.buy price num id, t => ⟨⟨-price, t⟩, ⟨num, id⟩⟩
  | StockMarket.Call.sell price num id, t => ⟨⟨price, t⟩, ⟨num, id⟩⟩

/-- The first statement of `StockMarket::buy` / `StockMarket::sell`:
`buyAux(num, price, id, counter++)`, resp. `sellAux(num, price, id, counter++)`. -/
def StockMarket.place (m : StockMarket α) : StockMarket.Call α → Option (StockMarket α)
  | StockMarket.Call.buy price num id =>
    ({ m with counter := m.counter + 1 } : StockMarket α).buyAux num price id m.counter
  | StockMarket.Call.sell price num id =>
    ({ m with counter := m.counter + 1 } : StockMarket α).sellAux num price id m.counter

/-- Total quantity of a list of orders. -/
def volume (es : List (Elem α)) : Int :=
  (es.map (fun e => e.value.numShares)).sum

/-- Sum of the balances of all records of the ledger. -/
def Ledger.totalBalance (L : Ledger α) : α :=
  (L.book.map (fun p => p.2.balance)).sum

/-- Total quantity of all buy-history entries of the ledger. -/
def Ledger.buyVolume (L : Ledger α) : Int :=
  (L.book.map (fun p => volume p.2.buyTrans)).sum

/-- Total quantity of all sell-history entries of the ledger. -/
def Ledger.sellVolume (L : Ledger α) : Int :=
  (L.book.map (fun p => volume p.2.sellTrans)).sum

/-- Every buy-history and sell-history entry of the ledger has a positive quantity. -/
def Ledger.Positive (L : Ledger α) : Prop :=
  ∀ p ∈ L.book, ∀ e ∈ p.2.buyTrans ++ p.2.sellTrans, 0 < e.value.numShares

/-- Total quantity of the buy orders among the submissions. -/
def submittedBuy (cs : List (StockMarket.Call α)) : Int :=
  (cs.map (fun c => if c.isBuy then c.num else 0)).sum

/-- Total quantity of the sell orders among the submissions. -/
def submittedSell (cs : List (StockMarket.Call α)) : Int :=
  (cs.map (fun c => if c.isBuy then 0 else c.num)).sum

end Definitions

/-! ## Machine arithmetic

The arithmetic of the usual targets, for the runs on which it differs from exact numbers:
`double` with NaN and infinities, `int` of 32 bits. -/

/-- The `double` values the examples use: the integers (which `double` holds exactly below
`2 ^ 53`), the two infinities and NaN. -/
inductive Dbl where
  | fin (k : Int)
  | posInf
  | negInf
  | nan
deriving DecidableEq

/-- Comparison `<` of `double`: false whenever an operand is NaN. -/
def Dbl.lt : Dbl → Dbl → Bool
  | Dbl.fin a, Dbl.fin b => decide (a < b)
  | Dbl.fin _, Dbl.posInf => true
  | Dbl.negInf, Dbl.fin _ => true
  | Dbl.negInf, Dbl.posInf => true
  | _, _ => false

/-- Comparison `==` of `double`: false whenever an operand is NaN. -/
def Dbl.eq : Dbl → Dbl → Bool
  | Dbl.fin a, Dbl.fin b => decide (a = b)
  | Dbl.posInf, Dbl.posInf => true
  | Dbl.negInf, Dbl.negInf => true
  | _, _ => false

/-- Comparison `<=` of `double`: false whenever an operand is NaN. -/
def Dbl.le (a b : Dbl) : Bool :=
  Dbl.lt a b || Dbl.eq a b

/-- Unary minus of `double`. -/
def Dbl.neg : Dbl → Dbl
  | Dbl.fin a => Dbl.fin (-a)
  | Dbl.posInf => Dbl.negInf
  | Dbl.negInf => Dbl.posInf
  | Dbl.nan => Dbl.nan

/-- Addition of `double`: NaN propagates, and `inf + (-inf)` is NaN. -/
def Dbl.add : Dbl → Dbl → Dbl
  | Dbl.fin a, Dbl.fin b => Dbl.fin (a + b)
  | Dbl.nan, _ => Dbl.nan
  | _, Dbl.nan => Dbl.nan
  | Dbl.posInf, Dbl.negInf => Dbl.nan
  | Dbl.negInf, Dbl.posInf => Dbl.nan
  | Dbl.posInf, _ => Dbl.posInf
  | _, Dbl.posInf => Dbl.posInf
  | Dbl.negInf, _ => Dbl.negInf
  | _, Dbl.negInf => Dbl.negInf

/-- Product of an infinity of sign `pos` with the integer `a`: NaN for `a = 0`. -/
def Dbl.mulInf (pos : Bool) (a : Int) : Dbl :=
  if a = 0 then Dbl.nan
  else if (decide (0 < a)) = pos then Dbl.posInf else Dbl.negInf

/-- Multiplication of `double`: NaN propagates, and `0 * inf` is NaN. -/
def Dbl.mul : Dbl → Dbl → Dbl
  | Dbl.fin a, Dbl.fin b => Dbl.fin (a * b)
  | Dbl.nan, _ => Dbl.nan
  | _, Dbl.nan => Dbl.nan
  | Dbl.fin a, Dbl.posInf => Dbl.mulInf true a
  | Dbl.fin a, Dbl.negInf => Dbl.mulInf false a
  | Dbl.posInf, Dbl.fin b => Dbl.mulInf true b
  | Dbl.negInf, Dbl.fin b => Dbl.mulInf false b
  | Dbl.posInf, Dbl.posInf => Dbl.posInf
  | Dbl.negInf, Dbl.negInf => Dbl.posInf
  | Dbl.posInf, Dbl.negInf => Dbl.negInf
  | Dbl.negInf, Dbl.posInf => Dbl.negInf

instance Dbl.instLT : LT Dbl :=
  ⟨fun a b => Dbl.lt a b = true⟩

instance Dbl.decLt (a b : Dbl) : Decidable (a < b) :=
  inferInstanceAs (Decidable (Dbl.lt a b = true))

instance Dbl.instLE : LE Dbl :=
  ⟨fun a b => Dbl.le a b = true⟩

instance Dbl.decLe (a b : Dbl) : Decidable (a ≤ b) :=
  inferInstanceAs (Decidable (Dbl.le a b = true))

instance (priority := 2000) Dbl.instBEq : BEq Dbl :=
  ⟨Dbl.eq⟩

instance Dbl.instAdd : Add Dbl :=
  ⟨Dbl.add⟩

instance Dbl.instNeg : Neg Dbl :=
  ⟨Dbl.neg⟩

instance Dbl.instSub : Sub Dbl :=
  ⟨fun a b => Dbl.add a (Dbl.neg b)⟩

instance Dbl.instMul : Mul Dbl :=
  ⟨Dbl.mul⟩

instance Dbl.instZero : Zero Dbl :=
  ⟨Dbl.fin 0⟩

instance Dbl.instOne : One Dbl :=
  ⟨Dbl.fin 1⟩

instance Dbl.instIntCast : IntCast Dbl :=
  ⟨Dbl.fin⟩

/-- The 32-bit `int` that holds the exact result `k` modulo `2 ^ 32` (two's complement): what
the usual targets leave after a signed overflow. -/
def wrap32 (k : Int) : Int :=
  (k + 2147483648) % 4294967296 - 2147483648

/-- Machine arithmetic: with `double` modelled by `Dbl`, `int` operations wrap at 32 bits. -/
instance Dbl.instIntArith : IntArith Dbl :=
  ⟨wrap32⟩

/-! ## Sample inputs -/

/-- Three orders with distinct keys: prices 5, 3, 5 at times 0, 1, 2. -/
def sampleOrders : List (Elem Int) :=
  [⟨⟨5, 0⟩, ⟨10, 1⟩⟩, ⟨⟨3, 1⟩, ⟨4, 2⟩⟩, ⟨⟨5, 2⟩, ⟨7, 3⟩⟩]

/-- The calls that build `sampleHeap`: insert the orders (5, 0) and (3, 1). -/
def sampleCalls : List (Heap.Call Int) :=
  [Heap.Call.insert ⟨⟨5, 0⟩, ⟨10, 1⟩⟩, Heap.Call.insert ⟨⟨3, 1⟩, ⟨4, 2⟩⟩]

/-- The heap the calls `sampleCalls` build from the empty heap. -/
def sampleHeap : Heap Int :=
  { mem := [⟨⟨⟨3, 1⟩, ⟨4, 2⟩⟩, some 1, none, none⟩, ⟨⟨⟨5, 0⟩, ⟨10, 1⟩⟩, none, none, some 0⟩],
    root := some 0, n := 2, lastNode := some 1 }

/-- A buy book holding one order: 10 shares at 105, time 0, trader 1 (the key price is negated). -/
def sampleBuyBook : Heap Int :=
  { mem := [⟨⟨⟨-105, 0⟩, ⟨10, 1⟩⟩, none, none, none⟩], root := some 0, n := 1, lastNode := some 0 }

/-- A sell book holding one order: 4 shares at 100, time 1, trader 2. -/
def sampleSellBook : Heap Int :=
  { mem := [⟨⟨⟨100, 1⟩, ⟨4, 2⟩⟩, none, none, none⟩], root := some 0, n := 1, lastNode := some 0 }

/-- A market holding the two sample books, as it is when the matching loop starts. -/
def sampleMarket : StockMarket Int :=
  { buyOrders := sampleBuyBook, sellOrders := sampleSellBook, books := Ledger.init, bank := 0,
    counter := 2 }

/-- Three orders with one and the same key (price 5, time 0), told apart by their traders. -/
def tieCalls : List (Heap.Call Int) :=
  [Heap.Call.insert ⟨⟨5, 0⟩, ⟨1, 1⟩⟩, Heap.Call.insert ⟨⟨5, 0⟩, ⟨1, 2⟩⟩,
    Heap.Call.insert ⟨⟨5, 0⟩, ⟨1, 3⟩⟩]

/-- The heap the calls `tieCalls` build: a root whose two children have equal keys. -/
def tieHeap : Heap Int :=
  { mem := [⟨⟨⟨5, 0⟩, ⟨1, 1⟩⟩, some 1, some 2, none⟩, ⟨⟨⟨5, 0⟩, ⟨1, 2⟩⟩, none, none, some 0⟩,
      ⟨⟨⟨5, 0⟩, ⟨1, 3⟩⟩, none, none, some 0⟩],
    root := some 0, n := 3, lastNode := some 2 }

/-- A sell order of 4 shares at 100, time 1, trader 2. -/
def sampleSell : Elem Int :=
  ⟨⟨100, 1⟩, ⟨4, 2⟩⟩

/-- The market after `sell(100, 4, 2)` on the initial market: one resting sell order. -/
def restingMarket : StockMarket Int :=
  { buyOrders := Heap.init,
    sellOrders :=
      { mem := [⟨⟨⟨100, 0⟩, ⟨4, 2⟩⟩, none, none, none⟩], root := some 0, n := 1,
        lastNode := some 0 },
    books := Ledger.init, bank := 0, counter := 1 }

/-- A market in the middle of a submission, with several orders in each book: buys of 5 shares
at 10 (time 0), 10 (time 1) and 9 (time 2); sells at 12 (time 3), 11 (time 4) and the order
just placed, 3 shares at 10 (time 5). -/
def priorityMarket : StockMarket Int :=
  { buyOrders :=
      { mem := [⟨⟨⟨-10, 0⟩, ⟨5, 1⟩⟩, some 1, some 2, none⟩, ⟨⟨⟨-10, 1⟩, ⟨5, 2⟩⟩, none, none, some 0⟩,
          ⟨⟨⟨-9, 2⟩, ⟨5, 3⟩⟩, none, none, some 0⟩],
        root := some 0, n := 3, lastNode := some 2 },
    sellOrders :=
      { mem := [⟨⟨⟨10, 5⟩, ⟨3, 6⟩⟩, some 1, some 2, none⟩, ⟨⟨⟨12, 3⟩, ⟨5, 4⟩⟩, none, none, some 0⟩,
          ⟨⟨⟨11, 4⟩, ⟨5, 5⟩⟩, none, none, some 0⟩],
        root := some 0, n := 3, lastNode := some 2 },
    books := Ledger.init, bank := 0, counter := 6 }

/-! ## Sample inputs on the machine arithmetic -/

/-- Four orders with pairwise distinct keys, one of them with the price NaN: prices 0, 1,
NaN, 5 at times 0, 1, 2, 3. -/
def nanOrders : List (Elem Dbl) :=
  [⟨⟨Dbl.fin 0, 0⟩, ⟨1, 1⟩⟩, ⟨⟨Dbl.fin 1, 1⟩, ⟨1, 2⟩⟩, ⟨⟨Dbl.nan, 2⟩, ⟨1, 3⟩⟩,
    ⟨⟨Dbl.fin 5, 3⟩, ⟨1, 4⟩⟩]

/-- The calls that build `nanHeap`: insert the four orders `nanOrders`, then `removeMin`. -/
def nanCalls : List (Heap.Call Dbl) :=
  nanOrders.map Heap.Call.insert ++ [Heap.Call.removeMin]

/-- The heap the calls `nanCalls` build: 5 at the root, 1 and NaN below it (the node at
address 3 is the one `removeMin` unlinked). -/
def nanHeap : Heap Dbl :=
  { mem := [⟨⟨⟨Dbl.fin 5, 3⟩, ⟨1, 4⟩⟩, some 1, some 2, none⟩,
      ⟨⟨⟨Dbl.fin 1, 1⟩, ⟨1, 2⟩⟩, none, none, some 0⟩,
      ⟨⟨⟨Dbl.nan, 2⟩, ⟨1, 3⟩⟩, none, none, some 0⟩,
      ⟨⟨⟨Dbl.fin 0, 0⟩, ⟨1, 1⟩⟩, none, none, some 1⟩],
    root := some 0, n := 3, lastNode := some 2 }

/-- The market after `buy(NaN, 1, 1)` and `sell(5, 1, 2)`. -/
def nanMarket : Option (StockMarket Dbl) :=
  StockMarket.run [StockMarket.Call.buy Dbl.nan 1 1, StockMarket.Call.sell (Dbl.fin 5) 1 2]
    StockMarket.init

/-- The market when the matching loop starts in the last of the submissions `buy(10, 1, 1)`,
`buy(9, 1, 2)`, `buy(NaN, 1, 3)`, `buy(5, 1, 4)`, `sell(10, 1, 5)`, `sell(4, 1, 6)`. -/
def nanPriorityMarket : Option (StockMarket Dbl) :=
  (StockMarket.run [StockMarket.Call.buy (Dbl.fin 10) 1 1, StockMarket.Call.buy (Dbl.fin 9) 1 2,
    StockMarket.Call.buy Dbl.nan 1 3, StockMarket.Call.buy (Dbl.fin 5) 1 4,
    StockMarket.Call.sell (Dbl.fin 10) 1 5] StockMarket.init).bind
    (fun m => m.place (StockMarket.Call.sell (Dbl.fin 4) 1 6))

/-- The buy book of `nanPriorityMarket`: 5 at the root, 9 and NaN below it (the node at
address 3 is unlinked). -/
def nanBuyBook : Heap Dbl :=
  { mem := [⟨⟨⟨Dbl.fin (-5), 3⟩, ⟨1, 4⟩⟩, some 1, some 2, none⟩,
      ⟨⟨⟨Dbl.fin (-9), 1⟩, ⟨1, 2⟩⟩, none, none, some 0⟩,
      ⟨⟨⟨Dbl.nan, 2⟩, ⟨1, 3⟩⟩, none, none, some 0⟩,
      ⟨⟨⟨Dbl.fin (-10), 0⟩, ⟨1, 1⟩⟩, none, none, some 1⟩],
    root := some 0, n := 3, lastNode := some 2 }

/-- The market when the matching loop starts in the second of the submissions
`sell(1, -2, 2)`, `buy(1, 2147483647, 1)`. -/
def overflowMarket : Option (StockMarket Dbl) :=
  (StockMarket.run [StockMarket.Call.sell (Dbl.fin 1) (-2) 2] StockMarket.init).bind
    (fun m => m.place (StockMarket.Call.buy (Dbl.fin 1) 2147483647 1))

/-- The market when the matching loop starts in the last of the submissions
`sell(1, 2147483647, 2)`, `buy(1, 2147483647, 1)`, `sell(1, 1, 3)`, `buy(1, 1, 1)`. -/
def holdingsMarket : Option (StockMarket Dbl) :=
  (StockMarket.run [StockMarket.Call.sell (Dbl.fin 1) 2147483647 2,
    StockMarket.Call.buy (Dbl.fin 1) 2147483647 1, StockMarket.Call.sell (Dbl.fin 1) 1 3]
    StockMarket.init).bind (fun m => m.place (StockMarket.Call.buy (Dbl.fin 1) 1 1))

/-- A ledger in which trader 1 holds 2147483647 shares: one buy posting on the empty ledger. -/
def fullLedger : Ledger Dbl :=
  (Ledger.init : Ledger Dbl).trans ⟨⟨Dbl.fin (-1), 0⟩, ⟨2147483647, 1⟩⟩ true

/-! # Proofs -/

set_option linter.unusedSectionVars false

section Proofs

variable {α : Type} [LinearOrderedCommRing α]

/-- Over exact numbers no `int` operation overflows. -/
@[simp]
theorem wrapInt_exact (k : Int) : wrapInt α k = k :=
  rfl

/-! ## Positions and addresses -/

theorem atPos_zero (as : List Nat) : atPos as 0 = none := by
  simp [atPos]

theorem atPos_of_pos {as : List Nat} {p : Nat} (h : 1 ≤ p) : atPos as p = as[p - 1]? := by
  have : p ≠ 0 := by omega
  simp [atPos, this]

theorem atPos_eq_some {as : List Nat} {p a : Nat} (h : atPos as p = some a) :
    1 ≤ p ∧ p ≤ as.length ∧ as[p - 1]? = some a := by
  unfold atPos at h
  split at h
  · cases h
  · have hlt := (List.getElem?_eq_some.mp h).1
    exact ⟨by omega, by omega, h⟩

theorem atPos_eq_none {as : List Nat} {p : Nat} (h : as.length < p) : atPos as p = none := by
  unfold atPos
  split
  · rfl
  · exact List.getElem?_eq_none (by omega)

theorem atPos_isSome (as : List Nat) (p : Nat) (h1 : 1 ≤ p) (h2 : p ≤ as.length) :
    ∃ a, atPos as p = some a := by
  rw [atPos_of_pos h1]
  have hlt : p - 1 < as.length := by omega
  exact ⟨as[p - 1], List.getElem?_eq_getElem hlt⟩

theorem atPos_inj {as : List Nat} (hn : as.Nodup) {p q a : Nat}
    (hp : atPos as p = some a) (hq : atPos as q = some a) : p = q := by
  obtain ⟨p1, p2, p3⟩ := atPos_eq_some hp
  obtain ⟨q1, q2, q3⟩ := atPos_eq_some hq
  obtain ⟨hpl, hpe⟩ := List.getElem?_eq_some.mp p3
  obtain ⟨hql, hqe⟩ := List.getElem?_eq_some.mp q3
  have := (List.Nodup.getElem_inj_iff hn).mp (hpe.trans hqe.symm)
  omega

theorem atPos_eq_iff {as : List Nat} (hn : as.Nodup) {p q a : Nat}
    (hp : atPos as p = some a) : atPos as q = some a ↔ q = p := by
  constructor
  · intro hq
    exact atPos_inj hn hq hp
  · intro h
    rw [h]
    exact hp

theorem atPos_mem {as : List Nat} {p a : Nat} (h : atPos as p = some a) : a ∈ as := by
  obtain ⟨_, _, h3⟩ := atPos_eq_some h
  exact List.mem_iff_getElem?.mpr ⟨p - 1, h3⟩

theorem mem_atPos {as : List Nat} {a : Nat} (h : a ∈ as) : ∃ p, atPos as p = some a := by
  obtain ⟨i, hi⟩ := List.mem_iff_getElem?.mp h
  refine ⟨i + 1, ?_⟩
  rw [atPos_of_pos (by omega)]
  simpa using hi

namespace CompleteBT.Rep

variable {t : CompleteBT α} {as : List Nat} {es : List (Elem α)}

/-- The node stored at the address of position `p`. -/
theorem read (h : CompleteBT.Rep t as es) {p a : Nat} (hp : atPos as p = some a) :
    ∃ e, es[p - 1]? = some e ∧ t.mem[a]? = some
      { elem := e, left := atPos as (2 * p), right := atPos as (2 * p + 1), parent := atPos as (p / 2) } := by
  obtain ⟨h1, h2, h3⟩ := atPos_eq_some hp
  obtain ⟨a1, e, ha, he, hm⟩ := h.node p h1 h2
  rw [h3] at ha
  cases ha
  exact ⟨e, he, hm⟩

theorem addr_lt (h : CompleteBT.Rep t as es) {p a : Nat} (hp : atPos as p = some a) :
    a < t.mem.length := by
  obtain ⟨e, _, hm⟩ := h.read hp
  exact (List.getElem?_eq_some.mp hm).1

end CompleteBT.Rep

/-! ## The climbing and descending loops -/

theorem ancestorLoop_left {t : CompleteBT α} {as : List Nat} {es : List (Elem α)}
    (h : CompleteBT.Rep t as es) :
    ∀ (fuel p z : Nat), p < 2 ^ fuel → atPos as p = some z →
      ∃ q k, p + 1 = (q + 1) * 2 ^ k ∧ (q = 1 ∨ q % 2 = 0) ∧ 1 ≤ q ∧
        BT.ancestorLoop t.mem true fuel z (atPos as (p / 2)) = some (atPos as (q / 2)) := by
  intro fuel
  induction fuel with
  | zero =>
    intro p z hp hz
    have := (atPos_eq_some hz).1
    simp at hp
    omega
  | succ f ih =>
    intro p z hp hz
    obtain ⟨h1, h2, _⟩ := atPos_eq_some hz
    by_cases hp1 : p = 1
    · subst hp1
      refine ⟨1, 0, by simp, Or.inl rfl, le_refl _, ?_⟩
      simp [atPos, BT.ancestorLoop]
    · obtain ⟨xa, hxa⟩ := atPos_isSome as (p / 2) (by omega) (by omega)
      obtain ⟨e, _, hm⟩ := h.read hxa
      rw [hxa]
      simp only [BT.ancestorLoop, hm, if_true]
      by_cases hodd : p % 2 = 1
      · have hr : atPos as (2 * (p / 2) + 1) = some z := by
          have : 2 * (p / 2) + 1 = p := by omega
          rw [this]; exact hz
        rw [if_pos hr]
        have hlt : p / 2 < 2 ^ f := by
          rw [pow_succ] at hp
          omega
        obtain ⟨q, k, hq1, hq2, hq3, hq4⟩ := ih (p / 2) xa hlt hxa
        refine ⟨q, k + 1, ?_, hq2, hq3, hq4⟩
        rw [pow_succ, ← mul_assoc, ← hq1]
        omega
      · have hr : ¬ atPos as (2 * (p / 2) + 1) = some z := by
          intro hc
          have := atPos_inj h.nodup hc hz
          omega
        rw [if_neg hr]
        exact ⟨p, 0, by simp, Or.inr (by omega), h1, by rw [hxa]⟩

theorem ancestorLoop_right {t : CompleteBT α} {as : List Nat} {es : List (Elem α)}
    (h : CompleteBT.Rep t as es) :
    ∀ (fuel p z : Nat), p < 2 ^ fuel → atPos as p = some z →
      ∃ q k, p = q * 2 ^ k ∧ q % 2 = 1 ∧
        BT.ancestorLoop t.mem false fuel z (atPos as (p / 2)) = some (atPos as (q / 2)) := by
  intro fuel
  induction fuel with
  | zero =>
    intro p z hp hz
    have := (atPos_eq_some hz).1
    simp at hp
    omega
  | succ f ih =>
    intro p z hp hz
    obtain ⟨h1, h2, _⟩ := atPos_eq_some hz
    by_cases hp1 : p = 1
    · subst hp1
      refine ⟨1, 0, by simp, rfl, ?_⟩
      simp [atPos, BT.ancestorLoop]
    · obtain ⟨xa, hxa⟩ := atPos_isSome as (p / 2) (by omega) (by omega)
      obtain ⟨e, _, hm⟩ := h.read hxa
      rw [hxa]
      simp only [BT.ancestorLoop, hm]
      by_cases heven : p % 2 = 0
      · have hr : atPos as (2 * (p / 2)) = some z := by
          have : 2 * (p / 2) = p := by omega
          rw [this]; exact hz
        simp only [Bool.false_eq_true, if_false]
        rw [if_pos hr]
        have hlt : p / 2 < 2 ^ f := by
          rw [pow_succ] at hp
          omega
        obtain ⟨q, k, hq1, hq2, hq4⟩ := ih (p / 2) xa hlt hxa
        refine ⟨q, k + 1, ?_, hq2, hq4⟩
        rw [pow_succ, ← mul_assoc, ← hq1]
        omega
      · have hr : ¬ atPos as (2 * (p / 2)) = some z := by
          intro hc
          have := atPos_inj h.nodup hc hz
          omega
        simp only [Bool.false_eq_true, if_false]
        rw [if_neg hr]
        exact ⟨p, 0, by simp, by omega, by rw [hxa]⟩

theorem descendantLoop_left {t : CompleteBT α} {as : List Nat} {es : List (Elem α)}
    (h : CompleteBT.Rep t as es) :
    ∀ (fuel p w : Nat), as.length < p * 2 ^ fuel → atPos as p = some w →
      ∃ j, p * 2 ^ j ≤ as.length ∧ as.length < p * 2 ^ (j + 1) ∧
        BT.descendantLoop t.mem true fuel w = some (atPos as (p * 2 ^ j)) := by
  intro fuel
  induction fuel with
  | zero =>
    intro p w hp hw
    have := (atPos_eq_some hw).2.1
    simp at hp
    omega
  | succ f ih =>
    intro p w hp hw
    obtain ⟨h1, h2, _⟩ := atPos_eq_some hw
    obtain ⟨e, _, hm⟩ := h.read hw
    simp only [BT.descendantLoop, hm, if_true]
    by_cases hc : 2 * p ≤ as.length
    · obtain ⟨c, hca⟩ := atPos_isSome as (2 * p) (by omega) hc
      rw [hca]
      have hlt : as.length < 2 * p * 2 ^ f := by
        rw [pow_succ] at hp
        calc as.length < p * (2 ^ f * 2) := hp
          _ = 2 * p * 2 ^ f := by ring
      obtain ⟨j, hj1, hj2, hj3⟩ := ih (2 * p) c hlt hca
      refine ⟨j + 1, ?_, ?_, ?_⟩
      · calc p * 2 ^ (j + 1) = 2 * p * 2 ^ j := by rw [pow_succ]; ring
          _ ≤ as.length := hj1
      · calc as.length < 2 * p * 2 ^ (j + 1) := hj2
          _ = p * 2 ^ (j + 1 + 1) := by rw [pow_succ, pow_succ, pow_succ]; ring
      · show BT.descendantLoop t.mem true f c = _
        rw [hj3]
        congr 2
        rw [pow_succ]; ring
    · rw [atPos_eq_none (by omega)]
      refine ⟨0, by simpa using h2, by simp; omega, ?_⟩
      simp [hw]

theorem descendantLoop_right {t : CompleteBT α} {as : List Nat} {es : List (Elem α)}
    (h : CompleteBT.Rep t as es) :
    ∀ (fuel p w : Nat), as.length + 1 < (p + 1) * 2 ^ fuel → atPos as p = some w →
      ∃ j, (p + 1) * 2 ^ j ≤ as.length + 1 ∧ as.length + 1 < (p + 1) * 2 ^ (j + 1) ∧
        BT.descendantLoop t.mem false fuel w = some (atPos as ((p + 1) * 2 ^ j - 1)) := by
  intro fuel
  induction fuel with
  | zero =>
    intro p w hp hw
    have := (atPos_eq_some hw).2.1
    simp at hp
    omega
  | succ f ih =>
    intro p w hp hw
    obtain ⟨h1, h2, _⟩ := atPos_eq_some hw
    obtain ⟨e, _, hm⟩ := h.read hw
    simp only [BT.descendantLoop, hm, Bool.false_eq_true, if_false]
    by_cases hc : 2 * p + 1 ≤ as.length
    · obtain ⟨c, hca⟩ := atPos_isSome as (2 * p + 1) (by omega) hc
      rw [hca]
      have hlt : as.length + 1 < (2 * p + 1 + 1) * 2 ^ f := by
        rw [pow_succ] at hp
        calc as.length + 1 < (p + 1) * (2 ^ f * 2) := hp
          _ = (2 * p + 1 + 1) * 2 ^ f := by ring
      obtain ⟨j, hj1, hj2, hj3⟩ := ih (2 * p + 1) c hlt hca
      have e1 : (2 * p + 1 + 1) * 2 ^ j = (p + 1) * 2 ^ (j + 1) := by rw [pow_succ]; ring
      have e2 : (2 * p + 1 + 1) * 2 ^ (j + 1) = (p + 1) * 2 ^ (j + 1 + 1) := by
        rw [pow_succ, pow_succ, pow_succ]; ring
      refine ⟨j + 1, ?_, ?_, ?_⟩
      · rw [← e1]; exact hj1
      · rw [← e2]; exact hj2
      · show BT.descendantLoop t.mem false f c = _
        rw [hj3, e1]
    · rw [atPos_eq_none (by omega)]
      refine ⟨0, by simp; omega, by simp; omega, ?_⟩
      simp [hw]

/-! ## Arithmetic of positions -/

theorem mul_pow_mono (a : Nat) {j k : Nat} (h : j ≤ k) : a * 2 ^ j ≤ a * 2 ^ k :=
  Nat.mul_le_mul_left a (Nat.pow_le_pow_right (by decide) h)

theorem mul_pow_double (a : Nat) {j k : Nat} (h : j < k) : 2 * (a * 2 ^ j) ≤ a * 2 ^ k := by
  have h1 : a * 2 ^ (j + 1) ≤ a * 2 ^ k := mul_pow_mono a h
  rw [pow_succ] at h1
  calc 2 * (a * 2 ^ j) = a * (2 ^ j * 2) := by ring
    _ ≤ a * 2 ^ k := h1

/-- Descending left from `a` after the last position is `a * 2 ^ k - 1` stops at half of `a * 2 ^ k`. -/
theorem pos_left_descent {a n j k : Nat} (ha : 1 ≤ a) (h1 : a * 2 ^ j ≤ n)
    (h2 : n < a * 2 ^ (j + 1)) (h3 : n + 1 = a * 2 ^ k) : a * 2 ^ j = (n + 1) / 2 := by
  have hjk : j < k := by
    by_contra hc
    have := mul_pow_mono a (Nat.le_of_not_lt hc)
    omega
  have hkj : k ≤ j + 1 := by
    by_contra hc
    have := mul_pow_double a (Nat.lt_of_not_le hc)
    have hpos : 1 ≤ a * 2 ^ (j + 1) := Nat.mul_pos ha (Nat.two_pow_pos _)
    omega
  have hk : k = j + 1 := by omega
  subst hk
  rw [pow_succ] at h3
  have : a * (2 ^ j * 2) = 2 * (a * 2 ^ j) := by ring
  omega

/-- Descending right from the root of a tree whose last position is a power of two. -/
theorem pos_right_descent_root {n i j : Nat} (hn : 2 ≤ n) (hj : n = 1 * 2 ^ j)
    (h1 : (1 + 1) * 2 ^ i ≤ n + 1) (h2 : n + 1 < (1 + 1) * 2 ^ (i + 1)) :
    (1 + 1) * 2 ^ i - 1 = n - 1 := by
  have hj1 : 1 ≤ j := by
    rcases Nat.eq_zero_or_pos j with h0 | h0
    · subst h0
      simp at hj
      omega
    · exact h0
  obtain ⟨j0, rfl⟩ : ∃ j0, j = j0 + 1 := ⟨j - 1, by omega⟩
  rw [pow_succ] at hj
  have hij : i ≤ j0 := by
    by_contra hc
    have := mul_pow_double 1 (Nat.lt_of_not_le hc)
    omega
  have hji : j0 ≤ i := by
    by_contra hc
    have := mul_pow_double 1 (Nat.lt_of_not_le hc)
    rw [pow_succ] at h2
    omega
  have : i = j0 := by omega
  subst this
  omega

/-- Descending right from position `q - 1` when the last position is `q * 2 ^ k` with `q ≥ 3`. -/
theorem pos_right_descent {n q i k : Nat} (hq : 3 ≤ q) (hk : n = q * 2 ^ k)
    (h1 : (q - 1 + 1) * 2 ^ i ≤ n + 1) (h2 : n + 1 < (q - 1 + 1) * 2 ^ (i + 1)) :
    (q - 1 + 1) * 2 ^ i - 1 = n - 1 := by
  have e : q - 1 + 1 = q := by omega
  rw [e] at h1 h2 ⊢
  have hik : i ≤ k := by
    by_contra hc
    have := mul_pow_double q (Nat.lt_of_not_le hc)
    have hpos : 1 ≤ 2 ^ k := Nat.two_pow_pos _
    have : 3 * 1 ≤ q * 2 ^ k := Nat.mul_le_mul hq hpos
    omega
  have hki : k ≤ i := by
    by_contra hc
    have h3 : i + 1 ≤ k := by omega
    have := mul_pow_mono q h3
    omega
  have : i = k := by omega
  subst this
  omega

theorem nodup_length_le {as : List Nat} {m : Nat} (hn : as.Nodup) (hb : ∀ a ∈ as, a < m) :
    as.length ≤ m := by
  have h1 : as.toFinset ⊆ Finset.range m := by
    intro a ha
    simp only [List.mem_toFinset] at ha
    exact Finset.mem_range.mpr (hb a ha)
  have h2 := Finset.card_le_card h1
  rw [List.toFinset_card_of_nodup hn, Finset.card_range] at h2
  exact h2

namespace CompleteBT.Rep

variable {t : CompleteBT α} {as : List Nat} {es : List (Elem α)}

theorem length_le (h : CompleteBT.Rep t as es) : as.length ≤ t.mem.length := by
  apply nodup_length_le h.nodup
  intro a ha
  obtain ⟨p, hp⟩ := mem_atPos ha
  exact h.addr_lt hp

theorem length_lt_pow (h : CompleteBT.Rep t as es) : as.length < 2 ^ (t.mem.length + 1) :=
  calc as.length ≤ t.mem.length := h.length_le
    _ < 2 ^ t.mem.length := Nat.lt_two_pow _
    _ ≤ 2 ^ (t.mem.length + 1) := Nat.pow_le_pow_right (by decide) (Nat.le_succ _)

end CompleteBT.Rep

/-! ## Where the next node goes, and which node becomes last -/

theorem getParentOfNewLastNode_spec {t : CompleteBT α} {as : List Nat} {es : List (Elem α)}
    (h : CompleteBT.Rep t as es) (hne : 1 ≤ as.length) :
    t.getParentOfNewLastNode = some (atPos as ((as.length + 1) / 2)) := by
  obtain ⟨la, hla⟩ := atPos_isSome as (as.length) hne (le_refl _)
  obtain ⟨e, _, hm⟩ := h.read hla
  have hpow := h.length_lt_pow
  unfold CompleteBT.getParentOfNewLastNode
  rw [h.last, hla]
  simp only [Mem.read, hm]
  by_cases h1 : as.length = 1
  · have : atPos as (as.length / 2) = none := by
      rw [h1]; exact atPos_zero as
    simp only [this, Option.isNone_none, if_true]
    rw [← hla, h1]
  · obtain ⟨pa, hpa⟩ := atPos_isSome as (as.length / 2) (by omega) (by omega)
    obtain ⟨pe, _, hpm⟩ := h.read hpa
    simp only [hpa, Option.isNone_some, Bool.false_eq_true, if_false, hpm]
    by_cases hev : as.length % 2 = 0
    · have : atPos as (2 * (as.length / 2) + 1) = none := atPos_eq_none (by omega)
      simp only [this, Option.isNone_none, if_true]
      rw [← hpa]
      congr 2
      omega
    · have hr : atPos as (2 * (as.length / 2) + 1) = some la := by
        have : 2 * (as.length / 2) + 1 = as.length := by omega
        rw [this]; exact hla
      simp only [hr, Option.isNone_some, Bool.false_eq_true, if_false]
      obtain ⟨q, k, hq1, hq2, hq3, hq4⟩ := ancestorLoop_left h (t.mem.length + 1) as.length la hpow hla
      simp only [BT.firstLeftAncestor, BT.youngestAncestorType, hm, hq4]
      have hk : 1 ≤ k := by
        rcases Nat.eq_zero_or_pos k with h0 | h0
        · subst h0
          simp at hq1
          omega
        · exact h0
      rcases hq2 with hq2 | hq2
      · subst hq2
        obtain ⟨ra, hra⟩ := atPos_isSome as (1) (le_refl _) hne
        have h0 : atPos as (1 / 2) = none := atPos_zero as
        rw [h0]
        simp only [BT.lastLeftDescendant, BT.youngestDescendantType, h.root, hra]
        have hf : as.length < 1 * 2 ^ (t.mem.length + 1) := by omega
        obtain ⟨j, hj1, hj2, hj3⟩ := descendantLoop_left h (t.mem.length + 1) 1 ra hf hra
        rw [hj3]
        have hq1' : as.length + 1 = 1 * 2 ^ (k + 1) := by
          rw [hq1, pow_succ]; ring
        rw [pos_left_descent (le_refl 1) hj1 hj2 hq1']
      · have hqk : 2 * (q + 1) ≤ as.length + 1 := by
          have := mul_pow_mono (q + 1) hk
          simp only [pow_one] at this
          omega
        obtain ⟨wa, hwa⟩ := atPos_isSome as (q / 2) (by omega) (by omega)
        obtain ⟨we, _, hwm⟩ := h.read hwa
        rw [hwa]
        simp only [hwm]
        obtain ⟨ra, hra⟩ := atPos_isSome as (q + 1) (by omega) (by omega)
        have e1 : 2 * (q / 2) + 1 = q + 1 := by omega
        rw [e1, hra]
        simp only [Option.isSome_some, if_true, BT.lastLeftDescendant, BT.youngestDescendantType]
        have hf : as.length < (q + 1) * 2 ^ (t.mem.length + 1) := by
          calc as.length < 1 * 2 ^ (t.mem.length + 1) := by omega
            _ ≤ (q + 1) * 2 ^ (t.mem.length + 1) := Nat.mul_le_mul_right _ (by omega)
        obtain ⟨j, hj1, hj2, hj3⟩ := descendantLoop_left h (t.mem.length + 1) (q + 1) ra hf hra
        rw [hj3, pos_left_descent (by omega) hj1 hj2 hq1]

theorem getNewLastNode_spec {t : CompleteBT α} {as : List Nat} {es : List (Elem α)}
    (h : CompleteBT.Rep t as es) (hne : 1 ≤ as.length) :
    t.getNewLastNode = some (atPos as (as.length - 1)) := by
  obtain ⟨la, hla⟩ := atPos_isSome as (as.length) hne (le_refl _)
  obtain ⟨e, _, hm⟩ := h.read hla
  have hpow := h.length_lt_pow
  unfold CompleteBT.getNewLastNode
  rw [h.last, hla]
  simp only [Mem.read, hm]
  by_cases h1 : as.length = 1
  · have : atPos as (as.length / 2) = none := by
      rw [h1]; exact atPos_zero as
    simp only [this, Option.isNone_none, if_true]
    rw [h1]
    exact congrArg some (atPos_zero as).symm
  · obtain ⟨pa, hpa⟩ := atPos_isSome as (as.length / 2) (by omega) (by omega)
    obtain ⟨pe, _, hpm⟩ := h.read hpa
    simp only [hpa, Option.isNone_some, Bool.false_eq_true, if_false, hpm]
    obtain ⟨ra, hra⟩ := atPos_isSome as (1) (le_refl _) hne
    have hf : as.length < 1 * 2 ^ (t.mem.length + 1) := by omega
    obtain ⟨j, hj1, hj2, hj3⟩ := descendantLoop_left h (t.mem.length + 1) 1 ra hf hra
    simp only [BT.lastLeftDescendant, BT.lastRightDescendant, BT.youngestDescendantType, h.root,
      hra, hj3]
    by_cases hpw : as.length = 1 * 2 ^ j
    · have hc : some la = atPos as (1 * 2 ^ j) := by
        rw [← hpw, hla]
      rw [if_pos hc]
      have hf2 : as.length + 1 < (1 + 1) * 2 ^ (t.mem.length + 1) := by omega
      obtain ⟨i, hi1, hi2, hi3⟩ := descendantLoop_right h (t.mem.length + 1) 1 ra hf2 hra
      rw [hi3, pos_right_descent_root (by omega) hpw hi1 hi2]
    · have hc : ¬ some la = atPos as (1 * 2 ^ j) := by
        intro hc
        have := atPos_inj h.nodup hc.symm hla
        omega
      rw [if_neg hc]
      by_cases hodd : as.length % 2 = 1
      · have hr : atPos as (2 * (as.length / 2) + 1) = some la := by
          have : 2 * (as.length / 2) + 1 = as.length := by omega
          rw [this]; exact hla
        rw [if_pos hr.symm]
        congr 2
        omega
      · have hr : ¬ some la = atPos as (2 * (as.length / 2) + 1) := by
          intro hc
          have := atPos_inj h.nodup hc.symm hla
          omega
        rw [if_neg hr]
        obtain ⟨q, k, hq1, hq2, hq4⟩ := ancestorLoop_right h (t.mem.length + 1) as.length la hpow hla
        simp only [BT.firstRightAncestor, BT.youngestAncestorType, hm, hq4]
        have hq3 : 3 ≤ q := by
          by_contra hq
          have hq1' : q = 1 := by omega
          subst hq1'
          have hjk : j = k := by
            have a1 : j ≤ k := by
              by_contra hcc
              have := mul_pow_double 1 (Nat.lt_of_not_le hcc)
              omega
            have a2 : k ≤ j := by
              by_contra hcc
              have := mul_pow_mono 1 (show j + 1 ≤ k by omega)
              omega
            omega
          subst hjk
          exact hpw hq1
        have hql : q ≤ as.length := by
          have hpos : 1 ≤ 2 ^ k := Nat.two_pow_pos _
          calc q = q * 1 := (Nat.mul_one q).symm
            _ ≤ q * 2 ^ k := Nat.mul_le_mul_left q hpos
            _ = as.length := hq1.symm
        obtain ⟨wa, hwa⟩ := atPos_isSome as (q / 2) (by omega) (by omega)
        obtain ⟨we, _, hwm⟩ := h.read hwa
        rw [hwa]
        simp only [hwm]
        have e1 : 2 * (q / 2) = q - 1 := by omega
        obtain ⟨ca, hca⟩ := atPos_isSome as (q - 1) (by omega) (by omega)
        rw [e1, hca]
        have hf2 : as.length + 1 < (q - 1 + 1) * 2 ^ (t.mem.length + 1) := by
          calc as.length + 1 < (1 + 1) * 2 ^ (t.mem.length + 1) := by omega
            _ ≤ (q - 1 + 1) * 2 ^ (t.mem.length + 1) := Nat.mul_le_mul_right _ (by omega)
        obtain ⟨i, hi1, hi2, hi3⟩ := descendantLoop_right h (t.mem.length + 1) (q - 1) ca hf2 hca
        simp only [hi3]
        rw [pos_right_descent hq3 hq1 hi1 hi2]

theorem atPos_append (as : List Nat) (x q : Nat) :
    atPos (as ++ [x]) q = if q = as.length + 1 then some x else atPos as q := by
  unfold atPos
  by_cases h0 : q = 0
  · subst h0; simp
  · simp only [h0, if_false]
    by_cases h1 : q = as.length + 1
    · subst h1; simp
    · simp only [h1, if_false]
      by_cases h2 : q - 1 < as.length
      · exact List.getElem?_append_left h2
      · rw [List.getElem?_eq_none (by simp; omega), List.getElem?_eq_none (by omega)]

theorem atPos_dropLast (as : List Nat) (q : Nat) :
    atPos as.dropLast q = if q = as.length then none else atPos as q := by
  unfold atPos
  by_cases h0 : q = 0
  · subst h0; simp
  · simp only [h0, if_false]
    by_cases h1 : as.length ≤ q
    · rw [List.getElem?_eq_none (by simp; omega)]
      by_cases h2 : q = as.length
      · simp [h2]
      · simp only [h2, if_false]
        rw [List.getElem?_eq_none (by omega)]
    · simp only [show ¬ q = as.length by omega, if_false]
      rw [List.getElem?_dropLast]
      have : q - 1 < as.length - 1 := by omega
      simp [this]

theorem Mem.write_some {m : List (Node α)} {a : Nat} {nd : Node α} (f : Node α → Node α)
    (h : m[a]? = some nd) : Mem.write m (some a) f = some (m.set a (f nd)) := by
  simp [Mem.write, h]

theorem getElem?_set_some {β : Type} {m : List β} {a b : Nat} {x : β} (y : β)
    (hb : m[b]? = some x) : (m.set a y)[b]? = if a = b then some y else some x := by
  rw [List.getElem?_set]
  have hlt := (List.getElem?_eq_some.mp hb).1
  by_cases hab : a = b
  · subst hab; simp [hlt]
  · simp [hab, hb]

namespace CompleteBT.Rep

variable {t : CompleteBT α} {as : List Nat} {es : List (Elem α)}

theorem not_mem_length (h : CompleteBT.Rep t as es) : t.mem.length ∉ as := by
  intro hc
  obtain ⟨p, hp⟩ := mem_atPos hc
  have := h.addr_lt hp
  omega

end CompleteBT.Rep

theorem BT.makeChild_some_some (t : BT α) {pa ca : Nat} {pn cn : Node α} (isLeft : Bool)
    (hp : t.mem[pa]? = some pn) (hc : t.mem[ca]? = some cn) (hne : pa ≠ ca) :
    t.makeChild (some pa) (some ca) isLeft = some ⟨(t.mem.set pa
      (if isLeft then ⟨pn.elem, some ca, pn.right, pn.parent⟩ else ⟨pn.elem, pn.left, some ca, pn.parent⟩)).set
        ca ⟨cn.elem, cn.left, cn.right, some pa⟩, t.root, t.n⟩ := by
  have hc2 : ∀ nd : Node α, (t.mem.set pa nd)[ca]? = some cn := by
    intro nd
    rw [List.getElem?_set_ne hne]
    exact hc
  simp only [BT.makeChild, Option.isSome_some, if_true, Mem.write_some _ hp, Mem.write_some _ (hc2 _)]

theorem BT.makeChild_some_none (t : BT α) {pa : Nat} {pn : Node α} (isLeft : Bool)
    (hp : t.mem[pa]? = some pn) :
    t.makeChild (some pa) none isLeft = some ⟨t.mem.set pa
      (if isLeft then ⟨pn.elem, none, pn.right, pn.parent⟩ else ⟨pn.elem, pn.left, none, pn.parent⟩),
        t.root, t.n⟩ := by
  simp only [BT.makeChild, Option.isSome_some, Option.isSome_none, if_true, Mem.write_some _ hp,
    Bool.false_eq_true, if_false]

theorem BT.makeChild_none_none (t : BT α) (isLeft : Bool) :
    t.makeChild none none isLeft = some t := by
  simp [BT.makeChild]

theorem add_spec {t : CompleteBT α} {as : List Nat} {es : List (Elem α)}
    (h : CompleteBT.Rep t as es) (e : Elem α) :
    ∃ t1, CompleteBT.add t e = some (t1, some t.mem.length) ∧
      CompleteBT.Rep t1 (as ++ [t.mem.length]) (es ++ [e]) ∧ t1.mem.length = t.mem.length + 1 := by
  have hfresh := h.not_mem_length
  have hnd : (as ++ [t.mem.length]).Nodup := by
    rw [List.nodup_append]
    refine ⟨h.nodup, List.nodup_singleton _, ?_⟩
    intro a ha hb
    simp only [List.mem_singleton] at hb
    subst hb
    exact hfresh ha
  -- the tree after the allocation of the new node
  have h0 : CompleteBT.Rep
      ({ t with mem := t.mem ++ [{ elem := e, left := none, right := none, parent := none }] } :
        CompleteBT α) as es := by
    refine ⟨h.len, h.nodup, h.size, h.root, h.last, ?_⟩
    intro p h1 h2
    obtain ⟨a, x, ha, hx, hm⟩ := h.node p h1 h2
    refine ⟨a, x, ha, hx, ?_⟩
    show (t.mem ++ _)[a]? = _
    rw [List.getElem?_append_left (List.getElem?_eq_some.mp hm).1]
    exact hm
  unfold CompleteBT.add
  by_cases hlen : as.length = 0
  · have hn0 : t.n = 0 := by rw [h.size, hlen]; rfl
    have has : as = [] := List.length_eq_zero.mp hlen
    have hes : es = [] := List.length_eq_zero.mp (h.len.trans hlen)
    subst has hes
    simp only [BT.empty, hn0, decide_True, if_true]
    refine ⟨_, rfl, ?_, by simp⟩
    refine ⟨by simp, hnd, by simp [hn0], by simp [atPos], by simp [atPos], ?_⟩
    intro p h1 h2
    simp only [List.nil_append, List.length_singleton] at h2
    have hp : p = 1 := by omega
    subst hp
    refine ⟨t.mem.length, e, by simp, by simp, ?_⟩
    simp [atPos]
  · have hn0 : ¬ t.n = 0 := by rw [h.size]; omega
    have hP1 : 1 ≤ (as.length + 1) / 2 := by omega
    have hP2 : (as.length + 1) / 2 ≤ as.length := by omega
    obtain ⟨pa, hpa⟩ := atPos_isSome as _ hP1 hP2
    obtain ⟨pe, hpe, hpm⟩ := h0.read hpa
    have hpa_lt : pa < t.mem.length := h.addr_lt hpa
    simp only [BT.empty, hn0, decide_False, Bool.false_eq_true, if_false]
    rw [getParentOfNewLastNode_spec h0 (by omega), hpa]
    have hnew : (t.mem ++
        [({ elem := e, left := none, right := none, parent := none } : Node α)])[t.mem.length]?
        = some { elem := e, left := none, right := none, parent := none } :=
      List.getElem?_concat_length _ _
    simp only [Mem.read, hpm]
    rw [BT.makeChild_some_some _ _ hpm hnew (by omega)]
    refine ⟨_, rfl, ?_, by simp⟩
    refine ⟨by simp [h.len], hnd, by simp [h.size], ?_, ?_, ?_⟩
    · show t.root = _
      rw [atPos_append, h.root]
      simp only [show ¬ (1 = as.length + 1) by omega, if_false]
    · show some t.mem.length = _
      rw [atPos_append]
      simp
    · intro p h1 h2
      simp only [List.length_append, List.length_singleton] at h2
      simp only [atPos_append]
      by_cases hpl : p = as.length + 1
      · subst hpl
        refine ⟨t.mem.length, e, by simp, by simp [h.len], ?_⟩
        show (List.set _ _ _)[t.mem.length]? = _
        rw [List.getElem?_set_self (by simp)]
        simp only [show ¬ (2 * (as.length + 1) = as.length + 1) by omega,
          show ¬ (2 * (as.length + 1) + 1 = as.length + 1) by omega,
          show ¬ ((as.length + 1) / 2 = as.length + 1) by omega, if_false]
        rw [atPos_eq_none (show as.length < 2 * (as.length + 1) by omega),
          atPos_eq_none (show as.length < 2 * (as.length + 1) + 1 by omega), hpa]
      · obtain ⟨a, x, ha, hx, hm⟩ := h0.node p h1 (by omega)
        have hlt : p - 1 < as.length := by omega
        refine ⟨a, x, by rw [List.getElem?_append_left hlt]; exact ha,
          by rw [List.getElem?_append_left (by rw [h.len]; exact hlt)]; exact hx, ?_⟩
        have hap : atPos as p = some a := by rw [atPos_of_pos h1]; exact ha
        have ha_lt : a < t.mem.length := h.addr_lt hap
        show (List.set _ _ _)[a]? = _
        rw [List.getElem?_set_ne (by omega)]
        simp only [show ¬ (p / 2 = as.length + 1) by omega, if_false]
        by_cases hpP : p = (as.length + 1) / 2
        · subst hpP
          have haa : a = pa := by
            rw [hpa] at hap
            exact (Option.some.inj hap).symm
          subst haa
          have hxe : pe = x := by
            rw [hpe] at hx
            exact Option.some.inj hx
          subst hxe
          rw [List.getElem?_set_self (by simp; omega)]
          by_cases hev : 2 * ((as.length + 1) / 2) = as.length + 1
          · have hl : atPos as (as.length + 1) = none := atPos_eq_none (by omega)
            have hr : atPos as (as.length + 1 + 1) = none := atPos_eq_none (by omega)
            simp [hl, hr, hev]
          · obtain ⟨la, hla⟩ := atPos_isSome as (2 * ((as.length + 1) / 2))
              (by omega) (by omega)
            have hr : 2 * ((as.length + 1) / 2) + 1 = as.length + 1 := by omega
            simp [hla, hev, hr]
        · have hne : ¬ pa = a := by
            intro hc
            subst hc
            exact hpP (atPos_inj h.nodup hap hpa)
          rw [List.getElem?_set_ne hne, hm]
          simp only [show ¬ (2 * p = as.length + 1) by omega,
            show ¬ (2 * p + 1 = as.length + 1) by omega, if_false]

theorem remove_spec {t : CompleteBT α} {as : List Nat} {es : List (Elem α)}
    (h : CompleteBT.Rep t as es) (hne : 1 ≤ as.length) :
    ∃ t1 e, CompleteBT.remove t = some (t1, some e) ∧ es[as.length - 1]? = some e ∧
      CompleteBT.Rep t1 as.dropLast es.dropLast ∧ t1.mem.length = t.mem.length := by
  obtain ⟨la, hla⟩ := atPos_isSome as (as.length) hne (le_refl _)
  obtain ⟨e, he, hm⟩ := h.read hla
  have hn0 : ¬ t.n = 0 := by rw [h.size]; omega
  have hl0 : atPos as (2 * as.length) = none := atPos_eq_none (by omega)
  have hr0 : atPos as (2 * as.length + 1) = none := atPos_eq_none (by omega)
  rw [hl0, hr0] at hm
  have hnd : as.dropLast.Nodup := List.Nodup.sublist (List.dropLast_sublist as) h.nodup
  unfold CompleteBT.remove
  simp only [BT.empty, hn0, decide_False, Bool.false_eq_true, if_false]
  rw [getNewLastNode_spec h hne, h.last, hla]
  simp only [BT.removeNode, Mem.read, hm, Option.isSome_none, Bool.false_eq_true, if_false]
  by_cases h1 : as.length = 1
  · have hz : atPos as (as.length / 2) = none := by rw [h1]; exact atPos_zero as
    simp only [hz, BT.makeChild_none_none, Option.isNone_none, if_true]
    refine ⟨_, e, rfl, he, ?_, rfl⟩
    have has : as.dropLast = [] := List.length_eq_zero.mp (by simp [h1])
    have hes : es.dropLast = [] := List.length_eq_zero.mp (by simp [h.len, h1])
    rw [has, hes]
    refine ⟨rfl, List.nodup_nil, ?_, rfl, ?_, ?_⟩
    · show t.n - 1 = _
      rw [h.size, h1]; rfl
    · show atPos as (as.length - 1) = _
      rw [h1]; rfl
    · intro p hp1 hp2
      simp at hp2
      omega
  · obtain ⟨pa, hpa⟩ := atPos_isSome as (as.length / 2) (by omega) (by omega)
    obtain ⟨pe, hpe, hpm⟩ := h.read hpa
    simp only [hpa, hpm, Option.map_some', Option.isNone_some, Bool.false_eq_true, if_false]
    rw [BT.makeChild_some_none _ _ hpm]
    refine ⟨_, e, rfl, he, ?_, by simp⟩
    refine ⟨by simp [h.len], hnd, ?_, ?_, ?_, ?_⟩
    · show t.n - 1 = _
      rw [h.size, List.length_dropLast]
      omega
    · show t.root = _
      rw [h.root, atPos_dropLast]
      simp only [show ¬ 1 = as.length by omega, if_false]
    · show atPos as (as.length - 1) = _
      rw [List.length_dropLast, atPos_dropLast]
      simp only [show ¬ as.length - 1 = as.length by omega, if_false]
    · intro p hp1 hp2
      rw [List.length_dropLast] at hp2
      obtain ⟨a, x, ha, hx, hxm⟩ := h.node p hp1 (by omega)
      have hap : atPos as p = some a := by rw [atPos_of_pos hp1]; exact ha
      have hlt : p - 1 < as.length - 1 := by omega
      refine ⟨a, x, ?_, ?_, ?_⟩
      · rw [List.getElem?_dropLast]; simp [hlt, ha]
      · rw [List.getElem?_dropLast]; simp [h.len, hlt, hx]
      · simp only [atPos_dropLast]
        simp only [show ¬ p / 2 = as.length by omega, if_false]
        show (List.set _ _ _)[a]? = _
        by_cases hpP : p = as.length / 2
        · subst hpP
          have haa : a = pa := by
            rw [hpa] at hap
            exact (Option.some.inj hap).symm
          subst haa
          have hxe : pe = x := by
            rw [hpe] at hx
            exact Option.some.inj hx
          subst hxe
          rw [List.getElem?_set_self (h.addr_lt hpa)]
          by_cases hev : 2 * (as.length / 2) = as.length
          · have hr : atPos as (as.length + 1) = none := atPos_eq_none (by omega)
            simp [hev, hla, hr]
          · have hr : 2 * (as.length / 2) + 1 = as.length := by omega
            have hc : ¬ atPos as (2 * (as.length / 2)) = some la := by
              intro hc
              have := atPos_inj h.nodup hc hla
              omega
            simp [hev, hc, hr]
        · have hne2 : ¬ pa = a := by
            intro hc
            subst hc
            exact hpP (atPos_inj h.nodup hap hpa)
          rw [List.getElem?_set_ne hne2, hxm]
          simp only [show ¬ 2 * p = as.length by omega, show ¬ 2 * p + 1 = as.length by omega,
            if_false]

theorem swap_perm {β : Type} [DecidableEq β] {es : List β} {i j : Nat} {x y : β}
    (hx : es[i]? = some x) (hy : es[j]? = some y) : ((es.set i y).set j x).Perm es := by
  obtain ⟨hi, hxi⟩ := List.getElem?_eq_some.mp hx
  obtain ⟨hj, hyj⟩ := List.getElem?_eq_some.mp hy
  rw [List.perm_iff_count]
  intro b
  have hj2 : j < (es.set i y).length := by simpa using hj
  rw [List.count_set _ _ _ _ hj2, List.count_set _ _ _ _ hi]
  have hcx : x = b → 1 ≤ List.count b es := by
    intro hb
    subst hb
    exact List.count_pos_iff.mpr (List.mem_iff_getElem?.mpr ⟨i, hx⟩)
  have hcy : y = b → 1 ≤ List.count b es := by
    intro hb
    subst hb
    exact List.count_pos_iff.mpr (List.mem_iff_getElem?.mpr ⟨j, hy⟩)
  rw [List.getElem_set]
  by_cases hij : i = j
  · subst hij
    have hxy : x = y := by rw [hx] at hy; exact Option.some.inj hy
    subst hxy
    simp only [if_true, hxi, beq_iff_eq]
    by_cases hb : x = b
    · have := hcx hb
      simp only [hb, if_true]
      omega
    · simp only [hb, if_false]
      omega
  · simp only [hij, if_false, hxi, hyj, beq_iff_eq]
    by_cases hb : x = b
    · by_cases hb2 : y = b
      · have := hcx hb
        simp only [hb, hb2, if_true]
        omega
      · have := hcx hb
        simp only [hb, hb2, if_true, if_false]
        omega
    · by_cases hb2 : y = b
      · have := hcy hb2
        simp only [hb, hb2, if_true, if_false]
        omega
      · simp only [hb, hb2, if_false]
        omega

theorem swapElem_spec {t : CompleteBT α} {as : List Nat} {es : List (Elem α)}
    (h : CompleteBT.Rep t as es) {p q w z : Nat} {x y : Elem α}
    (hw : atPos as p = some w) (hz : atPos as q = some z)
    (hx : es[p - 1]? = some x) (hy : es[q - 1]? = some y) :
    ∃ b, t.toBT.swapElem (some w) (some z) = some b ∧
      CompleteBT.Rep ⟨b, t.lastNode⟩ as ((es.set (p - 1) y).set (q - 1) x) ∧
      b.mem.length = t.mem.length := by
  obtain ⟨x1, hx1, hwm⟩ := h.read hw
  obtain ⟨y1, hy1, hzm⟩ := h.read hz
  rw [hx] at hx1; cases hx1
  rw [hy] at hy1; cases hy1
  obtain ⟨hp1, hp2, _⟩ := atPos_eq_some hw
  obtain ⟨hq1, hq2, _⟩ := atPos_eq_some hz
  have hlen := h.len
  have hz1 : (t.mem.set w ⟨y, atPos as (2 * p), atPos as (2 * p + 1), atPos as (p / 2)⟩)[z]? =
      some ⟨y, atPos as (2 * q), atPos as (2 * q + 1), atPos as (q / 2)⟩ := by
    rw [getElem?_set_some _ hzm]
    by_cases hwz : w = z
    · subst hwz
      have := atPos_inj h.nodup hw hz
      subst this
      simp
    · simp [hwz]
  simp only [BT.swapElem, Mem.read, hwm, hzm, Mem.write_some _ hwm, Mem.write_some _ hz1]
  refine ⟨_, rfl, ?_, by simp⟩
  refine ⟨by simp [h.len], h.nodup, h.size, h.root, h.last, ?_⟩
  intro r hr1 hr2
  obtain ⟨a, e, ha, he, hm⟩ := h.node r hr1 hr2
  have har : atPos as r = some a := by rw [atPos_of_pos hr1]; exact ha
  by_cases hrq : r = q
  · subst hrq
    have : a = z := by rw [hz] at har; exact (Option.some.inj har).symm
    subst this
    refine ⟨a, x, ha, ?_, ?_⟩
    · rw [List.getElem?_set_self (by simp; omega)]
    · show (List.set _ _ _)[a]? = _
      rw [List.getElem?_set_self (by simp; exact h.addr_lt hz)]
  · have haz : ¬ z = a := by
      intro hc
      subst hc
      exact hrq (atPos_inj h.nodup har hz)
    by_cases hrp : r = p
    · subst hrp
      have : a = w := by rw [hw] at har; exact (Option.some.inj har).symm
      subst this
      refine ⟨a, y, ha, ?_, ?_⟩
      · rw [List.getElem?_set_ne (by omega), List.getElem?_set_self (by omega)]
      · show (List.set _ _ _)[a]? = _
        rw [List.getElem?_set_ne haz, List.getElem?_set_self (h.addr_lt hw)]
    · have haw : ¬ w = a := by
        intro hc
        subst hc
        exact hrp (atPos_inj h.nodup har hw)
      refine ⟨a, e, ha, ?_, ?_⟩
      · rw [List.getElem?_set_ne (by omega), List.getElem?_set_ne (by omega)]
        exact he
      · show (List.set _ _ _)[a]? = _
        rw [List.getElem?_set_ne haz, List.getElem?_set_ne haw]
        exact hm

/-! ## The order of keys -/

theorem Key.lt_iff_lex (x y : Key α) :
    Key.lt x y = true ↔ toLex (x.price, x.timeStamp) < toLex (y.price, y.timeStamp) := by
  rw [Prod.Lex.lt_iff]
  simp [Key.lt]

theorem Key.lt_eq_false_iff (x y : Key α) :
    Key.lt x y = false ↔ toLex (y.price, y.timeStamp) ≤ toLex (x.price, x.timeStamp) := by
  rw [← not_lt, ← Key.lt_iff_lex]
  simp

theorem Elem.not_lt_of_lt {x y : Elem α} (h : Elem.lt x y = true) : Elem.lt y x = false := by
  unfold Elem.lt at *
  rw [Key.lt_iff_lex] at h
  rw [Key.lt_eq_false_iff]
  exact le_of_lt h

theorem Elem.not_lt_trans {x y z : Elem α} (h1 : Elem.lt y x = false) (h2 : Elem.lt z y = false) :
    Elem.lt z x = false := by
  unfold Elem.lt at *
  rw [Key.lt_eq_false_iff] at *
  exact le_trans h1 h2

theorem Elem.not_lt_self (x : Elem α) : Elem.lt x x = false := by
  unfold Elem.lt
  rw [Key.lt_eq_false_iff]

theorem Elem.lt_of_key_ne {x y : Elem α} (h : Elem.lt y x = false) (hne : x.key ≠ y.key) :
    Elem.lt x y = true := by
  unfold Elem.lt at *
  rw [Key.lt_eq_false_iff] at h
  rw [Key.lt_iff_lex]
  apply lt_of_le_of_ne h
  intro hc
  apply hne
  have h2 : (x.key.price, x.key.timeStamp) = (y.key.price, y.key.timeStamp) := toLex.injective hc
  cases x with
  | mk kx vx =>
    cases y with
    | mk ky vy =>
      cases kx; cases ky
      simp only [Prod.mk.injEq] at h2
      simp [h2.1, h2.2]

/-! ## Swapping two positions of the listing -/

theorem swap_get {β : Type} {es : List β} {i j : Nat} {x y : β}
    (hx : es[i]? = some x) (hy : es[j]? = some y) (k : Nat) :
    ((es.set i y).set j x)[k]? = if k = j then some x else if k = i then some y else es[k]? := by
  have hi := (List.getElem?_eq_some.mp hx).1
  have hj := (List.getElem?_eq_some.mp hy).1
  by_cases hkj : k = j
  · subst hkj
    simp only [if_true]
    rw [List.getElem?_set_self (by simpa using hj)]
  · simp only [hkj, if_false]
    rw [List.getElem?_set_ne (fun h => hkj h.symm)]
    by_cases hki : k = i
    · subst hki
      simp only [if_true]
      rw [List.getElem?_set_self hi]
    · simp only [hki, if_false]
      rw [List.getElem?_set_ne (fun h => hki h.symm)]

theorem up_stop_root {es : List (Elem α)} (h : UpOK es 1) : OrdList es := by
  intro q hq
  exact h.1 q hq (by omega)

theorem up_stop {es : List (Elem α)} {p : Nat} {x y : Elem α} (h : UpOK es p)
    (hx : es[p - 1]? = some x) (hy : es[p / 2 - 1]? = some y) (hlt : Elem.lt x y = false) :
    OrdList es := by
  intro q hq
  by_cases hqp : q = p
  · subst hqp
    intro x1 y1 h1 h2
    rw [hy] at h1
    rw [hx] at h2
    cases h1; cases h2
    exact hlt
  · exact h.1 q hq hqp

theorem up_step {es : List (Elem α)} {p : Nat} {x y : Elem α} (h : UpOK es p) (hp : 2 ≤ p)
    (hx : es[p - 1]? = some x) (hy : es[p / 2 - 1]? = some y) (hlt : Elem.lt x y = true) :
    UpOK ((es.set (p - 1) y).set (p / 2 - 1) x) (p / 2) := by
  constructor
  · intro q hq hqP x1 y1 h1 h2
    rw [swap_get hx hy] at h1 h2
    by_cases c1 : q / 2 = p / 2
    · -- `q` is `p` or its sibling
      rw [if_pos (by omega)] at h1
      cases h1
      by_cases c2 : q = p
      · rw [if_neg (by omega), if_pos (by omega)] at h2
        cases h2
        exact Elem.not_lt_of_lt hlt
      · rw [if_neg (by omega), if_neg (by omega)] at h2
        have hs := h.1 q hq c2 y y1 (by rw [c1]; exact hy) h2
        exact Elem.not_lt_trans (Elem.not_lt_of_lt hlt) hs
    · rw [if_neg (by omega)] at h1
      by_cases c2 : q / 2 = p
      · -- `q` is a child of `p`
        rw [if_pos (by omega)] at h1
        cases h1
        rw [if_neg (by omega), if_neg (by omega)] at h2
        exact h.2 q hp c2 y y1 hy h2
      · rw [if_neg (by omega)] at h1
        rw [if_neg (by omega), if_neg (by omega)] at h2
        exact h.1 q hq (by omega) x1 y1 h1 h2
  · intro q hP hq x1 y1 h1 h2
    rw [swap_get hx hy] at h1 h2
    rw [if_neg (by omega), if_neg (by omega)] at h1
    have hPp : LeAt es (p / 2 / 2) (p / 2) := h.1 (p / 2) hP (by omega)
    by_cases c2 : q = p
    · rw [if_neg (by omega), if_pos (by omega)] at h2
      cases h2
      exact hPp x1 y h1 hy
    · rw [if_neg (by omega), if_neg (by omega)] at h2
      have hs := h.1 q (by omega) c2 y y1 (by rw [hq]; exact hy) h2
      exact Elem.not_lt_trans (hPp x1 y h1 hy) hs

theorem down_stop {es : List (Elem α)} {p : Nat} (h : DownOK es p)
    (hc : ∀ q, 2 ≤ q → q / 2 = p → LeAt es p q) : OrdList es := by
  intro q hq
  by_cases hqp : q / 2 = p
  · rw [hqp]
    exact hc q hq hqp
  · exact h.1 q hq hqp

theorem down_step {es : List (Elem α)} {p c : Nat} {xc xp : Elem α} (h : DownOK es p)
    (hp : 1 ≤ p) (hcp : c / 2 = p) (hc : es[c - 1]? = some xc) (hx : es[p - 1]? = some xp)
    (hlt : Elem.lt xc xp = true)
    (hmin : ∀ s xs, s / 2 = p → s ≠ c → es[s - 1]? = some xs → Elem.lt xs xc = false) :
    DownOK ((es.set (c - 1) xp).set (p - 1) xc) c := by
  constructor
  · intro q hq hqc x1 y1 h1 h2
    rw [swap_get hc hx] at h1 h2
    by_cases c1 : q / 2 = p
    · -- `q` is `c` or its sibling
      rw [if_pos (by omega)] at h1
      cases h1
      by_cases c2 : q = c
      · rw [if_neg (by omega), if_pos (by omega)] at h2
        cases h2
        exact Elem.not_lt_of_lt hlt
      · rw [if_neg (by omega), if_neg (by omega)] at h2
        exact hmin q y1 c1 c2 h2
    · rw [if_neg (by omega)] at h1
      rw [if_neg (by omega)] at h1
      by_cases c2 : q = p
      · -- the edge from the parent of `p` to `p`
        rw [if_pos (by omega)] at h2
        cases h2
        have hp2 : 2 ≤ p := by omega
        exact h.2 c hp2 hcp x1 xc (by rw [← c2]; exact h1) hc
      · rw [if_neg (by omega), if_neg (by omega)] at h2
        exact h.1 q hq c1 x1 y1 h1 h2
  · intro q hc2 hq x1 y1 h1 h2
    rw [swap_get hc hx] at h1 h2
    rw [hcp] at h1
    rw [if_pos rfl] at h1
    cases h1
    rw [if_neg (by omega), if_neg (by omega)] at h2
    exact h.1 q (by omega) (by omega) xc y1 (by rw [hq]; exact hc) h2

/-! ## Up-heap bubbling -/

theorem upLoop_spec {as : List Nat} :
    ∀ (fuel : Nat) (t : Heap α) (es : List (Elem α)) (p c : Nat),
      CompleteBT.Rep t as es → atPos as p = some c → p < 2 ^ fuel →
      ∃ t1 es1, Heap.upLoop fuel t (some c) = some t1 ∧ CompleteBT.Rep t1 as es1 ∧
        es1.Perm es ∧ t1.mem.length = t.mem.length ∧ (UpOK es p → OrdList es1) := by
  intro fuel
  induction fuel with
  | zero =>
    intro t es p c h hc hp
    have := (atPos_eq_some hc).1
    simp at hp
    omega
  | succ f ih =>
    intro t es p c h hc hp
    obtain ⟨hp1, hp2, _⟩ := atPos_eq_some hc
    obtain ⟨x, hx, hcm⟩ := h.read hc
    simp only [Heap.upLoop, Mem.read, hcm]
    by_cases h1 : p = 1
    · subst h1
      have hz : atPos as (1 / 2) = none := atPos_zero as
      simp only [hz, Option.isNone_none, if_true]
      exact ⟨t, es, rfl, h, List.Perm.refl _, rfl, up_stop_root⟩
    · obtain ⟨pa, hpa⟩ := atPos_isSome as (p / 2) (by omega) (by omega)
      obtain ⟨y, hy, hpm⟩ := h.read hpa
      simp only [hpa, Option.isNone_some, Bool.false_eq_true, if_false, hpm]
      by_cases hlt : Elem.lt x y = true
      · simp only [hlt, if_true]
        obtain ⟨b, hb, hrep, hlen⟩ := swapElem_spec h hc hpa hx hy
        rw [hb]
        obtain ⟨x2, _, hcm2⟩ := hrep.read hc
        have hcm3 : b.mem[c]? = _ := hcm2
        simp only [hcm3, hpa]
        have hf : p / 2 < 2 ^ f := by
          rw [pow_succ] at hp
          omega
        obtain ⟨t1, es1, r1, r2, r3, r4, r5⟩ := ih _ _ (p / 2) pa hrep hpa hf
        refine ⟨t1, es1, r1, r2, r3.trans (swap_perm hx hy), r4.trans hlen, ?_⟩
        intro hup
        exact r5 (up_step hup (by omega) hx hy hlt)
      · simp only [hlt, Bool.false_eq_true, if_false]
        refine ⟨t, es, rfl, h, List.Perm.refl _, rfl, ?_⟩
        intro hup
        exact up_stop hup hx hy (by simpa using hlt)

/-! ## Down-heap bubbling -/

theorem minChild_spec {t : CompleteBT α} {as : List Nat} {es : List (Elem α)}
    (h : CompleteBT.Rep t as es) {p c : Nat} (hc : atPos as p = some c) :
    ∃ m, t.toBT.minChild (some c) = some (atPos as m) ∧ m / 2 = p ∧ 2 ≤ m ∧
      (atPos as m = none → as.length < 2 * p) ∧
      (∀ s xs xm, s / 2 = p → s ≠ m → es[s - 1]? = some xs → es[m - 1]? = some xm →
        Elem.lt xs xm = false) := by
  obtain ⟨hp1, hp2, _⟩ := atPos_eq_some hc
  obtain ⟨x, hx, hcm⟩ := h.read hc
  have hlen := h.len
  simp only [BT.minChild, Mem.read, hcm]
  by_cases hr : 2 * p + 1 ≤ as.length
  · obtain ⟨ra, hra⟩ := atPos_isSome as (2 * p + 1) (by omega) hr
    obtain ⟨la, hla⟩ := atPos_isSome as (2 * p) (by omega) (by omega)
    obtain ⟨eR, heR, hrm⟩ := h.read hra
    obtain ⟨eL, heL, hlm⟩ := h.read hla
    simp only [hra, hla, Option.isNone_some, Bool.false_eq_true, if_false, hrm, hlm]
    by_cases hlt : Elem.lt eL eR = true
    · refine ⟨2 * p, ?_, by omega, by omega, ?_, ?_⟩
      · simp only [hlt, if_true, hla]
      · intro hn
        rw [hla] at hn
        cases hn
      · intro s xs xm hs hsm h1 h2
        have : s = 2 * p + 1 := by omega
        subst this
        rw [heL] at h2
        rw [heR] at h1
        cases h1; cases h2
        exact Elem.not_lt_of_lt hlt
    · refine ⟨2 * p + 1, ?_, by omega, by omega, ?_, ?_⟩
      · simp only [hlt, Bool.false_eq_true, if_false, hra]
      · intro hn
        rw [hra] at hn
        cases hn
      · intro s xs xm hs hsm h1 h2
        have : s = 2 * p := by omega
        subst this
        rw [heR] at h2
        rw [heL] at h1
        cases h1; cases h2
        simpa using hlt
  · have hrn : atPos as (2 * p + 1) = none := atPos_eq_none (by omega)
    simp only [hrn, Option.isNone_none, if_true]
    refine ⟨2 * p, rfl, by omega, by omega, ?_, ?_⟩
    · intro hn
      by_contra hcc
      obtain ⟨la, hla⟩ := atPos_isSome as (2 * p) (by omega) (by omega)
      rw [hla] at hn
      cases hn
    · intro s xs xm hs hsm h1 h2
      have : s = 2 * p + 1 := by omega
      subst this
      have := (List.getElem?_eq_some.mp h1).1
      omega

theorem downLoop_spec {as : List Nat} :
    ∀ (fuel : Nat) (t : Heap α) (es : List (Elem α)) (p c : Nat),
      CompleteBT.Rep t as es → atPos as p = some c → as.length < p * 2 ^ fuel →
      ∃ t1 es1, Heap.downLoop fuel t (some c) = some t1 ∧ CompleteBT.Rep t1 as es1 ∧
        es1.Perm es ∧ t1.mem.length = t.mem.length ∧ (DownOK es p → OrdList es1) := by
  intro fuel
  induction fuel with
  | zero =>
    intro t es p c h hc hp
    have := (atPos_eq_some hc).2.1
    simp at hp
    omega
  | succ f ih =>
    intro t es p c h hc hp
    obtain ⟨hp1, hp2, _⟩ := atPos_eq_some hc
    obtain ⟨xp, hx, hcm⟩ := h.read hc
    have hlen := h.len
    obtain ⟨m, hm1, hm2, hm3, hm4, hm5⟩ := minChild_spec h hc
    simp only [Heap.downLoop, hm1]
    cases hch : atPos as m with
    | none =>
      refine ⟨t, es, rfl, h, List.Perm.refl _, rfl, ?_⟩
      intro hd
      apply down_stop hd
      intro q hq hqp x1 y1 h1 h2
      have := (List.getElem?_eq_some.mp h2).1
      have := hm4 hch
      omega
    | some ch =>
      obtain ⟨xc, hxc, hchm⟩ := h.read hch
      simp only [Mem.read, hchm, hcm]
      by_cases hlt : Elem.lt xc xp = true
      · simp only [hlt, if_true]
        obtain ⟨b, hb, hrep, hbl⟩ := swapElem_spec h hch hc hxc hx
        rw [hb]
        have hf : as.length < m * 2 ^ f := by
          rw [pow_succ] at hp
          have h2p : 2 * p ≤ m := by omega
          calc as.length < p * (2 ^ f * 2) := hp
            _ = 2 * p * 2 ^ f := by ring
            _ ≤ m * 2 ^ f := Nat.mul_le_mul_right _ h2p
        obtain ⟨t1, es1, r1, r2, r3, r4, r5⟩ := ih _ _ m ch hrep hch hf
        refine ⟨t1, es1, r1, r2, r3.trans (swap_perm hxc hx), r4.trans hbl, ?_⟩
        intro hd
        apply r5
        apply down_step hd hp1 hm2 hxc hx hlt
        intro s xs hs hsm h1
        exact hm5 s xs xc hs hsm h1 hxc
      · simp only [hlt, Bool.false_eq_true, if_false]
        refine ⟨t, es, rfl, h, List.Perm.refl _, rfl, ?_⟩
        intro hd
        apply down_stop hd
        intro q hq hqp x1 y1 h1 h2
        rw [hx] at h1
        cases h1
        have hxcp : Elem.lt xc xp = false := by simpa using hlt
        by_cases hqm : q = m
        · subst hqm
          rw [hxc] at h2
          cases h2
          exact hxcp
        · exact Elem.not_lt_trans hxcp (hm5 q y1 xc hqp hqm h2 hxc)

theorem init_rep : CompleteBT.Rep (CompleteBT.init : CompleteBT α) [] [] := by
  refine ⟨rfl, List.nodup_nil, rfl, rfl, rfl, ?_⟩
  intro p h1 h2
  simp at h2
  omega

theorem ordList_nil : OrdList ([] : List (Elem α)) := by
  intro q _ x y h1 _
  simp at h1

theorem upOK_append {es : List (Elem α)} (e : Elem α) (h : OrdList es) :
    UpOK (es ++ [e]) (es.length + 1) := by
  constructor
  · intro q hq hne x y h1 h2
    have hlt := (List.getElem?_eq_some.mp h2).1
    simp only [List.length_append, List.length_singleton] at hlt
    have hq1 : q - 1 < es.length := by omega
    have hq2 : q / 2 - 1 < es.length := by omega
    rw [List.getElem?_append_left hq1] at h2
    rw [List.getElem?_append_left hq2] at h1
    exact h q hq x y h1 h2
  · intro q hp hq x y h1 h2
    have hlt := (List.getElem?_eq_some.mp h2).1
    simp only [List.length_append, List.length_singleton] at hlt
    omega

theorem insert_spec {t : Heap α} {as : List Nat} {es : List (Elem α)}
    (h : CompleteBT.Rep t as es) (e : Elem α) :
    ∃ t1 es1, Heap.insert t e = some t1 ∧ CompleteBT.Rep t1 (as ++ [t.mem.length]) es1 ∧
      es1.Perm (es ++ [e]) ∧ (OrdList es → OrdList es1) := by
  obtain ⟨t0, h0, hrep0, hlen0⟩ := add_spec h e
  have hlast : t0.lastNode = some t.mem.length := by
    rw [hrep0.last, atPos_append]
    simp
  have hpos : atPos (as ++ [t.mem.length]) (as.length + 1) = some t.mem.length := by
    rw [atPos_append]
    simp
  have hf : as.length + 1 < 2 ^ (t0.mem.length + 1) := by
    have := hrep0.length_lt_pow
    simpa using this
  obtain ⟨t1, es1, r1, r2, r3, _, r5⟩ := upLoop_spec (t0.mem.length + 1) t0 _ _ _ hrep0 hpos hf
  refine ⟨t1, es1, ?_, r2, r3, ?_⟩
  · simp only [Heap.insert, h0, Heap.upHeapBubbling, hlast]
    exact r1
  · intro ho
    apply r5
    have := upOK_append e ho
    rw [h.len] at this
    exact this

theorem min_spec {t : Heap α} {as : List Nat} {es : List (Elem α)}
    (h : CompleteBT.Rep t as es) : Heap.min t = some es[0]? := by
  unfold Heap.min
  rw [h.root]
  by_cases hlen : as.length = 0
  · have has : as = [] := List.length_eq_zero.mp hlen
    have hes : es = [] := List.length_eq_zero.mp (h.len.trans hlen)
    subst has hes
    simp [atPos]
  · obtain ⟨ra, hra⟩ := atPos_isSome as (1) (le_refl _) (by omega)
    obtain ⟨x, hx, hm⟩ := h.read hra
    rw [hra]
    simp only [hm]
    rw [← hx]

theorem removeMin_nil {t : Heap α} (h : CompleteBT.Rep t [] []) : Heap.removeMin t = some t := by
  unfold Heap.removeMin
  rw [h.root]
  simp [atPos]

theorem downOK_removed {es : List (Elem α)} {x y : Elem α} (hx : es[0]? = some x)
    (hy : es[es.length - 1]? = some y) (h : OrdList es) :
    DownOK ((es.set 0 y).set (es.length - 1) x).dropLast 1 := by
  constructor
  · intro q hq hne x1 y1 h1 h2
    rw [List.getElem?_dropLast] at h1 h2
    simp only [List.length_set] at h1 h2
    have hq1 : q - 1 < es.length - 1 := by
      by_contra hc
      rw [if_neg hc] at h2
      cases h2
    have hq2 : q / 2 - 1 < es.length - 1 := by omega
    rw [if_pos hq1, swap_get hx hy, if_neg (by omega), if_neg (by omega)] at h2
    rw [if_pos hq2, swap_get hx hy, if_neg (by omega), if_neg (by omega)] at h1
    exact h q hq x1 y1 h1 h2
  · intro q hp
    omega

theorem removeMin_spec {t : Heap α} {as : List Nat} {es : List (Elem α)}
    (h : CompleteBT.Rep t as es) (hne : 1 ≤ as.length) :
    ∃ t1 es1 r, Heap.removeMin t = some t1 ∧ es[0]? = some r ∧
      CompleteBT.Rep t1 as.dropLast es1 ∧ (r :: es1).Perm es ∧ (OrdList es → OrdList es1) := by
  obtain ⟨ra, hra⟩ := atPos_isSome as (1) (le_refl _) hne
  obtain ⟨la, hla⟩ := atPos_isSome as (as.length) hne (le_refl _)
  obtain ⟨x, hx, _⟩ := h.read hra
  obtain ⟨y, hy, _⟩ := h.read hla
  have hlen := h.len
  obtain ⟨b, hb, hrep1, hbl⟩ := swapElem_spec h hra hla hx hy
  obtain ⟨t2, e, h2, he, hrep2, hl2⟩ := remove_spec hrep1 hne
  have hex : e = x := by
    rw [List.getElem?_set_self (by simp; omega)] at he
    exact (Option.some.inj he).symm
  subst hex
  have hperm : (e :: ((es.set (1 - 1) y).set (as.length - 1) e).dropLast).Perm es := by
    have hl : ((es.set (1 - 1) y).set (as.length - 1) e) ≠ [] := by
      intro hc
      have := congrArg List.length hc
      simp only [List.length_set, List.length_nil] at this
      omega
    have hlast : ((es.set (1 - 1) y).set (as.length - 1) e).getLast hl = e := by
      rw [List.getLast_eq_getElem]
      simp only [List.length_set]
      rw [List.getElem_set]
      simp [hlen]
    have h3 := List.dropLast_concat_getLast hl
    rw [hlast] at h3
    have h4 : (e :: ((es.set (1 - 1) y).set (as.length - 1) e).dropLast).Perm
        (((es.set (1 - 1) y).set (as.length - 1) e).dropLast ++ [e]) :=
      (List.perm_append_singleton _ _).symm
    rw [h3] at h4
    exact h4.trans (swap_perm hx hy)
  have hroot : t.root = some ra := by rw [h.root, hra]
  have hlast2 : t.lastNode = some la := by rw [h.last, hla]
  rw [hlast2] at h2
  have hstep : Heap.removeMin t = Heap.downHeapBubbling t2 := by
    simp only [Heap.removeMin, hroot, Option.isNone_some, Bool.false_eq_true, if_false, h.last,
      hla, hb, h2]
  by_cases h1 : as.length = 1
  · have hroot2 : t2.root = none := by
      rw [hrep2.root, atPos_dropLast]
      simp [h1]
    refine ⟨t2, _, e, ?_, hx, hrep2, hperm, ?_⟩
    · rw [hstep]
      simp only [Heap.downHeapBubbling, hroot2, Heap.downLoop]
    · intro _
      have : ((es.set (1 - 1) y).set (as.length - 1) e).dropLast = [] :=
        List.length_eq_zero.mp (by simp; omega)
      rw [this]
      exact ordList_nil
  · have hra2 : atPos as.dropLast 1 = some ra := by
      rw [atPos_dropLast, if_neg (by omega), hra]
    have hf : as.dropLast.length < 1 * 2 ^ (t2.mem.length + 1) := by
      have := hrep2.length_lt_pow
      omega
    obtain ⟨t3, es3, r1, r2, r3, _, r5⟩ :=
      downLoop_spec (t2.mem.length + 1) t2 _ 1 ra hrep2 hra2 hf
    refine ⟨t3, es3, e, ?_, hx, r2, (List.Perm.cons e r3).trans hperm, ?_⟩
    · rw [hstep]
      simp only [Heap.downHeapBubbling, hrep2.root, hra2]
      exact r1
    · intro ho
      apply r5
      have := downOK_removed hx (by rw [hlen]; exact hy) ho
      rw [hlen] at this
      exact this

/-! ## From the representation to the linked structure -/

namespace CompleteBT.Rep

variable {t : CompleteBT α} {as : List Nat} {es : List (Elem α)}

theorem shape (h : CompleteBT.Rep t as es) : BT.Shape t.toBT as := by
  refine ⟨h.nodup, h.size, h.root, ?_⟩
  intro p h1 h2
  obtain ⟨a, e, ha, _, hm⟩ := h.node p h1 h2
  refine ⟨⟨e, atPos as (2 * p), atPos as (2 * p + 1), atPos as (p / 2)⟩, ?_, rfl, rfl, rfl⟩
  rw [atPos_of_pos h1, ha]
  exact hm

theorem reach_mem (h : CompleteBT.Rep t as es) {a : Nat} (hr : t.toBT.Reach a) : a ∈ as := by
  induction hr with
  | root hroot =>
    rw [h.root] at hroot
    exact atPos_mem hroot
  | left _ hm hl ih =>
    obtain ⟨p, hp⟩ := mem_atPos ih
    obtain ⟨e, _, hm2⟩ := h.read hp
    rw [hm2] at hm
    cases hm
    exact atPos_mem (show atPos as (2 * p) = some _ from hl)
  | right _ hm hl ih =>
    obtain ⟨p, hp⟩ := mem_atPos ih
    obtain ⟨e, _, hm2⟩ := h.read hp
    rw [hm2] at hm
    cases hm
    exact atPos_mem (show atPos as (2 * p + 1) = some _ from hl)

theorem reach_pos (h : CompleteBT.Rep t as es) :
    ∀ (p a : Nat), atPos as p = some a → t.toBT.Reach a := by
  intro p
  induction p using Nat.strong_induction_on with
  | _ p ih =>
    intro a hp
    obtain ⟨h1, h2, _⟩ := atPos_eq_some hp
    by_cases hp1 : p = 1
    · subst hp1
      exact BT.Reach.root (by rw [h.root, hp])
    · obtain ⟨pa, hpa⟩ := atPos_isSome as (p / 2) (by omega) (by omega)
      have hr := ih (p / 2) (by omega) pa hpa
      obtain ⟨e, _, hm⟩ := h.read hpa
      by_cases hev : p % 2 = 0
      · refine BT.Reach.left hr hm ?_
        show atPos as (2 * (p / 2)) = some a
        rw [show 2 * (p / 2) = p by omega]
        exact hp
      · refine BT.Reach.right hr hm ?_
        show atPos as (2 * (p / 2) + 1) = some a
        rw [show 2 * (p / 2) + 1 = p by omega]
        exact hp

theorem reach_iff (h : CompleteBT.Rep t as es) (a : Nat) : t.toBT.Reach a ↔ a ∈ as := by
  constructor
  · exact h.reach_mem
  · intro ha
    obtain ⟨p, hp⟩ := mem_atPos ha
    exact h.reach_pos p a hp

theorem ordered (h : CompleteBT.Rep t as es) (ho : OrdList es) : Heap.Ordered t := by
  intro a c nd cn hr hm hc hcm
  obtain ⟨p, hp⟩ := mem_atPos (h.reach_mem hr)
  obtain ⟨h1, h2, _⟩ := atPos_eq_some hp
  obtain ⟨x, hx, hm2⟩ := h.read hp
  rw [hm2] at hm
  cases hm
  rcases hc with hc | hc
  · have hc2 : atPos as (2 * p) = some c := hc
    obtain ⟨y, hy, hm3⟩ := h.read hc2
    rw [hm3] at hcm
    cases hcm
    exact ho (2 * p) (by omega) x y (by rw [show 2 * p / 2 = p by omega]; exact hx) hy
  · have hc2 : atPos as (2 * p + 1) = some c := hc
    obtain ⟨y, hy, hm3⟩ := h.read hc2
    rw [hm3] at hcm
    cases hcm
    exact ho (2 * p + 1) (by omega) x y (by rw [show (2 * p + 1) / 2 = p by omega]; exact hx) hy

/-- A node that is not the root is the left or the right child of the node its parent link names. -/
theorem parent_link (h : CompleteBT.Rep t as es) {a : Nat} {nd : Node α}
    (hr : t.toBT.Reach a) (hm : t.mem[a]? = some nd) (hroot : t.root ≠ some a) :
    ∃ pa pn, nd.parent = some pa ∧ t.mem[pa]? = some pn ∧ (pn.left = some a ∨ pn.right = some a) := by
  obtain ⟨p, hp⟩ := mem_atPos (h.reach_mem hr)
  obtain ⟨h1, h2, _⟩ := atPos_eq_some hp
  obtain ⟨x, hx, hm2⟩ := h.read hp
  rw [hm2] at hm
  cases hm
  have hp1 : p ≠ 1 := by
    intro hc
    subst hc
    exact hroot (by rw [h.root, hp])
  obtain ⟨pa, hpa⟩ := atPos_isSome as (p / 2) (by omega) (by omega)
  obtain ⟨y, _, hpm⟩ := h.read hpa
  refine ⟨pa, _, hpa, hpm, ?_⟩
  by_cases hev : p % 2 = 0
  · left
    show atPos as (2 * (p / 2)) = some a
    rw [show 2 * (p / 2) = p by omega]
    exact hp
  · right
    show atPos as (2 * (p / 2) + 1) = some a
    rw [show 2 * (p / 2) + 1 = p by omega]
    exact hp

theorem atPos_unique {as2 : List Nat} {es2 : List (Elem α)} (h : CompleteBT.Rep t as es)
    (h2 : CompleteBT.Rep t as2 es2) : ∀ p, atPos as p = atPos as2 p := by
  have hl : as.length = as2.length := by
    have := h.size.symm.trans h2.size
    exact_mod_cast this
  intro p
  induction p using Nat.strong_induction_on with
  | _ p ih =>
    by_cases hp0 : p = 0
    · subst hp0
      rw [atPos_zero, atPos_zero]
    by_cases hp1 : p = 1
    · subst hp1
      rw [← h.root, ← h2.root]
    by_cases hp2 : as.length < p
    · rw [atPos_eq_none hp2, atPos_eq_none (by omega)]
    · obtain ⟨pa, hpa⟩ := atPos_isSome as (p / 2) (by omega) (by omega)
      have hpa2 : atPos as2 (p / 2) = some pa := by
        rw [← ih (p / 2) (by omega)]
        exact hpa
      obtain ⟨x, _, hm⟩ := h.read hpa
      obtain ⟨y, _, hm2⟩ := h2.read hpa2
      rw [hm] at hm2
      have hinj := Option.some.inj hm2
      have hL : atPos as (2 * (p / 2)) = atPos as2 (2 * (p / 2)) := congrArg Node.left hinj
      have hR : atPos as (2 * (p / 2) + 1) = atPos as2 (2 * (p / 2) + 1) := congrArg Node.right hinj
      by_cases hev : p % 2 = 0
      · rw [show 2 * (p / 2) = p by omega] at hL
        exact hL
      · rw [show 2 * (p / 2) + 1 = p by omega] at hR
        exact hR

/-- The level-order listings are determined by the tree. -/
theorem listing_unique {as2 : List Nat} {es2 : List (Elem α)} (h : CompleteBT.Rep t as es)
    (h2 : CompleteBT.Rep t as2 es2) : as = as2 ∧ es = es2 := by
  have hu := h.atPos_unique h2
  have has : as = as2 := by
    apply List.ext_getElem?
    intro i
    have := hu (i + 1)
    rw [atPos_of_pos (by omega), atPos_of_pos (by omega)] at this
    simpa using this
  subst has
  refine ⟨rfl, ?_⟩
  apply List.ext_getElem?
  intro i
  by_cases hi : i < as.length
  · obtain ⟨a, x, ha, hx, hm⟩ := h.node (i + 1) (by omega) (by omega)
    obtain ⟨a2, y, ha2, hy, hm2⟩ := h2.node (i + 1) (by omega) (by omega)
    rw [ha] at ha2
    cases ha2
    rw [hm] at hm2
    have := congrArg Node.elem (Option.some.inj hm2)
    simp only [Nat.add_sub_cancel] at hx hy
    rw [hx, hy]
    exact congrArg some this
  · rw [List.getElem?_eq_none (by rw [h.len]; omega), List.getElem?_eq_none (by rw [h2.len]; omega)]

end CompleteBT.Rep

theorem CompleteBT.Stores.elems_unique {t : CompleteBT α} {es es2 : List (Elem α)}
    (h : CompleteBT.Stores t es) (h2 : CompleteBT.Stores t es2) : es = es2 := by
  obtain ⟨as, hr⟩ := h
  obtain ⟨as2, hr2⟩ := h2
  exact (hr.listing_unique hr2).2

/-! ## Invariants of runs -/

theorem Heap.run_holds : ∀ (cs : List (Heap.Call α)) (t : Heap α) (as : List Nat) (es : List (Elem α)),
    CompleteBT.Rep t as es → OrdList es →
    ∃ t1 as1 es1, Heap.run cs t = some t1 ∧ CompleteBT.Rep t1 as1 es1 ∧ OrdList es1 := by
  intro cs
  induction cs with
  | nil =>
    intro t as es h ho
    exact ⟨t, as, es, rfl, h, ho⟩
  | cons c cs ih =>
    intro t as es h ho
    cases c with
    | insert e =>
      obtain ⟨t1, es1, h1, hrep, _, hord⟩ := insert_spec h e
      obtain ⟨t2, as2, es2, r1, r2, r3⟩ := ih t1 _ es1 hrep (hord ho)
      refine ⟨t2, as2, es2, ?_, r2, r3⟩
      simp only [Heap.run, h1]
      exact r1
    | removeMin =>
      by_cases hlen : 1 ≤ as.length
      · obtain ⟨t1, es1, r, h1, _, hrep, _, hord⟩ := removeMin_spec h hlen
        obtain ⟨t2, as2, es2, r1, r2, r3⟩ := ih t1 _ es1 hrep (hord ho)
        refine ⟨t2, as2, es2, ?_, r2, r3⟩
        simp only [Heap.run, h1]
        exact r1
      · have has : as = [] := List.length_eq_zero.mp (by omega)
        have hes : es = [] := List.length_eq_zero.mp (by rw [h.len]; omega)
        subst has hes
        obtain ⟨t2, as2, es2, r1, r2, r3⟩ := ih t _ _ h ho
        refine ⟨t2, as2, es2, ?_, r2, r3⟩
        simp only [Heap.run, removeMin_nil h]
        exact r1

theorem Heap.reachable_rep {t : Heap α} (h : Heap.Reachable t) :
    ∃ as es, CompleteBT.Rep t as es ∧ OrdList es := by
  obtain ⟨cs, hcs⟩ := h
  obtain ⟨t1, as1, es1, r1, r2, r3⟩ := Heap.run_holds cs Heap.init [] [] init_rep ordList_nil
  rw [hcs] at r1
  cases r1
  exact ⟨as1, es1, r2, r3⟩

theorem CompleteBT.call_rep (c : CompleteBT.Call α) (t : CompleteBT α) (as : List Nat)
    (es : List (Elem α)) (h : CompleteBT.Rep t as es) :
    ∃ t1 as1 es1, CompleteBT.call t c = some t1 ∧ CompleteBT.Rep t1 as1 es1 := by
  cases c with
  | add e =>
    obtain ⟨t1, h1, hrep, _⟩ := add_spec h e
    exact ⟨t1, _, _, by simp [CompleteBT.call, h1], hrep⟩
  | remove =>
    by_cases hlen : 1 ≤ as.length
    · obtain ⟨t1, e, h1, _, hrep, _⟩ := remove_spec h hlen
      exact ⟨t1, _, _, by simp [CompleteBT.call, h1], hrep⟩
    · have hn : t.n = 0 := by rw [h.size]; omega
      exact ⟨t, as, es, by simp [CompleteBT.call, CompleteBT.remove, BT.empty, hn], h⟩
  | insert e =>
    obtain ⟨t1, es1, h1, hrep, _, _⟩ := insert_spec h e
    exact ⟨t1, _, es1, h1, hrep⟩
  | removeMin =>
    by_cases hlen : 1 ≤ as.length
    · obtain ⟨t1, es1, r, h1, _, hrep, _, _⟩ := removeMin_spec h hlen
      exact ⟨t1, _, es1, h1, hrep⟩
    · have has : as = [] := List.length_eq_zero.mp (by omega)
      have hes : es = [] := List.length_eq_zero.mp (by rw [h.len]; omega)
      subst has hes
      exact ⟨t, _, _, removeMin_nil h, h⟩

theorem CompleteBT.run_rep : ∀ (cs : List (CompleteBT.Call α)) (t : CompleteBT α) (as : List Nat)
    (es : List (Elem α)), CompleteBT.Rep t as es →
    ∃ t1 as1 es1, CompleteBT.run cs t = some t1 ∧ CompleteBT.Rep t1 as1 es1 := by
  intro cs
  induction cs with
  | nil =>
    intro t as es h
    exact ⟨t, as, es, rfl, h⟩
  | cons c cs ih =>
    intro t as es h
    obtain ⟨t1, as1, es1, h1, hrep⟩ := CompleteBT.call_rep c t as es h
    obtain ⟨t2, as2, es2, r1, r2⟩ := ih t1 as1 es1 hrep
    refine ⟨t2, as2, es2, ?_, r2⟩
    simp only [CompleteBT.run, h1]
    exact r1

/-- Under heap order the first element of the listing is a least one. -/
theorem root_min {es : List (Elem α)} (ho : OrdList es) {r : Elem α} (hr : es[0]? = some r) :
    ∀ (p : Nat) (x : Elem α), 1 ≤ p → es[p - 1]? = some x → Elem.lt x r = false := by
  intro p
  induction p using Nat.strong_induction_on with
  | _ p ih =>
    intro x h1 hx
    by_cases hp1 : p = 1
    · subst hp1
      rw [hr] at hx
      cases hx
      exact Elem.not_lt_self _
    · have hlt := (List.getElem?_eq_some.mp hx).1
      have hlt2 : p / 2 - 1 < es.length := by omega
      have hy : es[p / 2 - 1]? = some es[p / 2 - 1] := List.getElem?_eq_getElem hlt2
      have h3 := ih (p / 2) (by omega) _ (by omega) hy
      exact Elem.not_lt_trans h3 (ho p (by omega) _ x hy hx)

theorem root_min_mem {es : List (Elem α)} (ho : OrdList es) {r : Elem α} (hr : es[0]? = some r)
    {x : Elem α} (hx : x ∈ es) : Elem.lt x r = false := by
  obtain ⟨i, hi⟩ := List.mem_iff_getElem?.mp hx
  exact root_min ho hr (i + 1) x (by omega) (by simpa using hi)

theorem insertAll_spec : ∀ (l : List (Elem α)) (t : Heap α) (as : List Nat) (es : List (Elem α)),
    CompleteBT.Rep t as es → OrdList es →
    ∃ t1 as1 es1, Heap.insertAll l t = some t1 ∧ CompleteBT.Rep t1 as1 es1 ∧ OrdList es1 ∧
      es1.Perm (es ++ l) := by
  intro l
  induction l with
  | nil =>
    intro t as es h ho
    exact ⟨t, as, es, rfl, h, ho, by simp⟩
  | cons e l ih =>
    intro t as es h ho
    obtain ⟨t1, es1, h1, hrep, hperm, hord⟩ := insert_spec h e
    obtain ⟨t2, as2, es2, r1, r2, r3, r4⟩ := ih t1 _ es1 hrep (hord ho)
    refine ⟨t2, as2, es2, ?_, r2, r3, ?_⟩
    · simp only [Heap.insertAll, h1]
      exact r1
    · have : (es1 ++ l).Perm (es ++ e :: l) := by
        have h5 := List.Perm.append_right l hperm
        simpa using h5
      exact r4.trans this

theorem drain_spec : ∀ (k : Nat) (t : Heap α) (as : List Nat) (es : List (Elem α)),
    CompleteBT.Rep t as es → OrdList es → es.length = k → (es.map Elem.key).Nodup →
    ∃ (out : List (Elem α)) (t1 : Heap α), Heap.drain k t = some (out.map some, t1) ∧ out.Perm es ∧
      out.Pairwise (fun a b => Elem.lt a b = true) ∧ CompleteBT.Rep t1 [] [] := by
  intro k
  induction k with
  | zero =>
    intro t as es h ho hk hnd
    have hes : es = [] := List.length_eq_zero.mp hk
    have has : as = [] := List.length_eq_zero.mp (by rw [← h.len]; exact hk)
    subst hes has
    exact ⟨[], t, rfl, List.Perm.refl _, List.Pairwise.nil, h⟩
  | succ k ih =>
    intro t as es h ho hk hnd
    have hlen : 1 ≤ as.length := by rw [← h.len]; omega
    obtain ⟨t1, es1, r, h1, hr, hrep, hperm, hord⟩ := removeMin_spec h hlen
    have hk1 : es1.length = k := by
      have := hperm.length_eq
      simp only [List.length_cons] at this
      omega
    have hnd2 : ((r :: es1).map Elem.key).Nodup := (hperm.map Elem.key).nodup_iff.mpr hnd
    have hnd1 : (es1.map Elem.key).Nodup := by
      simp only [List.map_cons, List.nodup_cons] at hnd2
      exact hnd2.2
    obtain ⟨out, t2, d1, d2, d3, d4⟩ := ih t1 _ es1 hrep (hord ho) hk1 hnd1
    refine ⟨r :: out, t2, ?_, ?_, ?_, d4⟩
    · simp only [Heap.drain, min_spec h, hr, h1, d1, List.map_cons]
    · exact (List.Perm.cons r d2).trans hperm
    · rw [List.pairwise_cons]
      refine ⟨?_, d3⟩
      intro x hx
      have hx1 : x ∈ es1 := d2.subset hx
      have hxes : x ∈ es := hperm.subset (List.mem_cons_of_mem r hx1)
      apply Elem.lt_of_key_ne (root_min_mem ho hr hxes)
      intro hc
      simp only [List.map_cons, List.nodup_cons] at hnd2
      apply hnd2.1
      rw [hc]
      exact List.mem_map_of_mem Elem.key hx1



/-- C1. Heap-order invariant, for prices that are exact numbers (a linearly ordered commutative ring: no NaN, no infinity):
every finite sequence of `insert` / `removeMin` calls on the empty heap runs to completion, and afterwards no child reachable from the root compares `<`
its parent (keys compared by price, then time stamp). -/
theorem heap_order_invariant (cs : List (Heap.Call α)) :
    ∃ t, Heap.run cs Heap.init = some t ∧ Heap.Ordered t := by
  obtain ⟨t, as, es, h1, h2, h3⟩ := Heap.run_holds cs Heap.init [] [] init_rep ordList_nil
  exact ⟨t, h1, h2.ordered h3⟩

/-- C2. Min-extraction order, for prices that are exact numbers (a linearly ordered commutative ring: no NaN, no infinity):
inserting any list of elements with pairwise distinct keys into the empty heap and then reading `min()` and calling `removeMin()` once per element yields the
elements in strictly ascending key order, and the heap is empty afterwards. -/
theorem min_extraction_order (l : List (Elem α)) (hd : (l.map Elem.key).Nodup) :
    ∃ (out : List (Elem α)) (t : Heap α), (Heap.insertAll l Heap.init).bind (Heap.drain l.length) = some (out.map some, t) ∧
      out.Perm l ∧ out.Pairwise (fun a b => Elem.lt a b = true) ∧
      t.root = none ∧ t.lastNode = none ∧ t.n = 0 := by
  obtain ⟨t1, as1, es1, h1, h2, h3, h4⟩ := insertAll_spec l Heap.init [] [] init_rep ordList_nil
  simp only [List.nil_append] at h4
  have hk : es1.length = l.length := h4.length_eq
  have hnd : (es1.map Elem.key).Nodup := (h4.map Elem.key).nodup_iff.mpr hd
  obtain ⟨out, t2, d1, d2, d3, d4⟩ := drain_spec l.length t1 as1 es1 h2 h3 hk hnd
  refine ⟨out, t2, ?_, d2.trans h4, d3, d4.root, d4.last, d4.size⟩
  rw [h1]
  exact d1

/-- C3. Completeness and size invariant: every finite sequence of `add` / `remove` /
`insert` / `removeMin` calls on the empty tree runs to completion, and afterwards the nodes are
the distinct addresses `as` in level order (children of position `p` at `2 * p` and `2 * p + 1`,
parent at `p / 2`), `n` is their number, they are exactly the nodes reachable from the root, and
every node but the root is the left or right child of the node its parent link names. -/
theorem complete_shape_invariant (cs : List (CompleteBT.Call α)) :
    ∃ t as, CompleteBT.run cs CompleteBT.init = some t ∧ BT.Shape t.toBT as ∧
      (∀ a, t.toBT.Reach a ↔ a ∈ as) ∧
      (∀ a nd, t.toBT.Reach a → t.mem[a]? = some nd → t.root ≠ some a →
        ∃ pa pn, nd.parent = some pa ∧ t.mem[pa]? = some pn ∧
          (pn.left = some a ∨ pn.right = some a)) := by
  obtain ⟨t, as, es, h1, h2⟩ := CompleteBT.run_rep cs CompleteBT.init [] [] init_rep
  exact ⟨t, as, h1, h2.shape, h2.reach_iff, fun a nd hr hm hroot => h2.parent_link hr hm hroot⟩

/-- C4. Last-node consistency: after every finite sequence of `add` / `remove` / `insert` /
`removeMin` calls on the empty tree, `lastNode` is absent exactly when the tree is empty, and
otherwise it is the node at level-order position `n`. -/
theorem last_node_invariant (cs : List (CompleteBT.Call α)) :
    ∃ t as, CompleteBT.run cs CompleteBT.init = some t ∧ BT.Shape t.toBT as ∧
      (t.lastNode = none ↔ t.n = 0) ∧ (t.lastNode = none ↔ t.root = none) ∧
      t.lastNode = atPos as t.n.toNat := by
  obtain ⟨t, as, es, h1, h2⟩ := CompleteBT.run_rep cs CompleteBT.init [] [] init_rep
  refine ⟨t, as, h1, h2.shape, ?_, ?_, ?_⟩
  · rw [h2.last, h2.size]
    constructor
    · intro hn
      by_contra hc
      obtain ⟨a, ha⟩ := atPos_isSome as as.length (by omega) (le_refl _)
      rw [ha] at hn
      cases hn
    · intro hn
      have : as.length = 0 := by exact_mod_cast hn
      rw [this]
      exact atPos_zero as
  · rw [h2.last, h2.root]
    constructor
    · intro hn
      by_contra hc
      have hlen : 1 ≤ as.length := by
        by_contra hl
        exact hc (atPos_eq_none (by omega))
      obtain ⟨a, ha⟩ := atPos_isSome as as.length hlen (le_refl _)
      rw [ha] at hn
      cases hn
    · intro hn
      by_contra hc
      have hlen : 1 ≤ as.length := by
        by_contra hl
        have : as.length = 0 := by omega
        rw [this] at hc
        exact hc (atPos_zero as)
      obtain ⟨a, ha⟩ := atPos_isSome as 1 (le_refl _) hlen
      rw [ha] at hn
      cases hn
  · rw [h2.last, h2.size]
    rfl

/-- C5. `removeMin` removes exactly the minimum: on a non-empty heap reachable from the empty
heap, `removeMin` returns, the size drops by one, and the stored elements afterwards are the
stored elements before with one occurrence of the element `min()` returned (the root's element)
removed. -/
theorem removeMin_removes_min (t : Heap α) (hr : Heap.Reachable t) (hne : t.root ≠ none) :
    ∃ es t1 es1 r, CompleteBT.Stores t es ∧ Heap.min t = some (some r) ∧
      (∃ a nd, t.root = some a ∧ t.mem[a]? = some nd ∧ nd.elem = r) ∧
      Heap.removeMin t = some t1 ∧ CompleteBT.Stores t1 es1 ∧ t1.n = t.n - 1 ∧
      (es1 : Multiset (Elem α)) = (es : Multiset (Elem α)).erase r := by
  obtain ⟨as, es, h, ho⟩ := Heap.reachable_rep hr
  have hlen : 1 ≤ as.length := by
    by_contra hc
    apply hne
    rw [h.root]
    exact atPos_eq_none (by omega)
  obtain ⟨t1, es1, r, h1, hr0, hrep, hperm, _⟩ := removeMin_spec h hlen
  obtain ⟨ra, hra⟩ := atPos_isSome as 1 (le_refl _) hlen
  obtain ⟨x, hx, hm⟩ := h.read hra
  have hxr : x = r := by
    rw [hr0] at hx
    exact (Option.some.inj hx).symm
  refine ⟨es, t1, es1, r, ⟨as, h⟩, ?_, ⟨ra, _, by rw [h.root, hra], hm, hxr⟩, h1, ⟨_, hrep⟩, ?_, ?_⟩
  · rw [min_spec h, hr0]
  · rw [hrep.size, h.size, List.length_dropLast]
    omega
  · have : (es : Multiset (Elem α)) = r ::ₘ (es1 : Multiset (Elem α)) := by
      rw [Multiset.cons_coe]
      exact (Multiset.coe_eq_coe.mpr hperm).symm
    rw [this, Multiset.erase_cons_head]

/-- C6. `insert` adds exactly one element: on a heap reachable from the empty heap, `insert e`
returns, the size grows by one, and the stored elements afterwards are the stored elements
before plus `e`. -/
theorem insert_adds_one (t : Heap α) (e : Elem α) (hr : Heap.Reachable t) :
    ∃ es t1 es1, CompleteBT.Stores t es ∧ Heap.insert t e = some t1 ∧ CompleteBT.Stores t1 es1 ∧
      t1.n = t.n + 1 ∧ (es1 : Multiset (Elem α)) = e ::ₘ (es : Multiset (Elem α)) := by
  obtain ⟨as, es, h, ho⟩ := Heap.reachable_rep hr
  obtain ⟨t1, es1, h1, hrep, hperm, _⟩ := insert_spec h e
  refine ⟨es, t1, es1, ⟨as, h⟩, h1, ⟨_, hrep⟩, ?_, ?_⟩
  · rw [hrep.size, h.size]
    simp
  · rw [Multiset.cons_coe]
    apply Multiset.coe_eq_coe.mpr
    exact hperm.trans (List.perm_append_singleton e es)

/-- C7. `min()` returns a least element, for prices that are exact numbers (a linearly ordered commutative ring: no NaN, no infinity):
on a heap reachable from the empty heap, `min()` returns absent exactly when the heap is empty, and otherwise the element of the root, which no
stored element and no element of a node reachable from the root compares `<`. (`min` only reads:
it returns no heap.) -/
theorem min_returns_least (t : Heap α) (hr : Heap.Reachable t) :
    ∃ es, CompleteBT.Stores t es ∧ Heap.min t = some es.head? ∧
      (Heap.min t = some none ↔ t.root = none) ∧ (Heap.min t = some none ↔ t.n = 0) ∧
      ∀ r, Heap.min t = some (some r) →
        (∃ a nd, t.root = some a ∧ t.mem[a]? = some nd ∧ nd.elem = r) ∧
        (∀ x ∈ es, Elem.lt x r = false) ∧
        (∀ a nd, t.toBT.Reach a → t.mem[a]? = some nd → Elem.lt nd.elem r = false) := by
  obtain ⟨as, es, h, ho⟩ := Heap.reachable_rep hr
  have hmin := min_spec h
  have hhead : es[0]? = es.head? := by
    cases es <;> simp
  have hnone : es[0]? = none ↔ as.length = 0 := by
    rw [List.getElem?_eq_none_iff, h.len]
    omega
  refine ⟨es, ⟨as, h⟩, by rw [hmin, hhead], ?_, ?_, ?_⟩
  · rw [hmin, h.root]
    constructor
    · intro hn
      have := hnone.mp (Option.some.inj hn)
      exact atPos_eq_none (by omega)
    · intro hn
      by_contra hc
      have hlen : 1 ≤ as.length := by
        by_contra hl
        apply hc
        rw [hnone.mpr (by omega)]
      obtain ⟨a, ha⟩ := atPos_isSome as 1 (le_refl _) hlen
      rw [ha] at hn
      cases hn
  · rw [hmin, h.size]
    constructor
    · intro hn
      have := hnone.mp (Option.some.inj hn)
      exact_mod_cast this
    · intro hn
      have : as.length = 0 := by exact_mod_cast hn
      rw [hnone.mpr this]
  · intro r hr1
    rw [hmin] at hr1
    have hr0 : es[0]? = some r := Option.some.inj hr1
    have hlen : 1 ≤ as.length := by
      have := (List.getElem?_eq_some.mp hr0).1
      rw [h.len] at this
      omega
    obtain ⟨ra, hra⟩ := atPos_isSome as 1 (le_refl _) hlen
    obtain ⟨x, hx, hm⟩ := h.read hra
    have hxr : x = r := by
      rw [hr0] at hx
      exact (Option.some.inj hx).symm
    refine ⟨⟨ra, _, by rw [h.root, hra], hm, hxr⟩, fun x hx => root_min_mem ho hr0 hx, ?_⟩
    intro a nd hreach hnd
    obtain ⟨p, hp⟩ := mem_atPos (h.reach_mem hreach)
    obtain ⟨y, hy, hm2⟩ := h.read hp
    rw [hm2] at hnd
    cases hnd
    exact root_min ho hr0 p y (atPos_eq_some hp).1 hy

/-- C8. Empty-queue safety: on an empty heap (`root` and `lastNode` absent, `n = 0`) `removeMin`
returns the heap unchanged, and `remove` returns absent and the tree unchanged; neither fails,
so neither dereferences an absent node. -/
theorem empty_queue_safety (t : Heap α) (hroot : t.root = none) (_hlast : t.lastNode = none)
    (hn : t.n = 0) :
    Heap.removeMin t = some t ∧ CompleteBT.remove t = some (t, none) ∧ t.toBT.size = 0 := by
  refine ⟨?_, ?_, hn⟩
  · simp [Heap.removeMin, hroot]
  · simp [CompleteBT.remove, BT.empty, hn]

/-! ## Heaps as priority queues of listed elements -/

namespace Heap.Holds

variable {t : Heap α} {es : List (Elem α)}

theorem of_init : Heap.Holds (Heap.init : Heap α) [] :=
  ⟨⟨[], init_rep⟩, ordList_nil⟩

theorem of_reachable {t : Heap α} (h : Heap.Reachable t) : ∃ es, Heap.Holds t es := by
  obtain ⟨as, es, h1, h2⟩ := Heap.reachable_rep h
  exact ⟨es, ⟨as, h1⟩, h2⟩

theorem size_eq (h : Heap.Holds t es) : t.n = es.length := by
  obtain ⟨⟨as, hr⟩, _⟩ := h
  rw [hr.size, hr.len]

theorem empty_iff (h : Heap.Holds t es) : t.toBT.empty = true ↔ es = [] := by
  simp only [BT.empty, decide_eq_true_eq, h.size_eq]
  constructor
  · intro hn
    exact List.length_eq_zero.mp (by exact_mod_cast hn)
  · intro hn
    rw [hn]
    rfl

theorem root_iff (h : Heap.Holds t es) : t.root = none ↔ es = [] := by
  obtain ⟨⟨as, hr⟩, _⟩ := h
  rw [hr.root]
  constructor
  · intro hn
    apply List.length_eq_zero.mp
    by_contra hc
    obtain ⟨a, ha⟩ := atPos_isSome as 1 (le_refl _) (by rw [← hr.len]; omega)
    rw [ha] at hn
    cases hn
  · intro hn
    apply atPos_eq_none
    rw [← hr.len, hn]
    exact Nat.zero_lt_one

theorem min_eq (h : Heap.Holds t es) : Heap.min t = some es.head? := by
  obtain ⟨⟨as, hr⟩, _⟩ := h
  rw [min_spec hr]
  cases es <;> simp

theorem head_le (h : Heap.Holds t es) {r x : Elem α} (hr : es.head? = some r) (hx : x ∈ es) :
    Elem.lt x r = false := by
  apply root_min_mem h.2 _ hx
  cases es with
  | nil => cases hr
  | cons a l => simpa using hr

theorem insert_holds (h : Heap.Holds t es) (e : Elem α) :
    ∃ t1 es1, Heap.insert t e = some t1 ∧ Heap.Holds t1 es1 ∧ es1.Perm (e :: es) := by
  obtain ⟨⟨as, hr⟩, ho⟩ := h
  obtain ⟨t1, es1, h1, hrep, hperm, hord⟩ := insert_spec hr e
  exact ⟨t1, es1, h1, ⟨⟨_, hrep⟩, hord ho⟩, hperm.trans (List.perm_append_singleton e es)⟩

theorem removeMin_holds (h : Heap.Holds t es) {r : Elem α} (hr : es.head? = some r) :
    ∃ t1 es1, Heap.removeMin t = some t1 ∧ Heap.Holds t1 es1 ∧ (r :: es1).Perm es := by
  obtain ⟨⟨as, hrep⟩, ho⟩ := h
  have hlen : 1 ≤ as.length := by
    rw [← hrep.len]
    cases es with
    | nil => cases hr
    | cons a l => simp
  obtain ⟨t1, es1, r1, h1, hr1, hrep1, hperm, hord⟩ := removeMin_spec hrep hlen
  have : r1 = r := by
    cases es with
    | nil => cases hr
    | cons a l =>
      simp at hr hr1
      rw [← hr, ← hr1]
  subst this
  exact ⟨t1, es1, h1, ⟨⟨_, hrep1⟩, hord ho⟩, hperm⟩

end Heap.Holds

theorem Elem.price_le_of_not_lt {x b : Elem α} (h : Elem.lt x b = false) :
    b.key.price ≤ x.key.price := by
  unfold Elem.lt Key.lt at h
  simp only [Bool.or_eq_false_iff, decide_eq_false_iff_not, not_lt] at h
  exact h.1

/-! ## One trade -/

theorem processTrade_spec {m : StockMarket α} {bs ss : List (Elem α)} {b s : Elem α}
    (hB : Heap.Holds m.buyOrders bs) (hS : Heap.Holds m.sellOrders ss)
    (hb : bs.head? = some b) (hs : ss.head? = some s) :
    ∃ m1 bs0 ss0 bs1 ss1, m.processTrade = some m1 ∧
      Heap.Holds m1.buyOrders bs1 ∧ Heap.Holds m1.sellOrders ss1 ∧
      (b :: bs0).Perm bs ∧ (s :: ss0).Perm ss ∧
      (b.value.numShares > s.value.numShares →
        bs1.Perm (⟨b.key, ⟨b.value.numShares - s.value.numShares, b.value.traderID⟩⟩ :: bs0) ∧
        ss1 = ss0) ∧
      (s.value.numShares > b.value.numShares →
        ss1.Perm (⟨s.key, ⟨s.value.numShares - b.value.numShares, s.value.traderID⟩⟩ :: ss0) ∧
        bs1 = bs0) ∧
      (b.value.numShares = s.value.numShares → bs1 = bs0 ∧ ss1 = ss0) ∧
      m1.counter = m.counter := by
  obtain ⟨s1, ss0, hs1, hS1, hps⟩ := hS.removeMin_holds hs
  obtain ⟨b1, bs0, hb1, hB1, hpb⟩ := hB.removeMin_holds hb
  unfold StockMarket.processTrade
  rw [hB.min_eq, hS.min_eq, hb, hs]
  simp only [hs1, hb1, wrapInt_exact]
  by_cases hgt : b.value.numShares > s.value.numShares
  · have hrem : b.value.numShares - s.value.numShares > 0 := by omega
    have hkey : ({ price := -b.key.price * -1, timeStamp := b.key.timeStamp } : Key α) = b.key := by
      cases b with
      | mk k v =>
        cases k
        simp
    simp only [hgt, if_true, hrem, StockMarket.buyAux, StockMarket.transAux, hkey]
    obtain ⟨b2, bs1, hb2, hB2, hp2⟩ := hB1.insert_holds
      ⟨b.key, ⟨b.value.numShares - s.value.numShares, b.value.traderID⟩⟩
    simp only [hb2]
    refine ⟨_, bs0, ss0, bs1, ss0, rfl, hB2, hS1, hpb, hps, ?_, ?_, ?_, rfl⟩
    · intro _
      exact ⟨hp2, rfl⟩
    · intro hc
      omega
    · intro hc
      omega
  · simp only [hgt, if_false]
    by_cases hlt : s.value.numShares > b.value.numShares
    · have hrem : s.value.numShares - b.value.numShares > 0 := by omega
      have hkey : ({ price := s.key.price * 1, timeStamp := s.key.timeStamp } : Key α) = s.key := by
        cases s with
        | mk k v =>
          cases k
          simp
      simp only [hrem, if_true, StockMarket.sellAux, StockMarket.transAux, Bool.false_eq_true,
        if_false, hkey]
      obtain ⟨s2, ss1, hs2, hS2, hp2⟩ := hS1.insert_holds
        ⟨s.key, ⟨s.value.numShares - b.value.numShares, s.value.traderID⟩⟩
      simp only [hs2]
      refine ⟨_, bs0, ss0, bs0, ss1, rfl, hB1, hS2, hpb, hps, ?_, ?_, ?_, rfl⟩
      · intro hc
        exact hc.elim
      · intro _
        exact ⟨hp2, rfl⟩
      · intro hc
        omega
    · have hrem : ¬ s.value.numShares - b.value.numShares > 0 := by omega
      simp only [hrem, if_false]
      refine ⟨_, bs0, ss0, bs0, ss0, rfl, hB1, hS1, hpb, hps, ?_, ?_, ?_, rfl⟩
      · intro hc
        exact hc.elim
      · intro hc
        omega
      · intro _
        exact ⟨rfl, rfl⟩

theorem processTrade_length {m : StockMarket α} {bs ss : List (Elem α)} {b s : Elem α}
    (hB : Heap.Holds m.buyOrders bs) (hS : Heap.Holds m.sellOrders ss)
    (hb : bs.head? = some b) (hs : ss.head? = some s) :
    ∃ m1 bs1 ss1, m.processTrade = some m1 ∧
      Heap.Holds m1.buyOrders bs1 ∧ Heap.Holds m1.sellOrders ss1 ∧
      bs1.length + ss1.length + 1 ≤ bs.length + ss.length := by
  obtain ⟨m1, bs0, ss0, bs1, ss1, h1, h2, h3, h4, h5, h6, h7, h8, _⟩ := processTrade_spec hB hS hb hs
  refine ⟨m1, bs1, ss1, h1, h2, h3, ?_⟩
  have l4 := h4.length_eq
  have l5 := h5.length_eq
  simp only [List.length_cons] at l4 l5
  rcases lt_trichotomy b.value.numShares s.value.numShares with hc | hc | hc
  · obtain ⟨p1, p2⟩ := h7 hc
    have := p1.length_eq
    simp only [List.length_cons] at this
    subst p2
    omega
  · obtain ⟨p1, p2⟩ := h8 hc
    subst p1 p2
    omega
  · obtain ⟨p1, p2⟩ := h6 hc
    have := p1.length_eq
    simp only [List.length_cons] at this
    subst p2
    omega

/-! ## The matching loop -/

theorem tradeLoop_spec : ∀ (fuel : Nat) (m : StockMarket α) (bs ss : List (Elem α)) (avail : Bool),
    Heap.Holds m.buyOrders bs → Heap.Holds m.sellOrders ss →
    (if avail then bs.length + ss.length + 1 else 1) ≤ fuel →
    (avail = false → Uncrossed bs ss) →
    ∃ m1 bs1 ss1, StockMarket.tradeLoop fuel m avail = some m1 ∧
      Heap.Holds m1.buyOrders bs1 ∧ Heap.Holds m1.sellOrders ss1 ∧ Uncrossed bs1 ss1 ∧
      m1.counter = m.counter := by
  intro fuel
  induction fuel with
  | zero =>
    intro m bs ss avail hB hS hf hu
    cases avail <;> simp at hf
  | succ f ih =>
    intro m bs ss avail hB hS hf hu
    cases avail with
    | false =>
      refine ⟨m, bs, ss, ?_, hB, hS, hu rfl, rfl⟩
      simp [StockMarket.tradeLoop]
    | true =>
      simp only [if_true] at hf
      cases hbs : bs with
      | nil =>
        subst hbs
        have he : m.buyOrders.toBT.empty = true := hB.empty_iff.mpr rfl
        refine ⟨m, [], ss, ?_, hB, hS, ?_, rfl⟩
        · simp [StockMarket.tradeLoop, he]
        · intro b s hb
          cases hb
      | cons b bt =>
        cases hss : ss with
        | nil =>
          subst hss
          have he : m.sellOrders.toBT.empty = true := hS.empty_iff.mpr rfl
          refine ⟨m, bs, [], ?_, hB, hS, ?_, rfl⟩
          · simp [StockMarket.tradeLoop, he]
          · intro b s _ hs
            cases hs
        | cons s st =>
          have hbh : bs.head? = some b := by rw [hbs]; rfl
          have hsh : ss.head? = some s := by rw [hss]; rfl
          have heb : m.buyOrders.toBT.empty = false := by
            cases hc : m.buyOrders.toBT.empty with
            | false => rfl
            | true =>
              have := hB.empty_iff.mp hc
              rw [hbs] at this
              cases this
          have hes : m.sellOrders.toBT.empty = false := by
            cases hc : m.sellOrders.toBT.empty with
            | false => rfl
            | true =>
              have := hS.empty_iff.mp hc
              rw [hss] at this
              cases this
          have hlen : 2 ≤ bs.length + ss.length := by
            rw [hbs, hss]
            simp only [List.length_cons]
            omega
          simp only [StockMarket.tradeLoop, heb, hes, Bool.or_self, Bool.not_false, Bool.and_self,
            if_true, hB.min_eq, hS.min_eq, hbh, hsh]
          by_cases hx : s.key.price - -b.key.price ≤ 0
          · simp only [hx, if_true]
            obtain ⟨m1, bs1, ss1, h1, h2, h3, h4⟩ := processTrade_length hB hS hbh hsh
            obtain ⟨hcnt⟩ : ∃ _ : m1.counter = m.counter, True := by
              obtain ⟨m2, _, _, _, _, g1, _, _, _, _, _, _, _, g2⟩ := processTrade_spec hB hS hbh hsh
              rw [h1] at g1
              cases g1
              exact ⟨g2, trivial⟩
            simp only [h1]
            have hf2 : (if true = true then bs1.length + ss1.length + 1 else 1) ≤ f := by
              simp only [if_true]
              omega
            obtain ⟨m2, bs2, ss2, r1, r2, r3, r4, r5⟩ := ih m1 bs1 ss1 true h2 h3 hf2 (by simp)
            exact ⟨m2, bs2, ss2, r1, r2, r3, r4, r5.trans hcnt⟩
          · simp only [hx, if_false]
            have hf2 : (if false = true then bs.length + ss.length + 1 else 1) ≤ f := by
              simp only [Bool.false_eq_true, if_false]
              omega
            have hu2 : Uncrossed bs ss := by
              intro b2 s2 hb2 hs2
              rw [hbh] at hb2
              rw [hsh] at hs2
              cases hb2; cases hs2
              have := not_le.mp hx
              linarith
            rw [hbs, hss] at hf2 hu2
            rw [hbs] at hB
            rw [hss] at hS
            exact ih m (b :: bt) (s :: st) false hB hS hf2 (fun _ => hu2)

theorem trade_spec {m : StockMarket α} {bs ss : List (Elem α)}
    (hB : Heap.Holds m.buyOrders bs) (hS : Heap.Holds m.sellOrders ss) :
    ∃ m1 bs1 ss1, m.trade = some m1 ∧
      Heap.Holds m1.buyOrders bs1 ∧ Heap.Holds m1.sellOrders ss1 ∧ Uncrossed bs1 ss1 ∧
      m1.counter = m.counter := by
  unfold StockMarket.trade
  by_cases he : (m.buyOrders.toBT.empty || m.sellOrders.toBT.empty) = true
  · rw [if_pos he]
    refine ⟨m, bs, ss, rfl, hB, hS, ?_, rfl⟩
    intro b s hb hs
    rw [Bool.or_eq_true] at he
    rcases he with he | he
    · rw [hB.empty_iff.mp he] at hb
      cases hb
    · rw [hS.empty_iff.mp he] at hs
      cases hs
  · rw [if_neg he]
    apply tradeLoop_spec _ m bs ss true hB hS _ (by simp)
    simp only [if_true, hB.size_eq, hS.size_eq]
    omega

theorem transAux_spec (m : StockMarket α) {bs ss : List (Elem α)}
    (hB : Heap.Holds m.buyOrders bs) (hS : Heap.Holds m.sellOrders ss)
    (num : Int) (price : α) (id t : Int) (buyTrans : Bool) :
    ∃ m1 bs1 ss1, m.transAux num price id t buyTrans = some m1 ∧
      Heap.Holds m1.buyOrders bs1 ∧ Heap.Holds m1.sellOrders ss1 := by
  cases buyTrans with
  | true =>
    obtain ⟨h1, bs1, e1, e2, _⟩ := hB.insert_holds ⟨⟨price * -1, t⟩, ⟨num, id⟩⟩
    refine ⟨{ m with buyOrders := h1 }, bs1, ss, ?_, e2, hS⟩
    simp only [StockMarket.transAux, if_true, e1]
  | false =>
    obtain ⟨h1, ss1, e1, e2, _⟩ := hS.insert_holds ⟨⟨price * 1, t⟩, ⟨num, id⟩⟩
    refine ⟨{ m with sellOrders := h1 }, bs, ss1, ?_, hB, e2⟩
    simp only [StockMarket.transAux, Bool.false_eq_true, if_false, e1]

theorem StockMarket.call_uncrossed {m : StockMarket α} {bs ss : List (Elem α)}
    (hB : Heap.Holds m.buyOrders bs) (hS : Heap.Holds m.sellOrders ss) (c : StockMarket.Call α) :
    ∃ m1 bs1 ss1, StockMarket.run [c] m = some m1 ∧
      Heap.Holds m1.buyOrders bs1 ∧ Heap.Holds m1.sellOrders ss1 ∧ Uncrossed bs1 ss1 := by
  cases c with
  | buy price num id =>
    obtain ⟨m1, bs1, ss1, h1, h2, h3⟩ :=
      transAux_spec { m with counter := m.counter + 1 } hB hS num price id m.counter true
    obtain ⟨m2, bs2, ss2, r1, r2, r3, r4, _⟩ := trade_spec h2 h3
    refine ⟨m2, bs2, ss2, ?_, r2, r3, r4⟩
    simp only [StockMarket.run, StockMarket.buy, StockMarket.buyAux, h1, r1]
  | sell price num id =>
    obtain ⟨m1, bs1, ss1, h1, h2, h3⟩ :=
      transAux_spec { m with counter := m.counter + 1 } hB hS num price id m.counter false
    obtain ⟨m2, bs2, ss2, r1, r2, r3, r4, _⟩ := trade_spec h2 h3
    refine ⟨m2, bs2, ss2, ?_, r2, r3, r4⟩
    simp only [StockMarket.run, StockMarket.sell, StockMarket.sellAux, h1, r1]

theorem StockMarket.run_cons (c : StockMarket.Call α) (cs : List (StockMarket.Call α))
    (m : StockMarket α) :
    StockMarket.run (c :: cs) m = (StockMarket.run [c] m).bind (StockMarket.run cs) := by
  cases c with
  | buy price num id =>
    simp only [StockMarket.run]
    cases m.buy price num id <;> rfl
  | sell price num id =>
    simp only [StockMarket.run]
    cases m.sell price num id <;> rfl

theorem StockMarket.run_uncrossed : ∀ (cs : List (StockMarket.Call α)) (m : StockMarket α)
    (bs ss : List (Elem α)), Heap.Holds m.buyOrders bs → Heap.Holds m.sellOrders ss →
    Uncrossed bs ss →
    ∃ m1 bs1 ss1, StockMarket.run cs m = some m1 ∧
      Heap.Holds m1.buyOrders bs1 ∧ Heap.Holds m1.sellOrders ss1 ∧ Uncrossed bs1 ss1 := by
  intro cs
  induction cs with
  | nil =>
    intro m bs ss hB hS hu
    exact ⟨m, bs, ss, rfl, hB, hS, hu⟩
  | cons c cs ih =>
    intro m bs ss hB hS _
    obtain ⟨m1, bs1, ss1, h1, h2, h3, h4⟩ := StockMarket.call_uncrossed hB hS c
    obtain ⟨m2, bs2, ss2, r1, r2, r3, r4⟩ := ih m1 bs1 ss1 h2 h3 h4
    refine ⟨m2, bs2, ss2, ?_, r2, r3, r4⟩
    rw [StockMarket.run_cons, h1]
    exact r1

theorem perm_cons_erase_coe {β : Type} [DecidableEq β] {l l0 : List β} {x : β}
    (h : (x :: l0).Perm l) : (l0 : Multiset β) = (l : Multiset β).erase x := by
  have : (l : Multiset β) = x ::ₘ (l0 : Multiset β) := by
    rw [Multiset.cons_coe]
    exact (Multiset.coe_eq_coe.mpr h).symm
  rw [this, Multiset.erase_cons_head]



/-- C9. Books are uncrossed after every submission, for prices that are exact numbers (a linearly ordered commutative ring: no NaN, no infinity):
every finite sequence of `buy` / `sell` calls on the initial market runs to completion, and afterwards one of the books is empty or the
best buy price (the highest resting one, read off `min()` of the buy book) is strictly less than
the best sell price (the lowest resting one). -/
theorem books_uncrossed (cs : List (StockMarket.Call α)) :
    ∃ m bs ss, StockMarket.run cs StockMarket.init = some m ∧
      CompleteBT.Stores m.buyOrders bs ∧ CompleteBT.Stores m.sellOrders ss ∧
      (m.buyOrders.toBT.empty = true ∨ m.sellOrders.toBT.empty = true ∨
        ∃ b s, Heap.min m.buyOrders = some (some b) ∧ Heap.min m.sellOrders = some (some s) ∧
          (∀ x ∈ bs, -x.key.price ≤ -b.key.price) ∧ (∀ y ∈ ss, s.key.price ≤ y.key.price) ∧
          -b.key.price < s.key.price) := by
  have hu0 : Uncrossed ([] : List (Elem α)) [] := by
    intro b s hb
    cases hb
  obtain ⟨m, bs, ss, h1, hB, hS, hu⟩ :=
    StockMarket.run_uncrossed cs StockMarket.init [] [] Heap.Holds.of_init Heap.Holds.of_init hu0
  refine ⟨m, bs, ss, h1, hB.1, hS.1, ?_⟩
  cases hbs : bs with
  | nil => exact Or.inl (hB.empty_iff.mpr hbs)
  | cons b bt =>
    cases hss : ss with
    | nil => exact Or.inr (Or.inl (hS.empty_iff.mpr hss))
    | cons s st =>
      have hbh : bs.head? = some b := by rw [hbs]; rfl
      have hsh : ss.head? = some s := by rw [hss]; rfl
      refine Or.inr (Or.inr ⟨b, s, by rw [hB.min_eq, hbh], by rw [hS.min_eq, hsh], ?_, ?_,
        hu b s hbh hsh⟩)
      · intro x hx
        rw [← hbs] at hx
        exact neg_le_neg (Elem.price_le_of_not_lt (hB.head_le hbh hx))
      · intro y hy
        rw [← hss] at hy
        exact Elem.price_le_of_not_lt (hS.head_le hsh hy)

/-- C10. Partial fill of one trade, for prices that are exact numbers (a linearly ordered commutative ring: no NaN, no infinity)
and `int` quantities whose difference does not overflow: when both books are non-empty heaps
reachable from the empty heap, with `b` the order `min()` gives for the buy book and `s` the one for the sell book,
`processTrade` returns, takes `b` and `s` off their books, and puts back only the remainder of the
larger order: into the buy book when `b` is larger, into the sell book when `s` is larger, nothing
when they are equal; the remainder keeps the price, time stamp and trader of its order. All other
resting orders stay, and the counter is unchanged. -/
theorem processTrade_remainder (m : StockMarket α) (hb : Heap.Reachable m.buyOrders)
    (hs : Heap.Reachable m.sellOrders) (hbn : m.buyOrders.toBT.empty = false)
    (hsn : m.sellOrders.toBT.empty = false) :
    ∃ bs ss b s m1 bs1 ss1, CompleteBT.Stores m.buyOrders bs ∧ CompleteBT.Stores m.sellOrders ss ∧
      Heap.min m.buyOrders = some (some b) ∧ Heap.min m.sellOrders = some (some s) ∧
      m.processTrade = some m1 ∧
      CompleteBT.Stores m1.buyOrders bs1 ∧ CompleteBT.Stores m1.sellOrders ss1 ∧
      (b.value.numShares > s.value.numShares →
        (bs1 : Multiset (Elem α)) =
          { key := { price := -(-b.key.price), timeStamp := b.key.timeStamp },
            value := { numShares := b.value.numShares - s.value.numShares,
                       traderID := b.value.traderID } } ::ₘ (bs : Multiset (Elem α)).erase b ∧
        (ss1 : Multiset (Elem α)) = (ss : Multiset (Elem α)).erase s) ∧
      (s.value.numShares > b.value.numShares →
        (ss1 : Multiset (Elem α)) =
          { key := { price := s.key.price, timeStamp := s.key.timeStamp },
            value := { numShares := s.value.numShares - b.value.numShares,
                       traderID := s.value.traderID } } ::ₘ (ss : Multiset (Elem α)).erase s ∧
        (bs1 : Multiset (Elem α)) = (bs : Multiset (Elem α)).erase b) ∧
      (b.value.numShares = s.value.numShares →
        (bs1 : Multiset (Elem α)) = (bs : Multiset (Elem α)).erase b ∧
        (ss1 : Multiset (Elem α)) = (ss : Multiset (Elem α)).erase s) ∧
      m1.counter = m.counter := by
  obtain ⟨bs, hB⟩ := Heap.Holds.of_reachable hb
  obtain ⟨ss, hS⟩ := Heap.Holds.of_reachable hs
  cases hbs : bs with
  | nil =>
    rw [hB.empty_iff.mpr hbs] at hbn
    cases hbn
  | cons b bt =>
    cases hss : ss with
    | nil =>
      rw [hS.empty_iff.mpr hss] at hsn
      cases hsn
    | cons s st =>
      have hbh : bs.head? = some b := by rw [hbs]; rfl
      have hsh : ss.head? = some s := by rw [hss]; rfl
      obtain ⟨m1, bs0, ss0, bs1, ss1, h1, h2, h3, h4, h5, h6, h7, h8, h9⟩ :=
        processTrade_spec hB hS hbh hsh
      have e4 := perm_cons_erase_coe h4
      have e5 := perm_cons_erase_coe h5
      rw [hbs] at e4 hB
      rw [hss] at e5 hS
      have hkb : ({ price := -(-b.key.price), timeStamp := b.key.timeStamp } : Key α) = b.key := by
        rw [neg_neg]
      have hks : ({ price := s.key.price, timeStamp := s.key.timeStamp } : Key α) = s.key := rfl
      refine ⟨b :: bt, s :: st, b, s, m1, bs1, ss1, hB.1, hS.1, ?_, ?_, h1, h2.1, h3.1,
        ?_, ?_, ?_, h9⟩
      · rw [hB.min_eq]; rfl
      · rw [hS.min_eq]; rfl
      · intro hc
        obtain ⟨p1, p2⟩ := h6 hc
        rw [hkb, ← e4, p2, ← e5, Multiset.cons_coe]
        exact ⟨Multiset.coe_eq_coe.mpr p1, rfl⟩
      · intro hc
        obtain ⟨p1, p2⟩ := h7 hc
        rw [hks, ← e5, p2, ← e4, Multiset.cons_coe]
        exact ⟨Multiset.coe_eq_coe.mpr p1, rfl⟩
      · intro hc
        obtain ⟨p1, p2⟩ := h8 hc
        rw [p1, p2, e4, e5]
        exact ⟨rfl, rfl⟩

/-! ## The ledger -/

theorem lookup_store_self (book : List (Int × Record α)) (id : Int) (r : Record α) :
    (Ledger.store book id r).lookup id = some r := by
  induction book with
  | nil => simp [Ledger.store, List.lookup]
  | cons kv rest ih =>
    obtain ⟨k, v⟩ := kv
    by_cases hk : k = id
    · simp [Ledger.store, hk, List.lookup]
    · have hk2 : (id == k) = false := by
        simp only [beq_eq_false_iff_ne, ne_eq]
        exact fun h => hk h.symm
      simp only [Ledger.store, hk, if_false, List.lookup, hk2]
      exact ih

theorem lookup_store_other (book : List (Int × Record α)) (id j : Int) (r : Record α)
    (hj : j ≠ id) : (Ledger.store book id r).lookup j = book.lookup j := by
  induction book with
  | nil =>
    have hj2 : (j == id) = false := by simpa using hj
    simp [Ledger.store, List.lookup, hj2]
  | cons kv rest ih =>
    obtain ⟨k, v⟩ := kv
    by_cases hk : k = id
    · subst hk
      have hj2 : (j == k) = false := by simpa using hj
      simp [Ledger.store, List.lookup, hj2]
    · simp only [Ledger.store, hk, if_false, List.lookup]
      rw [ih]

theorem recordOf_of_lookup {L : Ledger α} {id : Int} {r : Record α}
    (h : L.book.lookup id = some r) : L.recordOf id = r := by
  simp [Ledger.recordOf, h]

theorem ledger_trans_lookup (L : Ledger α) (e : Elem α) (isBuyTrans : Bool) :
    (L.trans e isBuyTrans).book.lookup e.value.traderID = some
      { id := (L.recordOf e.value.traderID).id,
        balance := (L.recordOf e.value.traderID).balance + (e.value.numShares : α) * e.key.price,
        holdings := (L.recordOf e.value.traderID).holdings + e.value.numShares,
        buyTrans := if isBuyTrans then (L.recordOf e.value.traderID).buyTrans ++ [e]
          else (L.recordOf e.value.traderID).buyTrans,
        sellTrans := if isBuyTrans then (L.recordOf e.value.traderID).sellTrans
          else (L.recordOf e.value.traderID).sellTrans ++ [e] } := by
  unfold Ledger.trans
  simp only [lookup_store_self]
  cases isBuyTrans <;> rfl

theorem ledger_trans_other (L : Ledger α) (e : Elem α) (isBuyTrans : Bool) (j : Int)
    (hj : j ≠ e.value.traderID) :
    (L.trans e isBuyTrans).book.lookup j = L.book.lookup j := by
  unfold Ledger.trans
  exact lookup_store_other _ _ _ _ hj

/-! ## What one trade posts -/

theorem transAux_frame {m m1 : StockMarket α} {num : Int} {price : α} {id t : Int}
    {buyTrans : Bool} (h : m.transAux num price id t buyTrans = some m1) :
    m1.books = m.books ∧ m1.bank = m.bank ∧ m1.counter = m.counter := by
  unfold StockMarket.transAux at h
  split at h
  · dsimp only at h
    split at h
    · cases h
    · cases h
      exact ⟨rfl, rfl, rfl⟩
  · dsimp only at h
    split at h
    · cases h
    · cases h
      exact ⟨rfl, rfl, rfl⟩

theorem processTrade_post {m m1 : StockMarket α} {b s : Elem α}
    (hb : Heap.min m.buyOrders = some (some b)) (hs : Heap.min m.sellOrders = some (some s))
    (h : m.processTrade = some m1) :
    m1.books = (m.books.buy (filled b (min b.value.numShares s.value.numShares))).sell
        (filled s (min b.value.numShares s.value.numShares)) ∧
      m1.bank = m.bank +
        (-b.key.price - s.key.price) * ((min b.value.numShares s.value.numShares : Int) : α) ∧
      m1.counter = m.counter := by
  unfold StockMarket.processTrade at h
  simp only [hb, hs] at h
  split at h
  · cases h
  · split at h
    · cases h
    · have hkey : ({ price := -(-b.key.price), timeStamp := b.key.timeStamp } : Key α) = b.key := by
        rw [neg_neg]
      split at h
      · rename_i hgt
        have hmin : min b.value.numShares s.value.numShares = s.value.numShares :=
          min_eq_right (le_of_lt hgt)
        split at h
        · cases h
        · rename_i m2 h2
          cases h
          split at h2
          · obtain ⟨f1, f2, f3⟩ := transAux_frame h2
            simp [f1, f2, f3, hmin, filled]
          · cases h2
            simp [hmin, filled]
      · rename_i hgt
        have hmin : min b.value.numShares s.value.numShares = b.value.numShares :=
          min_eq_left (not_lt.mp hgt)
        split at h
        · cases h
        · rename_i m2 h2
          cases h
          split at h2
          · obtain ⟨f1, f2, f3⟩ := transAux_frame h2
            simp [f1, f2, f3, hmin, filled]
          · cases h2
            simp [hmin, filled]

/-! ## The log of trades -/

theorem tradeLoopLog_fst : ∀ (fuel : Nat) (m : StockMarket α) (avail : Bool),
    (StockMarket.tradeLoopLog fuel m avail).map Prod.fst = StockMarket.tradeLoop fuel m avail := by
  intro fuel
  induction fuel with
  | zero =>
    intro m avail
    rfl
  | succ f ih =>
    intro m avail
    simp only [StockMarket.tradeLoopLog, StockMarket.tradeLoop]
    split
    · cases h1 : Heap.min m.buyOrders with
      | none => rfl
      | some ob =>
        cases ob with
        | none => rfl
        | some b =>
          cases h2 : Heap.min m.sellOrders with
          | none => rfl
          | some os =>
            cases os with
            | none => rfl
            | some s =>
              dsimp only
              split
              · cases h3 : m.processTrade with
                | none => rfl
                | some m1 =>
                  dsimp only
                  rw [← ih m1 true]
                  cases StockMarket.tradeLoopLog f m1 true with
                  | none => rfl
                  | some r => rfl
              · exact ih m false
    · rfl

theorem tradeLog_fst (m : StockMarket α) : m.tradeLog.map Prod.fst = m.trade := by
  unfold StockMarket.tradeLog StockMarket.trade
  split
  · rfl
  · exact tradeLoopLog_fst _ m true

theorem tradeLog_of_trade {m m1 : StockMarket α} (h : m.trade = some m1) :
    ∃ log, m.tradeLog = some (m1, log) := by
  have h2 := tradeLog_fst m
  rw [h] at h2
  cases h3 : m.tradeLog with
  | none => simp [h3] at h2
  | some r =>
    rw [h3] at h2
    simp only [Option.map_some', Option.some.injEq] at h2
    exact ⟨r.2, by rw [← h2]⟩

theorem submitLog_fst (m : StockMarket α) (c : StockMarket.Call α) :
    (m.submitLog c).map Prod.fst = StockMarket.run [c] m := by
  cases c with
  | buy price num id =>
    simp only [StockMarket.submitLog, StockMarket.run, StockMarket.buy]
    cases h1 : ({ m with counter := m.counter + 1 } : StockMarket α).buyAux num price id m.counter with
    | none => rfl
    | some m1 =>
      dsimp only
      rw [tradeLog_fst]
      cases m1.trade <;> rfl
  | sell price num id =>
    simp only [StockMarket.submitLog, StockMarket.run, StockMarket.sell]
    cases h1 : ({ m with counter := m.counter + 1 } : StockMarket α).sellAux num price id m.counter with
    | none => rfl
    | some m1 =>
      dsimp only
      rw [tradeLog_fst]
      cases m1.trade <;> rfl

theorem tradeLoopLog_bank : ∀ (fuel : Nat) (m m1 : StockMarket α) (avail : Bool)
    (log : List (Elem α × Elem α)), StockMarket.tradeLoopLog fuel m avail = some (m1, log) →
    m1.bank = m.bank + (log.map tradeGain).sum ∧ m1.counter = m.counter := by
  intro fuel
  induction fuel with
  | zero =>
    intro m m1 avail log h
    cases h
  | succ f ih =>
    intro m m1 avail log h
    simp only [StockMarket.tradeLoopLog] at h
    split at h
    · split at h
      · rename_i b s hb hs
        split at h
        · split at h
          · cases h
          · rename_i m2 hpt
            split at h
            · cases h
            · rename_i m3 log3 hrec
              cases h
              obtain ⟨r1, r2⟩ := ih m2 m1 true log3 hrec
              obtain ⟨_, p2, p3⟩ := processTrade_post hb hs hpt
              refine ⟨?_, r2.trans p3⟩
              rw [r1, p2, List.map_cons, List.sum_cons, add_assoc]
              rfl
        · exact ih m m1 false log h
      · cases h
    · cases h
      simp

theorem head_of_min {t : Heap α} {es : List (Elem α)} {b : Elem α} (h : Heap.Holds t es)
    (hb : Heap.min t = some (some b)) : es.head? = some b := by
  rw [h.min_eq] at hb
  exact Option.some.inj hb

/-- The books after a trade, for the market `processTrade` returned. -/
theorem processTrade_spec_of {m m1 : StockMarket α} {bs ss : List (Elem α)} {b s : Elem α}
    (hB : Heap.Holds m.buyOrders bs) (hS : Heap.Holds m.sellOrders ss)
    (hb : Heap.min m.buyOrders = some (some b)) (hs : Heap.min m.sellOrders = some (some s))
    (h : m.processTrade = some m1) :
    ∃ bs0 ss0 bs1 ss1,
      Heap.Holds m1.buyOrders bs1 ∧ Heap.Holds m1.sellOrders ss1 ∧
      (b :: bs0).Perm bs ∧ (s :: ss0).Perm ss ∧
      (b.value.numShares > s.value.numShares →
        bs1.Perm (⟨b.key, ⟨b.value.numShares - s.value.numShares, b.value.traderID⟩⟩ :: bs0) ∧
        ss1 = ss0) ∧
      (s.value.numShares > b.value.numShares →
        ss1.Perm (⟨s.key, ⟨s.value.numShares - b.value.numShares, s.value.traderID⟩⟩ :: ss0) ∧
        bs1 = bs0) ∧
      (b.value.numShares = s.value.numShares → bs1 = bs0 ∧ ss1 = ss0) ∧
      bs1.length + ss1.length + 1 ≤ bs.length + ss.length := by
  have hbh := head_of_min hB hb
  have hsh := head_of_min hS hs
  obtain ⟨m2, bs0, ss0, bs1, ss1, h1, h2, h3, h4, h5, h6, h7, h8, _⟩ :=
    processTrade_spec hB hS hbh hsh
  rw [h] at h1
  cases h1
  refine ⟨bs0, ss0, bs1, ss1, h2, h3, h4, h5, h6, h7, h8, ?_⟩
  have l4 := h4.length_eq
  have l5 := h5.length_eq
  simp only [List.length_cons] at l4 l5
  rcases lt_trichotomy b.value.numShares s.value.numShares with hc | hc | hc
  · obtain ⟨p1, p2⟩ := h7 hc
    have := p1.length_eq
    simp only [List.length_cons] at this
    subst p2
    omega
  · obtain ⟨p1, p2⟩ := h8 hc
    subst p1 p2
    omega
  · obtain ⟨p1, p2⟩ := h6 hc
    have := p1.length_eq
    simp only [List.length_cons] at this
    subst p2
    omega

/-- Number of trades of the matching loop: at most one less than the number of resting orders. -/
theorem tradeLoopLog_length : ∀ (fuel : Nat) (m m1 : StockMarket α) (bs ss : List (Elem α))
    (avail : Bool) (log : List (Elem α × Elem α)),
    Heap.Holds m.buyOrders bs → Heap.Holds m.sellOrders ss →
    StockMarket.tradeLoopLog fuel m avail = some (m1, log) →
    log.length ≤ bs.length + ss.length - 1 := by
  intro fuel
  induction fuel with
  | zero =>
    intro m m1 bs ss avail log hB hS h
    cases h
  | succ f ih =>
    intro m m1 bs ss avail log hB hS h
    simp only [StockMarket.tradeLoopLog] at h
    split at h
    · split at h
      · rename_i b s hb hs
        split at h
        · split at h
          · cases h
          · rename_i m2 hpt
            split at h
            · cases h
            · rename_i m3 log3 hrec
              cases h
              obtain ⟨bs0, ss0, bs1, ss1, h2, h3, _, _, _, _, _, hlen⟩ :=
                processTrade_spec_of hB hS hb hs hpt
              have := ih m2 m1 bs1 ss1 true log3 h2 h3 hrec
              have hb1 : 1 ≤ bs.length := by
                have := head_of_min hB hb
                cases bs with
                | nil => cases this
                | cons x l => simp
              have hs1 : 1 ≤ ss.length := by
                have := head_of_min hS hs
                cases ss with
                | nil => cases this
                | cons x l => simp
              simp only [List.length_cons]
              omega
        · exact ih m m1 bs ss false log hB hS h
      · cases h
    · cases h
      simp

/-- An invariant `I` of `processTrade` on crossing books is an invariant of the matching
loop, and what each such `processTrade` call satisfies holds for every logged trade. -/
theorem tradeLoopLog_induct (I : StockMarket α → Prop) (T : Elem α × Elem α → Prop)
    (hstep : ∀ (m m1 : StockMarket α) (bs ss : List (Elem α)) (b s : Elem α),
      Heap.Holds m.buyOrders bs → Heap.Holds m.sellOrders ss →
      Heap.min m.buyOrders = some (some b) → Heap.min m.sellOrders = some (some s) →
      s.key.price - -b.key.price ≤ 0 → I m → m.processTrade = some m1 → I m1 ∧ T (b, s)) :
    ∀ (fuel : Nat) (m m1 : StockMarket α) (bs ss : List (Elem α)) (avail : Bool)
      (log : List (Elem α × Elem α)),
      Heap.Holds m.buyOrders bs → Heap.Holds m.sellOrders ss → I m →
      StockMarket.tradeLoopLog fuel m avail = some (m1, log) →
      I m1 ∧ ∀ tr ∈ log, T tr := by
  intro fuel
  induction fuel with
  | zero =>
    intro m m1 bs ss avail log hB hS hI h
    cases h
  | succ f ih =>
    intro m m1 bs ss avail log hB hS hI h
    simp only [StockMarket.tradeLoopLog] at h
    split at h
    · split at h
      · rename_i b s hb hs
        split at h
        · rename_i hx
          split at h
          · cases h
          · rename_i m2 hpt
            split at h
            · cases h
            · rename_i m3 log3 hrec
              cases h
              obtain ⟨bs0, ss0, bs1, ss1, h2, h3, _⟩ := processTrade_spec_of hB hS hb hs hpt
              obtain ⟨hI2, hT⟩ := hstep m m2 bs ss b s hB hS hb hs hx hI hpt
              obtain ⟨r1, r2⟩ := ih m2 m1 bs1 ss1 true log3 h2 h3 hI2 hrec
              refine ⟨r1, ?_⟩
              intro tr htr
              rcases List.mem_cons.mp htr with he | he
              · rw [he]
                exact hT
              · exact r2 tr he
        · exact ih m m1 bs ss false log hB hS hI h
      · cases h
    · cases h
      exact ⟨hI, by simp⟩

theorem Elem.time_le_of_not_lt {x b : Elem α} (h : Elem.lt x b = false)
    (hp : x.key.price = b.key.price) : b.key.timeStamp ≤ x.key.timeStamp := by
  unfold Elem.lt Key.lt at h
  simp only [Bool.or_eq_false_iff, decide_eq_false_iff_not, not_lt, Bool.and_eq_false_imp,
    decide_eq_true_eq, beq_iff_eq] at h
  exact h.2 hp

/-- Non-empty reachable books have a first order each, and `processTrade` returns on them. -/
theorem processTrade_of_reachable (m : StockMarket α) (hb : Heap.Reachable m.buyOrders)
    (hs : Heap.Reachable m.sellOrders) (hbn : m.buyOrders.toBT.empty = false)
    (hsn : m.sellOrders.toBT.empty = false) :
    ∃ bs ss b s m1, Heap.Holds m.buyOrders bs ∧ Heap.Holds m.sellOrders ss ∧
      bs.head? = some b ∧ ss.head? = some s ∧
      Heap.min m.buyOrders = some (some b) ∧ Heap.min m.sellOrders = some (some s) ∧
      m.processTrade = some m1 := by
  obtain ⟨bs, hB⟩ := Heap.Holds.of_reachable hb
  obtain ⟨ss, hS⟩ := Heap.Holds.of_reachable hs
  cases hbs : bs with
  | nil =>
    rw [hB.empty_iff.mpr hbs] at hbn
    cases hbn
  | cons b bt =>
    cases hss : ss with
    | nil =>
      rw [hS.empty_iff.mpr hss] at hsn
      cases hsn
    | cons s st =>
      have hbh : bs.head? = some b := by rw [hbs]; rfl
      have hsh : ss.head? = some s := by rw [hss]; rfl
      obtain ⟨m1, _, _, _, _, h1, _⟩ := processTrade_spec hB hS hbh hsh
      rw [hbs] at hB hbh
      rw [hss] at hS hsh
      exact ⟨b :: bt, s :: st, b, s, m1, hB, hS, hbh, hsh, by rw [hB.min_eq, hbh],
        by rw [hS.min_eq, hsh], h1⟩

/-- C11. Price-time priority, for prices that are exact numbers (a linearly ordered commutative ring: no NaN, no infinity):
when both books are non-empty heaps reachable from the empty heap, `processTrade` returns and the trade it posts to the ledger is between the order `b` that
`min()` gives for the buy book and the order `s` it gives for the sell book; `b` has the highest
price of all resting buy orders and the earliest time stamp among those at that price, and `s`
has the lowest price of all resting sell orders and the earliest time stamp among those at that
price. -/
theorem price_time_priority (m : StockMarket α) (hb : Heap.Reachable m.buyOrders)
    (hs : Heap.Reachable m.sellOrders) (hbn : m.buyOrders.toBT.empty = false)
    (hsn : m.sellOrders.toBT.empty = false) :
    ∃ bs ss b s m1, CompleteBT.Stores m.buyOrders bs ∧ CompleteBT.Stores m.sellOrders ss ∧
      Heap.min m.buyOrders = some (some b) ∧ Heap.min m.sellOrders = some (some s) ∧
      b ∈ bs ∧ s ∈ ss ∧ m.processTrade = some m1 ∧
      m1.books = (m.books.buy (filled b (min b.value.numShares s.value.numShares))).sell
        (filled s (min b.value.numShares s.value.numShares)) ∧
      (∀ x ∈ bs, -x.key.price ≤ -b.key.price ∧
        (-x.key.price = -b.key.price → b.key.timeStamp ≤ x.key.timeStamp)) ∧
      (∀ y ∈ ss, s.key.price ≤ y.key.price ∧
        (y.key.price = s.key.price → s.key.timeStamp ≤ y.key.timeStamp)) := by
  obtain ⟨bs, ss, b, s, m1, hB, hS, hbh, hsh, hbm, hsm, h1⟩ :=
    processTrade_of_reachable m hb hs hbn hsn
  obtain ⟨p1, _, _⟩ := processTrade_post hbm hsm h1
  refine ⟨bs, ss, b, s, m1, hB.1, hS.1, hbm, hsm, List.mem_of_mem_head? hbh,
    List.mem_of_mem_head? hsh, h1, p1, ?_, ?_⟩
  · intro x hx
    have hle := hB.head_le hbh hx
    refine ⟨neg_le_neg (Elem.price_le_of_not_lt hle), ?_⟩
    intro hp
    exact Elem.time_le_of_not_lt hle (neg_injective hp)
  · intro y hy
    have hle := hS.head_le hsh hy
    exact ⟨Elem.price_le_of_not_lt hle, fun hp => Elem.time_le_of_not_lt hle hp⟩

/-- C12. The matching loop terminates: on books that are heaps reachable from the empty heap,
`trade` returns, and the number of trades it executes is at most the number of orders resting
in the two books when it is entered, minus one; each `processTrade` call on non-empty books
leaves at least one order less in the two books together. -/
theorem trade_terminates (m : StockMarket α) (hb : Heap.Reachable m.buyOrders)
    (hs : Heap.Reachable m.sellOrders) :
    ∃ m1 log, m.trade = some m1 ∧ m.tradeLog = some (m1, log) ∧
      log.length ≤ m.buyOrders.n.toNat + m.sellOrders.n.toNat - 1 ∧
      (m.buyOrders.toBT.empty = false → m.sellOrders.toBT.empty = false →
        ∃ m2, m.processTrade = some m2 ∧
          m2.buyOrders.n + m2.sellOrders.n + 1 ≤ m.buyOrders.n + m.sellOrders.n) := by
  obtain ⟨bs, hB⟩ := Heap.Holds.of_reachable hb
  obtain ⟨ss, hS⟩ := Heap.Holds.of_reachable hs
  obtain ⟨m1, _, _, h1, _⟩ := trade_spec hB hS
  obtain ⟨log, hlog⟩ := tradeLog_of_trade h1
  refine ⟨m1, log, h1, hlog, ?_, ?_⟩
  · rw [hB.size_eq, hS.size_eq]
    simp only [Int.toNat_ofNat]
    unfold StockMarket.tradeLog at hlog
    split at hlog
    · cases hlog
      simp
    · exact tradeLoopLog_length _ m m1 bs ss true log hB hS hlog
  · intro hbn hsn
    obtain ⟨bs2, ss2, b, s, m2, hB2, hS2, _, _, hbm, hsm, h2⟩ :=
      processTrade_of_reachable m hb hs hbn hsn
    obtain ⟨_, _, bs1, ss1, g1, g2, _, _, _, _, _, hlen⟩ := processTrade_spec_of hB2 hS2 hbm hsm h2
    refine ⟨m2, h2, ?_⟩
    rw [g1.size_eq, g2.size_eq, hB2.size_eq, hS2.size_eq]
    exact_mod_cast hlen

/-- C14. Ledger effect of a trade on the buyer, for prices that are exact numbers (a linearly ordered commutative ring: no NaN, no infinity)
and `int` holdings that do not overflow: when both books are non-empty heaps reachable from the
empty heap and the trader of the best buy order `b` differs from the trader of the best
sell order `s`, `processTrade` leaves the buyer's record with holdings increased by
`Q = min(buyQty, sellQty)`, balance reduced by `Q` times the buy price (the negated key price of
`b`), one entry of quantity `Q` appended to the buy history, and the sell history unchanged. -/
theorem trade_buyer_ledger (m : StockMarket α) (hb : Heap.Reachable m.buyOrders)
    (hs : Heap.Reachable m.sellOrders) (hbn : m.buyOrders.toBT.empty = false)
    (hsn : m.sellOrders.toBT.empty = false) :
    ∃ b s m1, Heap.min m.buyOrders = some (some b) ∧ Heap.min m.sellOrders = some (some s) ∧
      m.processTrade = some m1 ∧
      (b.value.traderID ≠ s.value.traderID →
        m1.books.recordOf b.value.traderID =
          { id := (m.books.recordOf b.value.traderID).id,
            balance := (m.books.recordOf b.value.traderID).balance -
              ((min b.value.numShares s.value.numShares : Int) : α) * -b.key.price,
            holdings := (m.books.recordOf b.value.traderID).holdings +
              min b.value.numShares s.value.numShares,
            buyTrans := (m.books.recordOf b.value.traderID).buyTrans ++
              [filled b (min b.value.numShares s.value.numShares)],
            sellTrans := (m.books.recordOf b.value.traderID).sellTrans } ∧
        (filled b (min b.value.numShares s.value.numShares)).value.numShares =
          min b.value.numShares s.value.numShares) := by
  obtain ⟨bs, ss, b, s, m1, hB, hS, hbh, hsh, hbm, hsm, h1⟩ :=
    processTrade_of_reachable m hb hs hbn hsn
  obtain ⟨p1, _, _⟩ := processTrade_post hbm hsm h1
  refine ⟨b, s, m1, hbm, hsm, h1, ?_⟩
  intro hne
  refine ⟨?_, rfl⟩
  apply recordOf_of_lookup
  rw [p1]
  unfold Ledger.sell Ledger.buy
  have hne2 : b.value.traderID ≠
      (filled s (min b.value.numShares s.value.numShares)).value.traderID := hne
  rw [ledger_trans_other _ _ _ _ hne2]
  have h3 := ledger_trans_lookup m.books (filled b (min b.value.numShares s.value.numShares)) true
  have hid : (filled b (min b.value.numShares s.value.numShares)).value.traderID =
      b.value.traderID := rfl
  rw [hid] at h3
  rw [h3]
  simp only [filled, if_true, Option.some.injEq, Record.mk.injEq, and_true, true_and]
  ring

/-- C15. On the code the claim fails: `Ledger::sell` of the order `sampleSell` (4 shares at 100,
trader 2) on the empty ledger leaves trader 2 with holdings `+4`, not `-4`; the balance is
increased by `4 * 100`. In general `sell` adds the quantity to the holdings. -/
theorem ledger_sell_adds_holdings :
    ((Ledger.init : Ledger Int).sell sampleSell).recordOf 2 =
      { id := 2, balance := 400, holdings := 4, buyTrans := [], sellTrans := [sampleSell] } ∧
    ∀ (L : Ledger α) (e : Elem α),
      ((L.sell e).recordOf e.value.traderID).holdings =
        (L.recordOf e.value.traderID).holdings + e.value.numShares ∧
      ((L.sell e).recordOf e.value.traderID).balance =
        (L.recordOf e.value.traderID).balance + (e.value.numShares : α) * e.key.price := by
  refine ⟨by decide, ?_⟩
  intro L e
  have h := ledger_trans_lookup L e false
  unfold Ledger.sell
  rw [recordOf_of_lookup h]
  exact ⟨rfl, rfl⟩

/-- C16. Ledger posting, for prices that are exact numbers (a linearly ordered commutative ring: no NaN, no infinity)
and `int` holdings that do not overflow: for every ledger, order `e` and flag, `Ledger::trans` leaves a record
for the trader of `e` whose holdings are the old holdings plus the quantity and whose balance is
the old balance plus quantity times key price (a trader without a record counting as the zero
record with empty histories); `e` is appended to the buy history when the flag is set and to the
sell history otherwise, the other history is unchanged, and the records of all other traders are
unchanged. -/
theorem ledger_trans_effect (L : Ledger α) (e : Elem α) (isBuyTrans : Bool) :
    (L.trans e isBuyTrans).book.lookup e.value.traderID = some
      { id := (L.recordOf e.value.traderID).id,
        balance := (L.recordOf e.value.traderID).balance + (e.value.numShares : α) * e.key.price,
        holdings := (L.recordOf e.value.traderID).holdings + e.value.numShares,
        buyTrans := if isBuyTrans then (L.recordOf e.value.traderID).buyTrans ++ [e]
          else (L.recordOf e.value.traderID).buyTrans,
        sellTrans := if isBuyTrans then (L.recordOf e.value.traderID).sellTrans
          else (L.recordOf e.value.traderID).sellTrans ++ [e] } ∧
    (∀ j, j ≠ e.value.traderID → (L.trans e isBuyTrans).book.lookup j = L.book.lookup j) ∧
    (∀ j, j ≠ e.value.traderID → (L.trans e isBuyTrans).recordOf j = L.recordOf j) := by
  refine ⟨ledger_trans_lookup L e isBuyTrans, fun j hj => ledger_trans_other L e isBuyTrans j hj, ?_⟩
  intro j hj
  unfold Ledger.recordOf
  rw [ledger_trans_other L e isBuyTrans j hj]

/-! ## Site computations on any complete tree -/

/-- A complete tree whose `lastNode` is its last position has a representation: the elements
are read off the nodes in level order. -/
theorem rep_of_shape {t : CompleteBT α} {as : List Nat} (hs : BT.Shape t.toBT as)
    (hl : t.lastNode = atPos as as.length) : ∃ es, CompleteBT.Rep t as es := by
  refine ⟨as.map (fun a =>
    match t.mem[a]? with
    | some nd => nd.elem
    | none => ⟨⟨0, 0⟩, ⟨0, 0⟩⟩), ?_⟩
  refine ⟨by simp, hs.nodup, hs.size, hs.root, hl, ?_⟩
  intro p h1 h2
  obtain ⟨nd, hnd, hL, hR, hP⟩ := hs.links p h1 h2
  obtain ⟨a, ha⟩ := atPos_isSome as p h1 h2
  rw [ha] at hnd
  have hnd2 : t.mem[a]? = some nd := hnd
  rw [atPos_of_pos h1] at ha
  refine ⟨a, nd.elem, ha, ?_, ?_⟩
  · rw [List.getElem?_map, ha]
    simp [hnd2]
  · rw [hnd2, ← hL, ← hR, ← hP]

theorem firstRightAncestor_final {t : CompleteBT α} {as : List Nat} {es : List (Elem α)}
    (h : CompleteBT.Rep t as es) {ln pn : Node α} {lld : Ptr}
    (hln : Mem.read t.mem t.lastNode = some ln) (hpn : Mem.read t.mem ln.parent = some pn)
    (hlld : t.toBT.lastLeftDescendant t.root = some lld) (h1 : t.lastNode ≠ lld)
    (h2 : t.lastNode ≠ pn.right) :
    ∃ wa wn, t.toBT.firstRightAncestor t.lastNode = some (some wa) ∧ t.mem[wa]? = some wn := by
  have hne : 1 ≤ as.length := by
    by_contra hc
    have h0 : as.length = 0 := by omega
    rw [h.last, h0, atPos_zero] at hln
    cases hln
  obtain ⟨la, hla⟩ := atPos_isSome as as.length hne (le_refl _)
  obtain ⟨e, _, hm⟩ := h.read hla
  have hpow := h.length_lt_pow
  rw [h.last, hla] at hln h1 h2
  have hln2 : t.mem[la]? = some ln := hln
  rw [hm] at hln2
  have hlnp : ln.parent = atPos as (as.length / 2) := by
    rw [← Option.some.inj hln2]
  rw [hlnp] at hpn
  have hn2 : 2 ≤ as.length := by
    by_contra hc
    have hl1 : as.length = 1 := by omega
    rw [hl1, atPos_zero] at hpn
    cases hpn
  obtain ⟨pa, hpa⟩ := atPos_isSome as (as.length / 2) (by omega) (by omega)
  obtain ⟨pe, _, hpm⟩ := h.read hpa
  rw [hpa] at hpn
  have hpn2 : t.mem[pa]? = some pn := hpn
  rw [hpm] at hpn2
  have hpnr : pn.right = atPos as (2 * (as.length / 2) + 1) := by
    rw [← Option.some.inj hpn2]
  have heven : as.length % 2 = 0 := by
    by_contra hc
    apply h2
    rw [hpnr, show 2 * (as.length / 2) + 1 = as.length by omega, hla]
  obtain ⟨ra, hra⟩ := atPos_isSome as 1 (le_refl _) hne
  have hf : as.length < 1 * 2 ^ (t.mem.length + 1) := by omega
  obtain ⟨j, hj1, hj2, hj3⟩ := descendantLoop_left h (t.mem.length + 1) 1 ra hf hra
  simp only [BT.lastLeftDescendant, BT.youngestDescendantType, h.root, hra, hj3] at hlld
  have hpw : ¬ as.length = 1 * 2 ^ j := by
    intro hc
    apply h1
    rw [← Option.some.inj hlld, ← hc, hla]
  obtain ⟨q, k, hq1, hq2, hq4⟩ := ancestorLoop_right h (t.mem.length + 1) as.length la hpow hla
  have hq3 : 3 ≤ q := by
    by_contra hq
    have hq1' : q = 1 := by omega
    subst hq1'
    have hjk : j = k := by
      have a1 : j ≤ k := by
        by_contra hcc
        have := mul_pow_double 1 (Nat.lt_of_not_le hcc)
        omega
      have a2 : k ≤ j := by
        by_contra hcc
        have := mul_pow_mono 1 (show j + 1 ≤ k by omega)
        omega
      omega
    subst hjk
    exact hpw hq1
  have hql : q ≤ as.length := by
    have hpos : 1 ≤ 2 ^ k := Nat.two_pow_pos _
    calc q = q * 1 := (Nat.mul_one q).symm
      _ ≤ q * 2 ^ k := Nat.mul_le_mul_left q hpos
      _ = as.length := hq1.symm
  obtain ⟨wa, hwa⟩ := atPos_isSome as (q / 2) (by omega) (by omega)
  obtain ⟨we, _, hwm⟩ := h.read hwa
  refine ⟨wa, _, ?_, hwm⟩
  simp only [BT.firstRightAncestor, BT.youngestAncestorType, h.last, hla, hm, hq4, hwa]

/-- What `add` leaves at the parent of the new node and in the new node. -/
theorem add_links {t : CompleteBT α} {as : List Nat} {es : List (Elem α)}
    (h : CompleteBT.Rep t as es) (hn : 1 ≤ as.length) (e : Elem α) :
    ∃ pa t1 pn nn, atPos as ((as.length + 1) / 2) = some pa ∧
      CompleteBT.add t e = some (t1, some t.mem.length) ∧
      t1.mem[pa]? = some pn ∧ t1.mem[t.mem.length]? = some nn ∧
      nn.elem = e ∧ nn.parent = some pa ∧ nn.left = none ∧ nn.right = none ∧
      ((as.length + 1) % 2 = 0 → pn.left = some t.mem.length ∧ pn.right = none) ∧
      ((as.length + 1) % 2 = 1 → pn.right = some t.mem.length ∧ pn.left = t.lastNode) := by
  obtain ⟨t1, h1, hrep, _⟩ := add_spec h e
  obtain ⟨pa, hpa⟩ := atPos_isSome as ((as.length + 1) / 2) (by omega) (by omega)
  have hpa1 : atPos (as ++ [t.mem.length]) ((as.length + 1) / 2) = some pa := by
    rw [atPos_append, if_neg (by omega)]
    exact hpa
  have hnew : atPos (as ++ [t.mem.length]) (as.length + 1) = some t.mem.length := by
    rw [atPos_append, if_pos rfl]
  obtain ⟨pe, _, hpm⟩ := hrep.read hpa1
  obtain ⟨ne, hne1, hnm⟩ := hrep.read hnew
  have hne2 : ne = e := by
    simp only [Nat.add_sub_cancel] at hne1
    rw [List.getElem?_append_right (by rw [h.len]), h.len] at hne1
    simpa using hne1.symm
  refine ⟨pa, t1, _, _, hpa, h1, hpm, hnm, hne2, ?_, ?_, ?_, ?_, ?_⟩
  · show atPos (as ++ [t.mem.length]) ((as.length + 1) / 2) = some pa
    exact hpa1
  · show atPos (as ++ [t.mem.length]) (2 * (as.length + 1)) = none
    exact atPos_eq_none (by simp)
  · show atPos (as ++ [t.mem.length]) (2 * (as.length + 1) + 1) = none
    exact atPos_eq_none (by simp; omega)
  · intro hev
    constructor
    · show atPos (as ++ [t.mem.length]) (2 * ((as.length + 1) / 2)) = some t.mem.length
      rw [show 2 * ((as.length + 1) / 2) = as.length + 1 by omega]
      exact hnew
    · show atPos (as ++ [t.mem.length]) (2 * ((as.length + 1) / 2) + 1) = none
      exact atPos_eq_none (by simp; omega)
  · intro hodd
    constructor
    · show atPos (as ++ [t.mem.length]) (2 * ((as.length + 1) / 2) + 1) = some t.mem.length
      rw [show 2 * ((as.length + 1) / 2) + 1 = as.length + 1 by omega]
      exact hnew
    · show atPos (as ++ [t.mem.length]) (2 * ((as.length + 1) / 2)) = t.lastNode
      rw [show 2 * ((as.length + 1) / 2) = as.length by omega, atPos_append, if_neg (by omega),
        h.last]

/-- C18. Insertion site: in a complete tree with `n ≥ 1` nodes whose `lastNode` is the node at
level-order position `n`, `getParentOfNewLastNode` returns the node at position `(n + 1) / 2`,
and `add` makes the new node (a leaf holding the element, its parent link set to that node) the
left child of that node when `n + 1` is even and its right child when `n + 1` is odd. -/
theorem insertion_site (t : CompleteBT α) (as : List Nat) (e : Elem α)
    (hs : BT.Shape t.toBT as) (hl : t.lastNode = atPos as as.length) (hn : 1 ≤ as.length) :
    t.getParentOfNewLastNode = some (atPos as ((as.length + 1) / 2)) ∧
    ∃ pa t1 pn nn, atPos as ((as.length + 1) / 2) = some pa ∧
      CompleteBT.add t e = some (t1, some t.mem.length) ∧
      t1.mem[pa]? = some pn ∧ t1.mem[t.mem.length]? = some nn ∧
      nn.elem = e ∧ nn.parent = some pa ∧ nn.left = none ∧ nn.right = none ∧
      ((as.length + 1) % 2 = 0 → pn.left = some t.mem.length ∧ pn.right = none) ∧
      ((as.length + 1) % 2 = 1 → pn.right = some t.mem.length ∧ pn.left = t.lastNode) := by
  obtain ⟨es, h⟩ := rep_of_shape hs hl
  exact ⟨getParentOfNewLastNode_spec h hn, add_links h hn e⟩

/-- C19. New last node: in a complete tree with `n ≥ 1` nodes whose `lastNode` is the node at
level-order position `n`, `getNewLastNode` returns absent when `n = 1` and otherwise the node at
position `n - 1`; and whenever the tests of the first three branches fail, the ancestor that
`firstRightAncestor(lastNode)` returns is a node of the store, so the final branch dereferences
no absent node. -/
theorem new_last_node (t : CompleteBT α) (as : List Nat)
    (hs : BT.Shape t.toBT as) (hl : t.lastNode = atPos as as.length) (hn : 1 ≤ as.length) :
    t.getNewLastNode = some (atPos as (as.length - 1)) ∧
    (as.length = 1 → t.getNewLastNode = some none) ∧
    (2 ≤ as.length → ∃ a, atPos as (as.length - 1) = some a) ∧
    (∀ (ln pn : Node α) (lld : Ptr), Mem.read t.mem t.lastNode = some ln →
      Mem.read t.mem ln.parent = some pn → t.toBT.lastLeftDescendant t.root = some lld →
      t.lastNode ≠ lld → t.lastNode ≠ pn.right →
      ∃ wa wn, t.toBT.firstRightAncestor t.lastNode = some (some wa) ∧ t.mem[wa]? = some wn) := by
  obtain ⟨es, h⟩ := rep_of_shape hs hl
  refine ⟨getNewLastNode_spec h hn, ?_, ?_, ?_⟩
  · intro h1
    rw [getNewLastNode_spec h hn, h1]
    rfl
  · intro h2
    exact atPos_isSome as (as.length - 1) (by omega) (by omega)
  · intro ln pn lld hln hpn hlld h1 h2
    exact firstRightAncestor_final h hln hpn hlld h1 h2

/-! ## The choice of the child in the down-heap bubbling -/

theorem minChild_none (t : BT α) : t.minChild none = some none := rfl

theorem minChild_cases (t : BT α) {wa : Nat} {wn : Node α} (hw : t.mem[wa]? = some wn) :
    (wn.right = none → t.minChild (some wa) = some wn.left) ∧
    (wn.left = none → t.minChild (some wa) = some wn.right) ∧
    ∀ (la ra : Nat) (ln rn : Node α), wn.left = some la → wn.right = some ra →
      t.mem[la]? = some ln → t.mem[ra]? = some rn →
      t.minChild (some wa) = some (if Elem.lt ln.elem rn.elem = true then some la else some ra) := by
  refine ⟨?_, ?_, ?_⟩
  · intro hr
    simp [BT.minChild, Mem.read, hw, hr]
  · intro hl
    simp only [BT.minChild, Mem.read, hw, hl]
    cases hr : wn.right <;> simp
  · intro la ra ln rn hl hr hln hrn
    simp only [BT.minChild, Mem.read, hw, hl, hr, hln, hrn]
    simp

/-- C20. Min-child selection: `minChild` returns absent for an absent node and for
a leaf, the only child when exactly one is present, and, when both are present, the left child
exactly when its element compares `<` the right one and the right child otherwise; so on equal
keys the right child is returned, and the returned child is never greater than the other. -/
theorem minChild_choice (t : BT α) (wa : Nat) (wn : Node α) (hw : t.mem[wa]? = some wn) :
    t.minChild none = some none ∧
    (wn.left = none → wn.right = none → t.minChild (some wa) = some none) ∧
    (wn.right = none → t.minChild (some wa) = some wn.left) ∧
    (wn.left = none → t.minChild (some wa) = some wn.right) ∧
    ∀ (la ra : Nat) (ln rn : Node α), wn.left = some la → wn.right = some ra →
      t.mem[la]? = some ln → t.mem[ra]? = some rn →
      (Elem.lt ln.elem rn.elem = true →
        t.minChild (some wa) = some (some la) ∧ Elem.lt rn.elem ln.elem = false) ∧
      (Elem.lt ln.elem rn.elem = false → t.minChild (some wa) = some (some ra)) ∧
      (Elem.lt ln.elem rn.elem = false → Elem.lt rn.elem ln.elem = false →
        t.minChild (some wa) = some (some ra)) := by
  obtain ⟨h1, h2, h3⟩ := minChild_cases t hw
  refine ⟨rfl, ?_, h1, h2, ?_⟩
  · intro hl hr
    rw [h1 hr, hl]
  · intro la ra ln rn hl hr hln hrn
    have h := h3 la ra ln rn hl hr hln hrn
    refine ⟨?_, ?_, ?_⟩
    · intro hlt
      refine ⟨?_, Elem.not_lt_of_lt hlt⟩
      rw [h, if_pos hlt]
    · intro hlt
      rw [h, if_neg (by simp [hlt])]
    · intro hlt _
      rw [h, if_neg (by simp [hlt])]

/-! ## Positive quantities and the bank -/

theorem StockMarket.Positive.of_lists {m : StockMarket α} {bs ss : List (Elem α)}
    (hB : Heap.Holds m.buyOrders bs) (hS : Heap.Holds m.sellOrders ss)
    (hb : ∀ e ∈ bs, 0 < e.value.numShares) (hs : ∀ e ∈ ss, 0 < e.value.numShares) :
    m.Positive := by
  intro es hes e he
  rcases hes with h | h
  · rw [h.elems_unique hB.1] at he
    exact hb e he
  · rw [h.elems_unique hS.1] at he
    exact hs e he

theorem StockMarket.Positive.buy_pos {m : StockMarket α} {bs : List (Elem α)} (h : m.Positive)
    (hB : Heap.Holds m.buyOrders bs) : ∀ e ∈ bs, 0 < e.value.numShares :=
  h bs (Or.inl hB.1)

theorem StockMarket.Positive.sell_pos {m : StockMarket α} {ss : List (Elem α)} (h : m.Positive)
    (hS : Heap.Holds m.sellOrders ss) : ∀ e ∈ ss, 0 < e.value.numShares :=
  h ss (Or.inr hS.1)

theorem tradeGain_nonneg {b s : Elem α} (hx : s.key.price - -b.key.price ≤ 0)
    (hb : 0 < b.value.numShares) (hs : 0 < s.value.numShares) : 0 ≤ tradeGain (b, s) := by
  unfold tradeGain
  apply mul_nonneg
  · simp only [sub_neg_eq_add] at hx
    linarith
  · have : 0 ≤ min b.value.numShares s.value.numShares := le_min hb.le hs.le
    exact_mod_cast this

theorem processTrade_positive (m m1 : StockMarket α) (bs ss : List (Elem α)) (b s : Elem α)
    (hB : Heap.Holds m.buyOrders bs) (hS : Heap.Holds m.sellOrders ss)
    (hb : Heap.min m.buyOrders = some (some b)) (hs : Heap.min m.sellOrders = some (some s))
    (hx : s.key.price - -b.key.price ≤ 0) (hI : m.Positive) (h : m.processTrade = some m1) :
    m1.Positive ∧ GoodTrade (b, s) := by
  have hbm : b ∈ bs := List.mem_of_mem_head? (head_of_min hB hb)
  have hsm : s ∈ ss := List.mem_of_mem_head? (head_of_min hS hs)
  have hbp := hI.buy_pos hB b hbm
  have hsp := hI.sell_pos hS s hsm
  obtain ⟨bs0, ss0, bs1, ss1, h2, h3, h4, h5, h6, h7, h8, _⟩ := processTrade_spec_of hB hS hb hs h
  have hb0 : ∀ e ∈ bs0, 0 < e.value.numShares := fun e he =>
    hI.buy_pos hB e (h4.subset (List.mem_cons_of_mem _ he))
  have hs0 : ∀ e ∈ ss0, 0 < e.value.numShares := fun e he =>
    hI.sell_pos hS e (h5.subset (List.mem_cons_of_mem _ he))
  refine ⟨?_, ?_, hbp, hsp, tradeGain_nonneg hx hbp hsp⟩
  · rcases lt_trichotomy b.value.numShares s.value.numShares with hc | hc | hc
    · obtain ⟨p1, p2⟩ := h7 hc
      subst p2
      refine StockMarket.Positive.of_lists h2 h3 hb0 ?_
      intro e he
      rcases List.mem_cons.mp (p1.subset he) with h0 | h0
      · rw [h0]
        show 0 < s.value.numShares - b.value.numShares
        omega
      · exact hs0 e h0
    · obtain ⟨p1, p2⟩ := h8 hc
      subst p1 p2
      exact StockMarket.Positive.of_lists h2 h3 hb0 hs0
    · obtain ⟨p1, p2⟩ := h6 hc
      subst p2
      refine StockMarket.Positive.of_lists h2 h3 ?_ hs0
      intro e he
      rcases List.mem_cons.mp (p1.subset he) with h0 | h0
      · rw [h0]
        show 0 < b.value.numShares - s.value.numShares
        omega
      · exact hb0 e h0
  · show s.key.price ≤ -b.key.price
    simp only [sub_neg_eq_add] at hx
    linarith

/-- What `transAux` does to the books: the order is added to its own book, and nothing else
of the market changes. -/
theorem transAux_perm (m : StockMarket α) {bs ss : List (Elem α)}
    (hB : Heap.Holds m.buyOrders bs) (hS : Heap.Holds m.sellOrders ss)
    (num : Int) (price : α) (id t : Int) (buyTrans : Bool) :
    ∃ m1 bs1 ss1, m.transAux num price id t buyTrans = some m1 ∧
      Heap.Holds m1.buyOrders bs1 ∧ Heap.Holds m1.sellOrders ss1 ∧
      (buyTrans = true → bs1.Perm (⟨⟨-price, t⟩, ⟨num, id⟩⟩ :: bs) ∧ ss1 = ss ∧
        m1.sellOrders = m.sellOrders) ∧
      (buyTrans = false → ss1.Perm (⟨⟨price, t⟩, ⟨num, id⟩⟩ :: ss) ∧ bs1 = bs ∧
        m1.buyOrders = m.buyOrders) ∧
      m1.books = m.books ∧ m1.bank = m.bank ∧ m1.counter = m.counter := by
  cases buyTrans with
  | true =>
    obtain ⟨h1, bs1, e1, e2, e3⟩ := hB.insert_holds ⟨⟨price * -1, t⟩, ⟨num, id⟩⟩
    refine ⟨{ m with buyOrders := h1 }, bs1, ss, ?_, e2, hS, ?_, ?_, rfl, rfl, rfl⟩
    · simp only [StockMarket.transAux, if_true, e1]
    · intro _
      rw [mul_neg_one] at e3
      exact ⟨e3, rfl, rfl⟩
    · intro hc
      cases hc
  | false =>
    obtain ⟨h1, ss1, e1, e2, e3⟩ := hS.insert_holds ⟨⟨price * 1, t⟩, ⟨num, id⟩⟩
    refine ⟨{ m with sellOrders := h1 }, bs, ss1, ?_, hB, e2, ?_, ?_, rfl, rfl, rfl⟩
    · simp only [StockMarket.transAux, Bool.false_eq_true, if_false, e1]
    · intro hc
      cases hc
    · intro _
      rw [mul_one] at e3
      exact ⟨e3, rfl, rfl⟩

/-- The matching loop on books of positive quantities. -/
theorem tradeLog_spec {m : StockMarket α} {bs ss : List (Elem α)}
    (hB : Heap.Holds m.buyOrders bs) (hS : Heap.Holds m.sellOrders ss) (hI : m.Positive) :
    ∃ m1 log bs1 ss1, m.tradeLog = some (m1, log) ∧ m.trade = some m1 ∧
      Heap.Holds m1.buyOrders bs1 ∧ Heap.Holds m1.sellOrders ss1 ∧ Uncrossed bs1 ss1 ∧
      m1.Positive ∧ m1.bank = m.bank + (log.map tradeGain).sum ∧ m1.counter = m.counter ∧
      ∀ tr ∈ log, GoodTrade tr := by
  obtain ⟨m1, bs1, ss1, h1, h2, h3, h4, h5⟩ := trade_spec hB hS
  obtain ⟨log, hlog⟩ := tradeLog_of_trade h1
  refine ⟨m1, log, bs1, ss1, hlog, h1, h2, h3, h4, ?_⟩
  unfold StockMarket.tradeLog at hlog
  split at hlog
  · cases hlog
    refine ⟨hI, by simp, rfl, by simp⟩
  · obtain ⟨r1, r2⟩ := tradeLoopLog_induct StockMarket.Positive GoodTrade processTrade_positive
      _ m m1 bs ss true log hB hS hI hlog
    obtain ⟨r3, r4⟩ := tradeLoopLog_bank _ m m1 true log hlog
    exact ⟨r1, r3, r4, r2⟩

/-- One submission of a positive quantity. -/
theorem submitLog_spec {m : StockMarket α} {bs ss : List (Elem α)}
    (hB : Heap.Holds m.buyOrders bs) (hS : Heap.Holds m.sellOrders ss) (hI : m.Positive)
    (c : StockMarket.Call α) (hc : 0 < c.num) :
    ∃ m1 log bs1 ss1, m.submitLog c = some (m1, log) ∧ StockMarket.run [c] m = some m1 ∧
      Heap.Holds m1.buyOrders bs1 ∧ Heap.Holds m1.sellOrders ss1 ∧ Uncrossed bs1 ss1 ∧
      m1.Positive ∧ m1.bank = m.bank + (log.map tradeGain).sum ∧
      ∀ tr ∈ log, GoodTrade tr := by
  cases c with
  | buy price num id =>
    obtain ⟨m1, bs1, ss1, h1, h2, h3, h4, _, h6, h7, _⟩ :=
      transAux_perm { m with counter := m.counter + 1 } hB hS num price id m.counter true
    obtain ⟨p1, p2, _⟩ := h4 rfl
    subst p2
    have hI1 : m1.Positive := by
      refine StockMarket.Positive.of_lists h2 h3 ?_ (hI.sell_pos hS)
      intro e he
      rcases List.mem_cons.mp (p1.subset he) with h0 | h0
      · rw [h0]
        exact hc
      · exact hI.buy_pos hB e h0
    obtain ⟨m2, log, bs2, ss2, r1, r2, r3, r4, r5, r6, r7, _, r9⟩ := tradeLog_spec h2 h3 hI1
    refine ⟨m2, log, bs2, ss2, ?_, ?_, r3, r4, r5, r6, ?_, r9⟩
    · simp only [StockMarket.submitLog, StockMarket.buyAux, h1, r1]
    · simp only [StockMarket.run, StockMarket.buy, StockMarket.buyAux, h1, r2]
    · rw [r7, h7]
  | sell price num id =>
    obtain ⟨m1, bs1, ss1, h1, h2, h3, _, h5, h6, h7, _⟩ :=
      transAux_perm { m with counter := m.counter + 1 } hB hS num price id m.counter false
    obtain ⟨p1, p2, _⟩ := h5 rfl
    subst p2
    have hI1 : m1.Positive := by
      refine StockMarket.Positive.of_lists h2 h3 (hI.buy_pos hB) ?_
      intro e he
      rcases List.mem_cons.mp (p1.subset he) with h0 | h0
      · rw [h0]
        exact hc
      · exact hI.sell_pos hS e h0
    obtain ⟨m2, log, bs2, ss2, r1, r2, r3, r4, r5, r6, r7, _, r9⟩ := tradeLog_spec h2 h3 hI1
    refine ⟨m2, log, bs2, ss2, ?_, ?_, r3, r4, r5, r6, ?_, r9⟩
    · simp only [StockMarket.submitLog, StockMarket.sellAux, h1, r1]
    · simp only [StockMarket.run, StockMarket.sell, StockMarket.sellAux, h1, r2]
    · rw [r7, h7]

theorem sum_tradeGain_nonneg {log : List (Elem α × Elem α)} (h : ∀ tr ∈ log, GoodTrade tr) :
    0 ≤ (log.map tradeGain).sum := by
  apply List.sum_nonneg
  intro x hx
  obtain ⟨tr, htr, rfl⟩ := List.mem_map.mp hx
  exact (h tr htr).2.2.2

/-- Runs of submissions of positive quantities. -/
theorem runLog_spec : ∀ (cs : List (StockMarket.Call α)) (m : StockMarket α)
    (bs ss : List (Elem α)), Heap.Holds m.buyOrders bs → Heap.Holds m.sellOrders ss →
    Uncrossed bs ss → m.Positive → (∀ c ∈ cs, 0 < c.num) →
    ∃ m1 log bs1 ss1, StockMarket.runLog cs m = some (m1, log) ∧
      StockMarket.run cs m = some m1 ∧
      Heap.Holds m1.buyOrders bs1 ∧ Heap.Holds m1.sellOrders ss1 ∧ Uncrossed bs1 ss1 ∧
      m1.Positive ∧ m1.bank = m.bank + (log.map tradeGain).sum ∧
      ∀ tr ∈ log, GoodTrade tr := by
  intro cs
  induction cs with
  | nil =>
    intro m bs ss hB hS hU hI _
    exact ⟨m, [], bs, ss, rfl, rfl, hB, hS, hU, hI, by simp, by simp⟩
  | cons c cs ih =>
    intro m bs ss hB hS _ hI hpos
    obtain ⟨m1, log1, bs1, ss1, h1, h2, h3, h4, h5, h6, h7, h8⟩ :=
      submitLog_spec hB hS hI c (hpos c (List.mem_cons_self _ _))
    obtain ⟨m2, log2, bs2, ss2, r1, r2, r3, r4, r5, r6, r7, r8⟩ :=
      ih m1 bs1 ss1 h3 h4 h5 h6 (fun c hc => hpos c (List.mem_cons_of_mem _ hc))
    refine ⟨m2, log1 ++ log2, bs2, ss2, ?_, ?_, r3, r4, r5, r6, ?_, ?_⟩
    · simp only [StockMarket.runLog, h1, r1]
    · rw [StockMarket.run_cons, h2]
      exact r2
    · rw [r7, h7, List.map_append, List.sum_append, add_assoc]
    · intro tr htr
      rcases List.mem_append.mp htr with h0 | h0
      · exact h8 tr h0
      · exact r8 tr h0

theorem StockMarket.run_append : ∀ (cs1 cs2 : List (StockMarket.Call α)) (m : StockMarket α),
    StockMarket.run (cs1 ++ cs2) m = (StockMarket.run cs1 m).bind (StockMarket.run cs2) := by
  intro cs1
  induction cs1 with
  | nil =>
    intro cs2 m
    rfl
  | cons c cs ih =>
    intro cs2 m
    rw [List.cons_append, StockMarket.run_cons, StockMarket.run_cons c cs]
    cases StockMarket.run [c] m with
    | none => rfl
    | some m1 => exact ih cs2 m1

theorem uncrossed_nil : Uncrossed ([] : List (Elem α)) [] := by
  intro b s hb _
  cases hb

theorem init_positive : (StockMarket.init : StockMarket α).Positive :=
  StockMarket.Positive.of_lists (m := StockMarket.init) Heap.Holds.of_init Heap.Holds.of_init
    (by simp) (by simp)

/-- C13. Bank balance never decreases: for submissions of positive quantities run from the
initial market, first `cs1` and then `cs2`, the bank after `cs2` is the bank before it plus
`(buyPrice - sellPrice) * min(buyQty, sellQty)` summed over the trades executed in between;
in each of these trades the sell price does not exceed the buy price and both quantities are
positive, so each term is at least 0; hence the bank is at least 0 at any time and does not
decrease. -/
theorem bank_never_decreases (cs1 cs2 : List (StockMarket.Call α))
    (hpos : ∀ c ∈ cs1 ++ cs2, 0 < c.num) :
    ∃ m1 m2 log, StockMarket.run cs1 StockMarket.init = some m1 ∧
      StockMarket.runLog cs2 m1 = some (m2, log) ∧
      StockMarket.run (cs1 ++ cs2) StockMarket.init = some m2 ∧
      m2.bank = m1.bank + (log.map tradeGain).sum ∧
      (∀ tr ∈ log, tr.2.key.price ≤ -tr.1.key.price ∧ 0 < tr.1.value.numShares ∧
        0 < tr.2.value.numShares ∧ 0 ≤ tradeGain tr) ∧
      0 ≤ m1.bank ∧ m1.bank ≤ m2.bank := by
  obtain ⟨m1, log1, bs1, ss1, _, h2, h3, h4, h5, h6, h7, h8⟩ :=
    runLog_spec cs1 (StockMarket.init : StockMarket α) [] [] Heap.Holds.of_init Heap.Holds.of_init
      uncrossed_nil init_positive (fun c hc => hpos c (List.mem_append_left _ hc))
  obtain ⟨m2, log2, bs2, ss2, r1, r2, _, _, _, _, r7, r8⟩ :=
    runLog_spec cs2 m1 bs1 ss1 h3 h4 h5 h6 (fun c hc => hpos c (List.mem_append_right _ hc))
  refine ⟨m1, m2, log2, h2, r1, ?_, r7, r8, ?_, ?_⟩
  · rw [StockMarket.run_append, h2]
    exact r2
  · rw [h7]
    have := sum_tradeGain_nonneg h8
    simpa [StockMarket.init] using this
  · rw [r7]
    have := sum_tradeGain_nonneg r8
    linarith

/-! ## Submissions of quantity zero -/

theorem uncrossed_all {tb ts : Heap α} {bs ss : List (Elem α)} (hB : Heap.Holds tb bs)
    (hS : Heap.Holds ts ss) (hU : Uncrossed bs ss) :
    ∀ b ∈ bs, ∀ s ∈ ss, -b.key.price < s.key.price := by
  intro b hb s hs
  cases hbs : bs with
  | nil =>
    rw [hbs] at hb
    cases hb
  | cons b0 bt =>
    cases hss : ss with
    | nil =>
      rw [hss] at hs
      cases hs
    | cons s0 st =>
      have hbh : bs.head? = some b0 := by rw [hbs]; rfl
      have hsh : ss.head? = some s0 := by rw [hss]; rfl
      have h1 := Elem.price_le_of_not_lt (hB.head_le hbh hb)
      have h2 := Elem.price_le_of_not_lt (hS.head_le hsh hs)
      have h3 := hU b0 s0 hbh hsh
      linarith

/-- On uncrossed books the matching loop executes no trade. -/
theorem tradeLoopLog_uncrossed {m : StockMarket α} {bs ss : List (Elem α)}
    (hB : Heap.Holds m.buyOrders bs) (hS : Heap.Holds m.sellOrders ss) (hU : Uncrossed bs ss)
    (fuel : Nat) (hf : 2 ≤ fuel) (avail : Bool) :
    StockMarket.tradeLoopLog fuel m avail = some (m, []) := by
  obtain ⟨k, rfl⟩ : ∃ k, fuel = k + 2 := ⟨fuel - 2, by omega⟩
  simp only [StockMarket.tradeLoopLog]
  split
  · rename_i hc
    simp only [Bool.and_eq_true, Bool.not_eq_true', Bool.or_eq_false_iff] at hc
    obtain ⟨_, hbe, hse⟩ := hc
    cases hbs : bs with
    | nil =>
      rw [hB.empty_iff.mpr hbs] at hbe
      cases hbe
    | cons b bt =>
      cases hss : ss with
      | nil =>
        rw [hS.empty_iff.mpr hss] at hse
        cases hse
      | cons s st =>
        have hbh : bs.head? = some b := by rw [hbs]; rfl
        have hsh : ss.head? = some s := by rw [hss]; rfl
        have hu := hU b s hbh hsh
        have hx : ¬ (s.key.price - -b.key.price ≤ 0) := by
          simp only [sub_neg_eq_add, not_le]
          linarith
        simp only [hB.min_eq, hS.min_eq, hbh, hsh, hx, if_false, Bool.false_and,
          Bool.false_eq_true]
  · rfl

theorem tradeLog_uncrossed {m : StockMarket α} {bs ss : List (Elem α)}
    (hB : Heap.Holds m.buyOrders bs) (hS : Heap.Holds m.sellOrders ss) (hU : Uncrossed bs ss) :
    m.tradeLog = some (m, []) := by
  unfold StockMarket.tradeLog
  split
  · rfl
  · exact tradeLoopLog_uncrossed hB hS hU _ (by omega) true

theorem trade_of_tradeLog {m m1 : StockMarket α} {log : List (Elem α × Elem α)}
    (h : m.tradeLog = some (m1, log)) : m.trade = some m1 := by
  rw [← tradeLog_fst, h]
  rfl

theorem getElem?_set_of_ne {β : Type} (m : List β) {a b : Nat} (x : β) (h : a ≠ b) :
    (m.set a x)[b]? = m[b]? := by
  rw [List.getElem?_set_ne h]

/-- C21. Contract of `removeNode`: for a node `w` of the store with at most one child, whose
parent (if any) is a node holding `w` in one of its child slots and whose child (if any) is a
node other than the parent, `removeNode(w)` returns the element of `w` and decrements `n` by 1;
the slot of the parent that held `w` gets the sole child of `w` (or absent), the other slot and
the element of the parent are kept; the parent link of that child is set to the parent of `w`;
`root` becomes the child (absent for a leaf) when `w` has no parent and is kept otherwise; all
other nodes are unchanged. -/
theorem removeNode_contract (t : BT α) (wa : Nat) (wn : Node α) (hw : t.mem[wa]? = some wn)
    (hchild : wn.left = none ∨ wn.right = none)
    (hpar : ∀ za, wn.parent = some za →
      ∃ zn, t.mem[za]? = some zn ∧ (zn.left = some wa ∨ zn.right = some wa))
    (hx : ∀ xa, wn.onlyChild = some xa → (∃ xn, t.mem[xa]? = some xn) ∧ wn.parent ≠ some xa) :
    ∃ t1, t.removeNode (some wa) = some (t1, wn.elem) ∧ t1.n = t.n - 1 ∧
      t1.mem.length = t.mem.length ∧
      (wn.parent = none → t1.root = wn.onlyChild) ∧
      (wn.parent = none → wn.left = none → wn.right = none → t1.root = none) ∧
      (wn.parent ≠ none → t1.root = t.root) ∧
      (∀ za zn, wn.parent = some za → t.mem[za]? = some zn →
        (zn.left = some wa →
          t1.mem[za]? = some ⟨zn.elem, wn.onlyChild, zn.right, zn.parent⟩) ∧
        (zn.left ≠ some wa →
          t1.mem[za]? = some ⟨zn.elem, zn.left, wn.onlyChild, zn.parent⟩)) ∧
      (∀ xa xn, wn.onlyChild = some xa → t.mem[xa]? = some xn →
        t1.mem[xa]? = some ⟨xn.elem, xn.left, xn.right, wn.parent⟩) ∧
      (∀ a, wn.parent ≠ some a → wn.onlyChild ≠ some a → t1.mem[a]? = t.mem[a]?) ∧
      (∀ c, wn.left = some c ∨ wn.right = some c ↔ wn.onlyChild = some c) := by
  have hsole : ∀ c, wn.left = some c ∨ wn.right = some c ↔ wn.onlyChild = some c := by
    intro c
    unfold Node.onlyChild
    rcases hchild with h | h
    · simp [h]
    · rw [h]
      cases hl : wn.left <;> simp
  have hx0 : (if wn.left.isSome then wn.left else wn.right) = wn.onlyChild := rfl
  cases hp : wn.parent with
  | none =>
    cases hc : wn.onlyChild with
    | none =>
      refine ⟨⟨t.mem, none, t.n - 1⟩, ?_, rfl, rfl, fun _ => rfl, fun _ _ _ => rfl,
        fun h => absurd rfl h, ?_, ?_, fun _ _ _ => rfl, ?_⟩
      · simp [BT.removeNode, Mem.read, hw, hp, hx0, hc, BT.makeChild]
      · intro za zn h
        cases h
      · intro xa xn h
        cases h
      · intro c
        rw [← hc]
        exact hsole c
    | some xa =>
      obtain ⟨⟨xn, hxn⟩, _⟩ := hx xa hc
      refine ⟨⟨t.mem.set xa ⟨xn.elem, xn.left, xn.right, none⟩, some xa, t.n - 1⟩, ?_, rfl,
        by simp, fun _ => rfl, ?_, fun h => absurd rfl h, ?_, ?_, ?_, ?_⟩
      · simp [BT.removeNode, Mem.read, hw, hp, hx0, hc, BT.makeChild, Mem.write, hxn]
      · intro _ hl hr
        simp [Node.onlyChild, hl, hr] at hc
      · intro za zn h
        cases h
      · intro xa2 xn2 h h2
        cases h
        rw [hxn] at h2
        cases h2
        show (t.mem.set xa _)[xa]? = _
        rw [List.getElem?_set_self (List.getElem?_eq_some.mp hxn).1]
      · intro a _ h2
        show (t.mem.set xa _)[a]? = _
        exact getElem?_set_of_ne _ _ (fun h => h2 (by rw [h]))
      · intro c
        rw [← hc]
        exact hsole c
  | some za =>
    obtain ⟨zn, hzn, _⟩ := hpar za hp
    have hzlt : za < t.mem.length := (List.getElem?_eq_some.mp hzn).1
    cases hc : wn.onlyChild with
    | none =>
      refine ⟨⟨t.mem.set za (if zn.left = some wa then ⟨zn.elem, none, zn.right, zn.parent⟩
          else ⟨zn.elem, zn.left, none, zn.parent⟩), t.root, t.n - 1⟩, ?_, rfl, by simp,
        (fun h => by cases h), (fun h => by cases h), fun _ => rfl, ?_, ?_, ?_, ?_⟩
      · simp only [BT.removeNode, Mem.read, hw, hp, hx0, hc, hzn, Option.map_some',
          BT.makeChild_some_none t _ hzn, Option.isNone_some, Bool.false_eq_true, if_false]
        by_cases hl : zn.left = some wa <;> simp [hl]
      · intro za2 zn2 h h2
        cases h
        rw [hzn] at h2
        cases h2
        constructor
        · intro hl
          show (t.mem.set za _)[za]? = _
          rw [List.getElem?_set_self hzlt, if_pos hl]
        · intro hl
          show (t.mem.set za _)[za]? = _
          rw [List.getElem?_set_self hzlt, if_neg hl]
      · intro xa xn h
        cases h
      · intro a h1 _
        show (t.mem.set za _)[a]? = _
        exact getElem?_set_of_ne _ _ (fun h => h1 (by rw [h]))
      · intro c
        rw [← hc]
        exact hsole c
    | some xa =>
      obtain ⟨⟨xn, hxn⟩, hne⟩ := hx xa hc
      have hne2 : za ≠ xa := fun h => hne (by rw [hp, h])
      have hxlt : xa < t.mem.length := (List.getElem?_eq_some.mp hxn).1
      refine ⟨⟨(t.mem.set za (if zn.left = some wa then ⟨zn.elem, some xa, zn.right, zn.parent⟩
          else ⟨zn.elem, zn.left, some xa, zn.parent⟩)).set xa
            ⟨xn.elem, xn.left, xn.right, some za⟩, t.root, t.n - 1⟩, ?_, rfl, by simp,
        (fun h => by cases h), (fun h => by cases h), fun _ => rfl, ?_, ?_, ?_, ?_⟩
      · have hxn2 : ∀ y : Node α, (t.mem.set za y)[xa]? = some xn := by
          intro y
          rw [getElem?_set_of_ne _ _ hne2]
          exact hxn
        simp only [BT.removeNode, Mem.read, hw, hp, hx0, hc, hzn, Option.map_some',
          BT.makeChild, Option.isSome_some, if_true, Mem.write, Option.isNone_some,
          Bool.false_eq_true, if_false]
        by_cases hl : zn.left = some wa <;> simp [hl, hxn2]
      · intro za2 zn2 h h2
        cases h
        rw [hzn] at h2
        cases h2
        constructor
        · intro hl
          show ((t.mem.set za _).set xa _)[za]? = _
          rw [getElem?_set_of_ne _ _ hne2.symm, List.getElem?_set_self hzlt, if_pos hl]
        · intro hl
          show ((t.mem.set za _).set xa _)[za]? = _
          rw [getElem?_set_of_ne _ _ hne2.symm, List.getElem?_set_self hzlt, if_neg hl]
      · intro xa2 xn2 h h2
        cases h
        rw [hxn] at h2
        cases h2
        show ((t.mem.set za _).set xa _)[xa]? = _
        rw [List.getElem?_set_self (by simpa using hxlt)]
      · intro a h1 h2
        show ((t.mem.set za _).set xa _)[a]? = _
        rw [getElem?_set_of_ne _ _ (fun h => h2 (by rw [h])),
          getElem?_set_of_ne _ _ (fun h => h1 (by rw [h]))]
      · intro c
        rw [← hc]
        exact hsole c

/-! ## Invariants of runs of the market -/

theorem run_single (m : StockMarket α) (c : StockMarket.Call α) :
    StockMarket.run [c] m = (m.place c).bind StockMarket.trade := by
  cases c with
  | buy price num id =>
    simp only [StockMarket.run, StockMarket.buy, StockMarket.place]
    cases h1 : ({ m with counter := m.counter + 1 } : StockMarket α).buyAux num price id
      m.counter with
    | none => rfl
    | some m1 =>
      simp only [Option.some_bind]
      cases m1.trade <;> rfl
  | sell price num id =>
    simp only [StockMarket.run, StockMarket.sell, StockMarket.place]
    cases h1 : ({ m with counter := m.counter + 1 } : StockMarket α).sellAux num price id
      m.counter with
    | none => rfl
    | some m1 =>
      simp only [Option.some_bind]
      cases m1.trade <;> rfl

/-- What placing an order does: it is added to its own book, the counter goes up by one, and
nothing else changes. -/
theorem place_spec (m : StockMarket α) {bs ss : List (Elem α)}
    (hB : Heap.Holds m.buyOrders bs) (hS : Heap.Holds m.sellOrders ss) (c : StockMarket.Call α) :
    ∃ m1 bs1 ss1, m.place c = some m1 ∧
      Heap.Holds m1.buyOrders bs1 ∧ Heap.Holds m1.sellOrders ss1 ∧
      (c.isBuy = true → bs1.Perm (c.order m.counter :: bs) ∧ ss1 = ss ∧
        m1.sellOrders = m.sellOrders) ∧
      (c.isBuy = false → ss1.Perm (c.order m.counter :: ss) ∧ bs1 = bs ∧
        m1.buyOrders = m.buyOrders) ∧
      m1.books = m.books ∧ m1.bank = m.bank ∧ m1.counter = m.counter + 1 := by
  cases c with
  | buy price num id =>
    obtain ⟨m1, bs1, ss1, h1, h2, h3, h4, _, h6, h7, h8⟩ :=
      transAux_perm { m with counter := m.counter + 1 } hB hS num price id m.counter true
    exact ⟨m1, bs1, ss1, h1, h2, h3, fun _ => h4 rfl, (fun h => by cases h), h6, h7, h8⟩
  | sell price num id =>
    obtain ⟨m1, bs1, ss1, h1, h2, h3, _, h5, h6, h7, h8⟩ :=
      transAux_perm { m with counter := m.counter + 1 } hB hS num price id m.counter false
    exact ⟨m1, bs1, ss1, h1, h2, h3, (fun h => by cases h), fun _ => h5 rfl, h6, h7, h8⟩

/-- The facts of `place_spec` for the market `place` returned and the lists its books store. -/
theorem place_facts {m m1 : StockMarket α} {bs ss bs1 ss1 : List (Elem α)}
    {c : StockMarket.Call α}
    (hB : Heap.Holds m.buyOrders bs) (hS : Heap.Holds m.sellOrders ss)
    (h : m.place c = some m1)
    (hB1 : Heap.Holds m1.buyOrders bs1) (hS1 : Heap.Holds m1.sellOrders ss1) :
    (c.isBuy = true → bs1.Perm (c.order m.counter :: bs) ∧ ss1 = ss ∧
      m1.sellOrders = m.sellOrders) ∧
    (c.isBuy = false → ss1.Perm (c.order m.counter :: ss) ∧ bs1 = bs ∧
      m1.buyOrders = m.buyOrders) ∧
    m1.books = m.books ∧ m1.bank = m.bank ∧ m1.counter = m.counter + 1 := by
  obtain ⟨m2, bs2, ss2, h1, h2, h3, h4⟩ := place_spec m hB hS c
  rw [h] at h1
  cases h1
  rw [hB1.1.elems_unique h2.1, hS1.1.elems_unique h3.1]
  exact h4

theorem volume_cons (e : Elem α) (es : List (Elem α)) :
    volume (e :: es) = e.value.numShares + volume es := by
  simp [volume]

theorem volume_perm {es es2 : List (Elem α)} (h : es.Perm es2) : volume es = volume es2 := by
  unfold volume
  exact (h.map _).sum_eq

/-- The facts of a trade for the market `processTrade` returned and the lists its books store:
with `Q = min(buyQty, sellQty)`, each book loses the quantity `Q`; every order of a book
after the trade was in it before or is the remainder of its first order; the keys of a book
after the trade are among those before; the ledger gets the two postings of quantity `Q`. -/
theorem processTrade_facts {m m1 : StockMarket α} {bs ss bs1 ss1 : List (Elem α)} {b s : Elem α}
    (hB : Heap.Holds m.buyOrders bs) (hS : Heap.Holds m.sellOrders ss)
    (hb : Heap.min m.buyOrders = some (some b)) (hs : Heap.min m.sellOrders = some (some s))
    (h : m.processTrade = some m1)
    (hB1 : Heap.Holds m1.buyOrders bs1) (hS1 : Heap.Holds m1.sellOrders ss1) :
    b ∈ bs ∧ s ∈ ss ∧
    volume bs1 = volume bs - min b.value.numShares s.value.numShares ∧
    volume ss1 = volume ss - min b.value.numShares s.value.numShares ∧
    (∀ e ∈ bs1, e ∈ bs ∨ (e.key = b.key ∧ 0 < e.value.numShares)) ∧
    (∀ e ∈ ss1, e ∈ ss ∨ (e.key = s.key ∧ 0 < e.value.numShares)) ∧
    ((bs1 ++ ss1).map Elem.key).Subperm ((bs ++ ss).map Elem.key) ∧
    m1.books = (m.books.buy (filled b (min b.value.numShares s.value.numShares))).sell
      (filled s (min b.value.numShares s.value.numShares)) ∧
    m1.bank = m.bank +
      (-b.key.price - s.key.price) * ((min b.value.numShares s.value.numShares : Int) : α) ∧
    m1.counter = m.counter := by
  obtain ⟨bs0, ss0, bs2, ss2, h2, h3, h4, h5, h6, h7, h8, _⟩ := processTrade_spec_of hB hS hb hs h
  rw [hB1.1.elems_unique h2.1, hS1.1.elems_unique h3.1]
  have hbm : b ∈ bs := List.mem_of_mem_head? (head_of_min hB hb)
  have hsm : s ∈ ss := List.mem_of_mem_head? (head_of_min hS hs)
  have vb := volume_perm h4
  have vs := volume_perm h5
  rw [volume_cons] at vb vs
  have kb : ((b :: bs0 ++ (s :: ss0)).map Elem.key).Perm ((bs ++ ss).map Elem.key) :=
    (h4.append h5).map _
  refine ⟨hbm, hsm, ?_, ?_, ?_, ?_, ?_, processTrade_post hb hs h⟩
  · rcases lt_trichotomy b.value.numShares s.value.numShares with hc | hc | hc
    · obtain ⟨_, p2⟩ := h7 hc
      rw [p2, min_eq_left hc.le]
      omega
    · obtain ⟨p1, _⟩ := h8 hc
      rw [p1, hc, min_self]
      omega
    · obtain ⟨p1, _⟩ := h6 hc
      rw [volume_perm p1, volume_cons, min_eq_right hc.le]
      show b.value.numShares - s.value.numShares + volume bs0 = _
      omega
  · rcases lt_trichotomy b.value.numShares s.value.numShares with hc | hc | hc
    · obtain ⟨p1, _⟩ := h7 hc
      rw [volume_perm p1, volume_cons, min_eq_left hc.le]
      show s.value.numShares - b.value.numShares + volume ss0 = _
      omega
    · obtain ⟨_, p2⟩ := h8 hc
      rw [p2, hc, min_self]
      omega
    · obtain ⟨_, p2⟩ := h6 hc
      rw [p2, min_eq_right hc.le]
      omega
  · intro e he
    rcases lt_trichotomy b.value.numShares s.value.numShares with hc | hc | hc
    · obtain ⟨_, p2⟩ := h7 hc
      rw [p2] at he
      exact Or.inl (h4.subset (List.mem_cons_of_mem _ he))
    · obtain ⟨p1, _⟩ := h8 hc
      rw [p1] at he
      exact Or.inl (h4.subset (List.mem_cons_of_mem _ he))
    · obtain ⟨p1, _⟩ := h6 hc
      rcases List.mem_cons.mp (p1.subset he) with h0 | h0
      · right
        rw [h0]
        refine ⟨rfl, ?_⟩
        show 0 < b.value.numShares - s.value.numShares
        omega
      · exact Or.inl (h4.subset (List.mem_cons_of_mem _ h0))
  · intro e he
    rcases lt_trichotomy b.value.numShares s.value.numShares with hc | hc | hc
    · obtain ⟨p1, _⟩ := h7 hc
      rcases List.mem_cons.mp (p1.subset he) with h0 | h0
      · right
        rw [h0]
        refine ⟨rfl, ?_⟩
        show 0 < s.value.numShares - b.value.numShares
        omega
      · exact Or.inl (h5.subset (List.mem_cons_of_mem _ h0))
    · obtain ⟨_, p2⟩ := h8 hc
      rw [p2] at he
      exact Or.inl (h5.subset (List.mem_cons_of_mem _ he))
    · obtain ⟨_, p2⟩ := h6 hc
      rw [p2] at he
      exact Or.inl (h5.subset (List.mem_cons_of_mem _ he))
  · refine List.Subperm.trans ?_ kb.subperm
    rcases lt_trichotomy b.value.numShares s.value.numShares with hc | hc | hc
    · obtain ⟨p1, p2⟩ := h7 hc
      rw [p2]
      have q1 : ((bs0 ++ ss2).map Elem.key).Perm ((bs0 ++ (s :: ss0)).map Elem.key) := by
        have := ((List.Perm.refl bs0).append p1).map Elem.key
        simpa using this
      refine q1.subperm.trans ?_
      apply List.Sublist.subperm
      simp
    · obtain ⟨p1, p2⟩ := h8 hc
      rw [p1, p2]
      apply List.Sublist.subperm
      simp only [List.map_append, List.map_cons, List.cons_append]
      exact (List.sublist_cons_self _ _).trans
        (List.Sublist.cons₂ _ (List.Sublist.append (List.Sublist.refl _)
          (List.sublist_cons_self _ _)))
    · obtain ⟨p1, p2⟩ := h6 hc
      rw [p2]
      have q1 : ((bs2 ++ ss0).map Elem.key).Perm ((b :: bs0 ++ ss0).map Elem.key) := by
        have := (p1.append (List.Perm.refl ss0)).map Elem.key
        simpa using this
      refine q1.subperm.trans ?_
      apply List.Sublist.subperm
      simp only [List.map_append, List.map_cons, List.cons_append]
      exact List.Sublist.cons₂ _ (List.Sublist.append (List.Sublist.refl _)
        (List.sublist_cons_self _ _))

theorem subperm_nodup {β : Type} {l1 l2 : List β} (h : l1.Subperm l2) (h2 : l2.Nodup) :
    l1.Nodup := by
  obtain ⟨l, hp, hs⟩ := h
  exact hp.nodup_iff.mp (h2.sublist hs)

theorem subperm_map {β γ : Type} (f : β → γ) {l1 l2 : List β} (h : l1.Subperm l2) :
    (l1.map f).Subperm (l2.map f) := by
  obtain ⟨l, hp, hs⟩ := h
  exact ⟨l.map f, hp.map f, hs.map f⟩

/-- An invariant of `processTrade` on crossing books is an invariant of `trade`, which
returns on books that are heaps. -/
theorem trade_induct (I : StockMarket α → Prop)
    (hstep : ∀ (m m1 : StockMarket α) (bs ss : List (Elem α)) (b s : Elem α),
      Heap.Holds m.buyOrders bs → Heap.Holds m.sellOrders ss →
      Heap.min m.buyOrders = some (some b) → Heap.min m.sellOrders = some (some s) →
      s.key.price - -b.key.price ≤ 0 → I m → m.processTrade = some m1 → I m1)
    {m : StockMarket α} {bs ss : List (Elem α)}
    (hB : Heap.Holds m.buyOrders bs) (hS : Heap.Holds m.sellOrders ss) (hI : I m) :
    ∃ m1 bs1 ss1, m.trade = some m1 ∧
      Heap.Holds m1.buyOrders bs1 ∧ Heap.Holds m1.sellOrders ss1 ∧ Uncrossed bs1 ss1 ∧ I m1 := by
  obtain ⟨m1, bs1, ss1, h1, h2, h3, h4, _⟩ := trade_spec hB hS
  obtain ⟨log, hlog⟩ := tradeLog_of_trade h1
  refine ⟨m1, bs1, ss1, h1, h2, h3, h4, ?_⟩
  unfold StockMarket.tradeLog at hlog
  split at hlog
  · cases hlog
    exact hI
  · exact (tradeLoopLog_induct I (fun _ => True)
      (fun m m1 bs ss b s a1 a2 a3 a4 a5 a6 a7 => ⟨hstep m m1 bs ss b s a1 a2 a3 a4 a5 a6 a7,
        trivial⟩) _ m m1 bs ss true log hB hS hI hlog).1

/-- A property `P` of the submissions made, the market and the lists its books store that
placing an order and every trade on crossing books preserve holds after every run of
submissions, which returns. -/
theorem run_induct
    (P : List (StockMarket.Call α) → StockMarket α → List (Elem α) → List (Elem α) → Prop)
    (hplace : ∀ (cs : List (StockMarket.Call α)) (c : StockMarket.Call α) (m m1 : StockMarket α)
      (bs ss bs1 ss1 : List (Elem α)),
      Heap.Holds m.buyOrders bs → Heap.Holds m.sellOrders ss → P cs m bs ss →
      m.place c = some m1 → Heap.Holds m1.buyOrders bs1 → Heap.Holds m1.sellOrders ss1 →
      P (cs ++ [c]) m1 bs1 ss1)
    (htrade : ∀ (cs : List (StockMarket.Call α)) (m m1 : StockMarket α)
      (bs ss bs1 ss1 : List (Elem α)) (b s : Elem α),
      Heap.Holds m.buyOrders bs → Heap.Holds m.sellOrders ss →
      Heap.min m.buyOrders = some (some b) → Heap.min m.sellOrders = some (some s) →
      s.key.price ≤ -b.key.price → P cs m bs ss → m.processTrade = some m1 →
      Heap.Holds m1.buyOrders bs1 → Heap.Holds m1.sellOrders ss1 → P cs m1 bs1 ss1) :
    ∀ (cs2 cs1 : List (StockMarket.Call α)) (m : StockMarket α) (bs ss : List (Elem α)),
      Heap.Holds m.buyOrders bs → Heap.Holds m.sellOrders ss → Uncrossed bs ss →
      P cs1 m bs ss →
      ∃ m1 bs1 ss1, StockMarket.run cs2 m = some m1 ∧
        Heap.Holds m1.buyOrders bs1 ∧ Heap.Holds m1.sellOrders ss1 ∧ Uncrossed bs1 ss1 ∧
        P (cs1 ++ cs2) m1 bs1 ss1 := by
  intro cs2
  induction cs2 with
  | nil =>
    intro cs1 m bs ss hB hS hU hP
    refine ⟨m, bs, ss, rfl, hB, hS, hU, ?_⟩
    rw [List.append_nil]
    exact hP
  | cons c cs ih =>
    intro cs1 m bs ss hB hS _ hP
    obtain ⟨m1, bs1, ss1, hp, H1, H2, _⟩ := place_spec m hB hS c
    have hP1 := hplace cs1 c m m1 bs ss bs1 ss1 hB hS hP hp H1 H2
    obtain ⟨m2, bs2, ss2, t1, t2, t3, t4, t5⟩ :=
      trade_induct
        (fun m0 => ∀ bs0 ss0, Heap.Holds m0.buyOrders bs0 → Heap.Holds m0.sellOrders ss0 →
          P (cs1 ++ [c]) m0 bs0 ss0)
        (fun m0 m3 bs0 ss0 b s a1 a2 a3 a4 a5 a6 a7 bs3 ss3 a8 a9 =>
          htrade (cs1 ++ [c]) m0 m3 bs0 ss0 bs3 ss3 b s a1 a2 a3 a4
            (by simp only [sub_neg_eq_add] at a5; linarith) (a6 bs0 ss0 a1 a2) a7 a8 a9)
        H1 H2
        (fun bs0 ss0 a1 a2 => by
          rw [a1.1.elems_unique H1.1, a2.1.elems_unique H2.1]
          exact hP1)
    obtain ⟨m3, bs3, ss3, r1, r2, r3, r4, r5⟩ :=
      ih (cs1 ++ [c]) m2 bs2 ss2 t2 t3 t4 (t5 bs2 ss2 t2 t3)
    refine ⟨m3, bs3, ss3, ?_, r2, r3, r4, ?_⟩
    · rw [StockMarket.run_cons, run_single, hp]
      simp only [Option.some_bind, t1]
      exact r1
    · rw [List.append_assoc] at r5
      exact r5

/-- The same from the initial market. -/
theorem run_init_induct
    (P : List (StockMarket.Call α) → StockMarket α → List (Elem α) → List (Elem α) → Prop)
    (hinit : P [] StockMarket.init [] [])
    (hplace : ∀ (cs : List (StockMarket.Call α)) (c : StockMarket.Call α) (m m1 : StockMarket α)
      (bs ss bs1 ss1 : List (Elem α)),
      Heap.Holds m.buyOrders bs → Heap.Holds m.sellOrders ss → P cs m bs ss →
      m.place c = some m1 → Heap.Holds m1.buyOrders bs1 → Heap.Holds m1.sellOrders ss1 →
      P (cs ++ [c]) m1 bs1 ss1)
    (htrade : ∀ (cs : List (StockMarket.Call α)) (m m1 : StockMarket α)
      (bs ss bs1 ss1 : List (Elem α)) (b s : Elem α),
      Heap.Holds m.buyOrders bs → Heap.Holds m.sellOrders ss →
      Heap.min m.buyOrders = some (some b) → Heap.min m.sellOrders = some (some s) →
      s.key.price ≤ -b.key.price → P cs m bs ss → m.processTrade = some m1 →
      Heap.Holds m1.buyOrders bs1 → Heap.Holds m1.sellOrders ss1 → P cs m1 bs1 ss1)
    (cs : List (StockMarket.Call α)) :
    ∃ m bs ss, StockMarket.run cs StockMarket.init = some m ∧
      Heap.Holds m.buyOrders bs ∧ Heap.Holds m.sellOrders ss ∧ Uncrossed bs ss ∧
      P cs m bs ss := by
  have h := run_induct P hplace htrade cs [] StockMarket.init [] [] Heap.Holds.of_init
    Heap.Holds.of_init uncrossed_nil hinit
  simpa using h

/-! ## Sums over the ledger -/

theorem store_sum {γ : Type} [AddCommGroup γ] (g : Record α → γ) (book : List (Int × Record α))
    (id : Int) (r : Record α) :
    ((Ledger.store book id r).map (fun p => g p.2)).sum =
      (book.map (fun p => g p.2)).sum -
        (match book.lookup id with
          | some r0 => g r0
          | none => 0) + g r := by
  induction book with
  | nil => simp [Ledger.store, List.lookup]
  | cons kv rest ih =>
    obtain ⟨k, v⟩ := kv
    by_cases hk : k = id
    · subst hk
      simp [Ledger.store, List.lookup]
      abel
    · have hk2 : (id == k) = false := by
        simp only [beq_eq_false_iff_ne, ne_eq]
        exact fun h => hk h.symm
      simp only [Ledger.store, hk, if_false, List.lookup, hk2, List.map_cons, List.sum_cons, ih]
      abel

theorem lookup_mem {book : List (Int × Record α)} {id : Int} {r : Record α}
    (h : book.lookup id = some r) : (id, r) ∈ book := by
  induction book with
  | nil => simp [List.lookup] at h
  | cons kv rest ih =>
    obtain ⟨k, v⟩ := kv
    by_cases hk : k = id
    · subst hk
      simp [List.lookup] at h
      subst h
      exact List.mem_cons_self _ _
    · have hk2 : (id == k) = false := by
        simp only [beq_eq_false_iff_ne, ne_eq]
        exact fun h => hk h.symm
      simp only [List.lookup, hk2] at h
      exact List.mem_cons_of_mem _ (ih h)

theorem mem_store {book : List (Int × Record α)} {id : Int} {r : Record α} {p : Int × Record α}
    (h : p ∈ Ledger.store book id r) : p = (id, r) ∨ p ∈ book := by
  induction book with
  | nil =>
    simp only [Ledger.store, List.mem_singleton] at h
    exact Or.inl h
  | cons kv rest ih =>
    obtain ⟨k, v⟩ := kv
    by_cases hk : k = id
    · simp only [Ledger.store, hk, if_true, List.mem_cons] at h
      rcases h with h | h
      · exact Or.inl h
      · exact Or.inr (List.mem_cons_of_mem _ h)
    · simp only [Ledger.store, hk, if_false, List.mem_cons] at h
      rcases h with h | h
      · exact Or.inr (by rw [h]; exact List.mem_cons_self _ _)
      · rcases ih h with h2 | h2
        · exact Or.inl h2
        · exact Or.inr (List.mem_cons_of_mem _ h2)

/-- A posting adds quantity times key price to the sum of the balances. -/
theorem trans_totalBalance (L : Ledger α) (e : Elem α) (isBuyTrans : Bool) :
    (L.trans e isBuyTrans).totalBalance =
      L.totalBalance + (e.value.numShares : α) * e.key.price := by
  unfold Ledger.totalBalance Ledger.trans
  simp only [store_sum (fun r : Record α => r.balance)]
  cases L.book.lookup e.value.traderID <;> cases isBuyTrans <;> simp <;> ring

theorem volume_append (es : List (Elem α)) (e : Elem α) :
    volume (es ++ [e]) = volume es + e.value.numShares := by
  simp [volume]

/-- A posting adds its quantity to the history of its side and nothing to the other one. -/
theorem trans_volume (L : Ledger α) (e : Elem α) (isBuyTrans : Bool) :
    (L.trans e isBuyTrans).buyVolume =
      L.buyVolume + (if isBuyTrans then e.value.numShares else 0) ∧
    (L.trans e isBuyTrans).sellVolume =
      L.sellVolume + (if isBuyTrans then 0 else e.value.numShares) := by
  unfold Ledger.buyVolume Ledger.sellVolume Ledger.trans
  simp only [store_sum (fun r : Record α => volume r.buyTrans),
    store_sum (fun r : Record α => volume r.sellTrans)]
  cases L.book.lookup e.value.traderID <;> cases isBuyTrans <;>
    simp [volume_append, volume] <;> omega

/-- A posting of a positive quantity keeps all history entries positive. -/
theorem trans_positive {L : Ledger α} (h : L.Positive) {e : Elem α}
    (he : 0 < e.value.numShares) (isBuyTrans : Bool) : (L.trans e isBuyTrans).Positive := by
  intro p hp
  unfold Ledger.trans at hp
  rcases mem_store hp with h1 | h1
  · rw [h1]
    cases hl : L.book.lookup e.value.traderID with
    | none =>
      cases isBuyTrans <;> simp [he]
    | some r0 =>
      have h0 := h _ (lookup_mem hl)
      simp only [List.mem_append] at h0
      cases isBuyTrans
      · intro x hx
        simp only [Bool.false_eq_true, if_false, List.mem_append, List.mem_singleton] at hx
        rcases hx with hx | hx | hx
        · exact h0 x (Or.inl hx)
        · exact h0 x (Or.inr hx)
        · rw [hx]
          exact he
      · intro x hx
        simp only [if_true, List.mem_append, List.mem_singleton] at hx
        rcases hx with (hx | hx) | hx
        · exact h0 x (Or.inl hx)
        · rw [hx]
          exact he
        · exact h0 x (Or.inr hx)
  · exact h p h1

/-! ## Conservation of money and of shares -/

/-- C22. Money conservation: every sequence of `buy` / `sell` calls on the initial market
returns, and afterwards the sum of the balances of all ledger records plus the bank balance
is 0; every posting adds quantity times key price to the sum of the balances, and a trade of
quantity `Q` between the orders `b` and `s` posts `Q * b.key.price` (the buy price negated) to
the buyer, `Q * s.key.price` to the seller and `(buyPrice - sellPrice) * Q` to the bank. -/
theorem money_conservation (cs : List (StockMarket.Call α)) :
    (∃ m, StockMarket.run cs StockMarket.init = some m ∧ m.books.totalBalance + m.bank = 0) ∧
    (∀ (L : Ledger α) (e : Elem α) (isBuyTrans : Bool), (L.trans e isBuyTrans).totalBalance =
      L.totalBalance + (e.value.numShares : α) * e.key.price) ∧
    (∀ (m m1 : StockMarket α) (b s : Elem α), Heap.min m.buyOrders = some (some b) →
      Heap.min m.sellOrders = some (some s) → m.processTrade = some m1 →
      m1.books.totalBalance = m.books.totalBalance +
        ((min b.value.numShares s.value.numShares : Int) : α) * b.key.price +
        ((min b.value.numShares s.value.numShares : Int) : α) * s.key.price ∧
      m1.bank = m.bank +
        (-b.key.price - s.key.price) * ((min b.value.numShares s.value.numShares : Int) : α)) := by
  have hpt : ∀ (m m1 : StockMarket α) (b s : Elem α), Heap.min m.buyOrders = some (some b) →
      Heap.min m.sellOrders = some (some s) → m.processTrade = some m1 →
      m1.books.totalBalance = m.books.totalBalance +
        ((min b.value.numShares s.value.numShares : Int) : α) * b.key.price +
        ((min b.value.numShares s.value.numShares : Int) : α) * s.key.price ∧
      m1.bank = m.bank +
        (-b.key.price - s.key.price) * ((min b.value.numShares s.value.numShares : Int) : α) := by
    intro m m1 b s hb hs h
    obtain ⟨p1, p2, _⟩ := processTrade_post hb hs h
    refine ⟨?_, p2⟩
    rw [p1]
    unfold Ledger.sell Ledger.buy
    rw [trans_totalBalance, trans_totalBalance]
    rfl
  refine ⟨?_, trans_totalBalance, hpt⟩
  obtain ⟨m, bs, ss, h1, _, _, _, h5⟩ := run_init_induct
    (fun _ (m : StockMarket α) _ _ => m.books.totalBalance + m.bank = 0)
    (by simp [StockMarket.init, Ledger.init, Ledger.totalBalance])
    (by
      intro cs c m m1 bs ss bs1 ss1 hB hS hP hp hB1 hS1
      obtain ⟨_, _, f1, f2, _⟩ := place_facts hB hS hp hB1 hS1
      rw [f1, f2]
      exact hP)
    (by
      intro cs m m1 bs ss bs1 ss1 b s hB hS hb hs _ hP h hB1 hS1
      obtain ⟨q1, q2⟩ := hpt m m1 b s hb hs h
      rw [q1, q2]
      linear_combination hP)
    cs
  exact ⟨m, h1, h5⟩

theorem submitted_append (cs : List (StockMarket.Call α)) (c : StockMarket.Call α) :
    submittedBuy (cs ++ [c]) = submittedBuy cs + (if c.isBuy then c.num else 0) ∧
    submittedSell (cs ++ [c]) = submittedSell cs + (if c.isBuy then 0 else c.num) := by
  simp [submittedBuy, submittedSell]

theorem order_numShares (c : StockMarket.Call α) (t : Int) :
    (c.order t).value.numShares = c.num ∧ (c.order t).key.timeStamp = t := by
  cases c <;> exact ⟨rfl, rfl⟩

theorem processTrade_volume {m m1 : StockMarket α} {b s : Elem α}
    (hb : Heap.min m.buyOrders = some (some b)) (hs : Heap.min m.sellOrders = some (some s))
    (h : m.processTrade = some m1) :
    m1.books.buyVolume = m.books.buyVolume + min b.value.numShares s.value.numShares ∧
    m1.books.sellVolume = m.books.sellVolume + min b.value.numShares s.value.numShares := by
  obtain ⟨p1, _, _⟩ := processTrade_post hb hs h
  rw [p1]
  unfold Ledger.sell Ledger.buy
  rw [(trans_volume _ _ false).1, (trans_volume _ _ false).2, (trans_volume _ _ true).1,
    (trans_volume _ _ true).2]
  simp [filled]

/-- C23. Share conservation: every sequence of `buy` / `sell` calls on the initial market
returns, and afterwards the total quantity of the submitted buy orders is the total quantity
resting in the buy book plus the total quantity of the buy-history entries of the ledger, the
same holds on the sell side, and the buy-history entries and the sell-history entries have the
same total quantity; every trade posts one buy entry and one sell entry of the quantity
`min(buyQty, sellQty)`. -/
theorem share_conservation (cs : List (StockMarket.Call α)) :
    (∃ m bs ss, StockMarket.run cs StockMarket.init = some m ∧
      CompleteBT.Stores m.buyOrders bs ∧ CompleteBT.Stores m.sellOrders ss ∧
      submittedBuy cs = volume bs + m.books.buyVolume ∧
      submittedSell cs = volume ss + m.books.sellVolume ∧
      m.books.buyVolume = m.books.sellVolume) ∧
    (∀ (m m1 : StockMarket α) (b s : Elem α), Heap.min m.buyOrders = some (some b) →
      Heap.min m.sellOrders = some (some s) → m.processTrade = some m1 →
      m1.books.buyVolume = m.books.buyVolume + min b.value.numShares s.value.numShares ∧
      m1.books.sellVolume = m.books.sellVolume + min b.value.numShares s.value.numShares) := by
  refine ⟨?_, fun m m1 b s hb hs h => processTrade_volume hb hs h⟩
  obtain ⟨m, bs, ss, h1, h2, h3, _, h5⟩ := run_init_induct
    (fun cs (m : StockMarket α) bs ss =>
      submittedBuy cs = volume bs + m.books.buyVolume ∧
      submittedSell cs = volume ss + m.books.sellVolume ∧
      m.books.buyVolume = m.books.sellVolume)
    (by simp [StockMarket.init, Ledger.init, Ledger.buyVolume, Ledger.sellVolume, volume,
      submittedBuy, submittedSell])
    (by
      intro cs c m m1 bs ss bs1 ss1 hB hS hP hp hB1 hS1
      obtain ⟨f1, f2, f3, _, _⟩ := place_facts hB hS hp hB1 hS1
      obtain ⟨a1, a2⟩ := submitted_append cs c
      obtain ⟨P1, P2, P3⟩ := hP
      rw [a1, a2, f3]
      cases hc : c.isBuy with
      | true =>
        obtain ⟨g1, g2, _⟩ := f1 hc
        rw [volume_perm g1, volume_cons, (order_numShares c m.counter).1, g2]
        simp only [if_true, Bool.false_eq_true, if_false]
        exact ⟨by omega, by omega, P3⟩
      | false =>
        obtain ⟨g1, g2, _⟩ := f2 hc
        rw [volume_perm g1, volume_cons, (order_numShares c m.counter).1, g2]
        simp only [if_true, Bool.false_eq_true, if_false]
        exact ⟨by omega, by omega, P3⟩)
    (by
      intro cs m m1 bs ss bs1 ss1 b s hB hS hb hs _ hP h hB1 hS1
      obtain ⟨_, _, v1, v2, _⟩ := processTrade_facts hB hS hb hs h hB1 hS1
      obtain ⟨q1, q2⟩ := processTrade_volume hb hs h
      obtain ⟨P1, P2, P3⟩ := hP
      rw [v1, v2, q1, q2]
      exact ⟨by omega, by omega, by omega⟩)
    cs
  exact ⟨m, bs, ss, h1, h2.1, h3.1, h5⟩

/-! ## Time stamps and quantities of resting orders -/

theorem map_timeStamp (l : List (Elem α)) :
    (l.map Elem.key).map Key.timeStamp = l.map (fun e => e.key.timeStamp) := by
  simp [List.map_map, Function.comp_def]

theorem placed_perm {m m1 : StockMarket α} {bs ss bs1 ss1 : List (Elem α)}
    {c : StockMarket.Call α}
    (hB : Heap.Holds m.buyOrders bs) (hS : Heap.Holds m.sellOrders ss)
    (h : m.place c = some m1)
    (hB1 : Heap.Holds m1.buyOrders bs1) (hS1 : Heap.Holds m1.sellOrders ss1) :
    (bs1 ++ ss1).Perm (c.order m.counter :: (bs ++ ss)) := by
  obtain ⟨f1, f2, _⟩ := place_facts hB hS h hB1 hS1
  cases hc : c.isBuy with
  | true =>
    obtain ⟨g1, g2, _⟩ := f1 hc
    rw [g2]
    exact g1.append_right ss
  | false =>
    obtain ⟨g1, g2, _⟩ := f2 hc
    rw [g2]
    exact (g1.append_left bs).trans List.perm_middle

/-- C24. Time stamps of resting orders are unique: every sequence `cs` of `buy` / `sell` calls
on the initial market returns, and afterwards the counter is the number of submissions made,
the orders resting in the two books have pairwise distinct time stamps, each at least 0 and
smaller than the counter, so that no two orders of a book have equal keys; the next submission
(the one of index `cs.length`, counting from 0) places its order with time stamp `cs.length`. -/
theorem timestamps_unique (cs : List (StockMarket.Call α)) :
    ∃ m bs ss, StockMarket.run cs StockMarket.init = some m ∧
      CompleteBT.Stores m.buyOrders bs ∧ CompleteBT.Stores m.sellOrders ss ∧
      m.counter = cs.length ∧
      ((bs ++ ss).map (fun e => e.key.timeStamp)).Nodup ∧
      (∀ e ∈ bs ++ ss, 0 ≤ e.key.timeStamp ∧ e.key.timeStamp < m.counter) ∧
      (bs.map Elem.key).Nodup ∧ (ss.map Elem.key).Nodup ∧
      ∀ c : StockMarket.Call α, ∃ m1 bs1 ss1, m.place c = some m1 ∧
        CompleteBT.Stores m1.buyOrders bs1 ∧ CompleteBT.Stores m1.sellOrders ss1 ∧
        (bs1 ++ ss1).Perm (c.order cs.length :: (bs ++ ss)) ∧
        (c.order cs.length).key.timeStamp = cs.length := by
  obtain ⟨m, bs, ss, h1, h2, h3, _, h5, h6, h7⟩ := run_init_induct
    (fun cs (m : StockMarket α) bs ss =>
      m.counter = cs.length ∧
      ((bs ++ ss).map (fun e => e.key.timeStamp)).Nodup ∧
      ∀ e ∈ bs ++ ss, 0 ≤ e.key.timeStamp ∧ e.key.timeStamp < m.counter)
    (by simp [StockMarket.init])
    (by
      intro cs c m m1 bs ss bs1 ss1 hB hS hP hp hB1 hS1
      obtain ⟨_, _, _, _, f5⟩ := place_facts hB hS hp hB1 hS1
      have hperm := placed_perm hB hS hp hB1 hS1
      obtain ⟨P1, P2, P3⟩ := hP
      refine ⟨?_, ?_, ?_⟩
      · rw [f5, P1]
        simp
      · rw [(hperm.map _).nodup_iff, List.map_cons, List.nodup_cons]
        refine ⟨?_, P2⟩
        intro hmem
        obtain ⟨e, he, het⟩ := List.mem_map.mp hmem
        have := (P3 e he).2
        rw [(order_numShares c m.counter).2] at het
        omega
      · intro e he
        rcases List.mem_cons.mp (hperm.subset he) with h0 | h0
        · rw [h0, (order_numShares c m.counter).2, f5, P1]
          omega
        · have := P3 e h0
          omega)
    (by
      intro cs m m1 bs ss bs1 ss1 b s hB hS hb hs _ hP h hB1 hS1
      obtain ⟨hbm, hsm, _, _, e1, e2, sp, _, _, f5⟩ := processTrade_facts hB hS hb hs h hB1 hS1
      obtain ⟨P1, P2, P3⟩ := hP
      refine ⟨by rw [f5, P1], ?_, ?_⟩
      · have sp2 := subperm_map Key.timeStamp sp
        rw [map_timeStamp, map_timeStamp] at sp2
        exact subperm_nodup sp2 P2
      · intro e he
        rw [f5]
        rcases List.mem_append.mp he with h0 | h0
        · rcases e1 e h0 with h9 | h9
          · exact P3 e (List.mem_append_left _ h9)
          · rw [h9.1]
            exact P3 b (List.mem_append_left _ hbm)
        · rcases e2 e h0 with h9 | h9
          · exact P3 e (List.mem_append_right _ h9)
          · rw [h9.1]
            exact P3 s (List.mem_append_right _ hsm))
    cs
  have hk : ∀ l : List (Elem α), l.Sublist (bs ++ ss) → (l.map Elem.key).Nodup := by
    intro l hl
    apply List.Nodup.of_map Key.timeStamp
    rw [map_timeStamp]
    exact h6.sublist (hl.map _)
  refine ⟨m, bs, ss, h1, h2.1, h3.1, h5, h6, h7, hk bs (List.sublist_append_left _ _),
    hk ss (List.sublist_append_right _ _), ?_⟩
  intro c
  obtain ⟨m1, bs1, ss1, hp, hB1, hS1, _⟩ := place_spec m h2 h3 c
  have hperm := placed_perm h2 h3 hp hB1 hS1
  rw [h5] at hperm
  exact ⟨m1, bs1, ss1, hp, hB1.1, hS1.1, hperm, (order_numShares c _).2⟩

/-- C25. Positive quantities are preserved: when every submitted order has a quantity above 0,
the run of the submissions on the initial market returns, and afterwards every order resting
in either book has a quantity above 0 and so has every buy-history and sell-history entry of
every record of the ledger. -/
theorem positive_quantities (cs : List (StockMarket.Call α)) (hpos : ∀ c ∈ cs, 0 < c.num) :
    ∃ m bs ss, StockMarket.run cs StockMarket.init = some m ∧
      CompleteBT.Stores m.buyOrders bs ∧ CompleteBT.Stores m.sellOrders ss ∧
      (∀ e ∈ bs ++ ss, 0 < e.value.numShares) ∧
      (∀ p ∈ m.books.book, ∀ e ∈ p.2.buyTrans ++ p.2.sellTrans, 0 < e.value.numShares) := by
  obtain ⟨m, bs, ss, h1, h2, h3, _, h5⟩ := run_init_induct
    (fun cs (m : StockMarket α) bs ss =>
      (∀ c ∈ cs, 0 < c.num) → (∀ e ∈ bs ++ ss, 0 < e.value.numShares) ∧ m.books.Positive)
    (by
      intro _
      refine ⟨by simp, ?_⟩
      intro p hp
      simp [StockMarket.init, Ledger.init] at hp)
    (by
      intro cs c m m1 bs ss bs1 ss1 hB hS hP hp hB1 hS1 hall
      obtain ⟨_, _, f3, _, _⟩ := place_facts hB hS hp hB1 hS1
      have hperm := placed_perm hB hS hp hB1 hS1
      obtain ⟨P1, P2⟩ := hP (fun c0 hc0 => hall c0 (List.mem_append_left _ hc0))
      refine ⟨?_, by rw [f3]; exact P2⟩
      intro e he
      rcases List.mem_cons.mp (hperm.subset he) with h0 | h0
      · rw [h0, (order_numShares c m.counter).1]
        exact hall c (by simp)
      · exact P1 e h0)
    (by
      intro cs m m1 bs ss bs1 ss1 b s hB hS hb hs _ hP h hB1 hS1 hall
      obtain ⟨hbm, hsm, _, _, e1, e2, _, f3, _, _⟩ := processTrade_facts hB hS hb hs h hB1 hS1
      obtain ⟨P1, P2⟩ := hP hall
      have hbp := P1 b (List.mem_append_left _ hbm)
      have hsp := P1 s (List.mem_append_right _ hsm)
      have hq : 0 < min b.value.numShares s.value.numShares := lt_min hbp hsp
      refine ⟨?_, ?_⟩
      · intro e he
        rcases List.mem_append.mp he with h0 | h0
        · rcases e1 e h0 with h9 | h9
          · exact P1 e (List.mem_append_left _ h9)
          · exact h9.2
        · rcases e2 e h0 with h9 | h9
          · exact P1 e (List.mem_append_right _ h9)
          · exact h9.2
      · rw [f3]
        unfold Ledger.sell Ledger.buy
        exact trans_positive (trans_positive P2 hq true) hq false)
    cs
  obtain ⟨r1, r2⟩ := h5 hpos
  exact ⟨m, bs, ss, h1, h2.1, h3.1, r1, r2⟩

/-! ## Submissions that do not cross -/

/-- A submission on uncrossed books that does not cross the best opposite order places its
order and executes no trade. -/
theorem rest_spec {m : StockMarket α} {bs ss : List (Elem α)}
    (hB : Heap.Holds m.buyOrders bs) (hS : Heap.Holds m.sellOrders ss) (hU : Uncrossed bs ss)
    (c : StockMarket.Call α)
    (hb : c.isBuy = true → ∀ s, ss.head? = some s → -(c.order m.counter).key.price < s.key.price)
    (hs : c.isBuy = false → ∀ b, bs.head? = some b → -b.key.price < (c.order m.counter).key.price) :
    ∃ m1 bs1 ss1, m.place c = some m1 ∧ m1.tradeLog = some (m1, []) ∧
      Heap.Holds m1.buyOrders bs1 ∧ Heap.Holds m1.sellOrders ss1 ∧
      (c.isBuy = true → bs1.Perm (c.order m.counter :: bs) ∧ ss1 = ss ∧
        m1.sellOrders = m.sellOrders) ∧
      (c.isBuy = false → ss1.Perm (c.order m.counter :: ss) ∧ bs1 = bs ∧
        m1.buyOrders = m.buyOrders) ∧
      m1.books = m.books ∧ m1.bank = m.bank ∧ m1.counter = m.counter + 1 := by
  obtain ⟨m1, bs1, ss1, hp, hB1, hS1, f1, f2, f3⟩ := place_spec m hB hS c
  have hall := uncrossed_all hB hS hU
  have hU1 : Uncrossed bs1 ss1 := by
    intro b s hbh hsh
    cases hc : c.isBuy with
    | true =>
      obtain ⟨g1, g2, _⟩ := f1 hc
      subst g2
      rcases List.mem_cons.mp (g1.subset (List.mem_of_mem_head? hbh)) with h0 | h0
      · rw [h0]
        exact hb hc s hsh
      · exact hall b h0 s (List.mem_of_mem_head? hsh)
    | false =>
      obtain ⟨g1, g2, _⟩ := f2 hc
      subst g2
      rcases List.mem_cons.mp (g1.subset (List.mem_of_mem_head? hsh)) with h0 | h0
      · rw [h0]
        exact hs hc b hbh
      · exact hall b (List.mem_of_mem_head? hbh) s h0
  exact ⟨m1, bs1, ss1, hp, tradeLog_uncrossed hB1 hS1 hU1, hB1, hS1, f1, f2, f3⟩

/-- C26. A submission that does not cross only rests the order: in a market state that
`buy` / `sell` calls reach from the initial market, a `buy` whose price is strictly below the
price of the best resting sell order (the one `min()` gives), or made when the sell book is
empty, and likewise a `sell` whose price is strictly above the price of the best resting buy
order, or made when the buy book is empty, returns and executes no trade: the ledger, the bank
and the opposite book are unchanged, the own book stores one order more, the submitted one
with the counter before the call as time stamp, and the counter goes up by 1. -/
theorem noncrossing_submission (cs : List (StockMarket.Call α)) (m : StockMarket α)
    (hrun : StockMarket.run cs StockMarket.init = some m) (p : α) (q id : Int) :
    ∃ bs ss, CompleteBT.Stores m.buyOrders bs ∧ CompleteBT.Stores m.sellOrders ss ∧
      ((Heap.min m.sellOrders = some none ∨
          ∃ s, Heap.min m.sellOrders = some (some s) ∧ p < s.key.price) →
        ∃ m1 bs1, m.buy p q id = some m1 ∧
          m.submitLog (StockMarket.Call.buy p q id) = some (m1, []) ∧
          m1.books = m.books ∧ m1.bank = m.bank ∧ m1.sellOrders = m.sellOrders ∧
          CompleteBT.Stores m1.buyOrders bs1 ∧ bs1.Perm (⟨⟨-p, m.counter⟩, ⟨q, id⟩⟩ :: bs) ∧
          m1.buyOrders.n = m.buyOrders.n + 1 ∧ m1.counter = m.counter + 1) ∧
      ((Heap.min m.buyOrders = some none ∨
          ∃ b, Heap.min m.buyOrders = some (some b) ∧ -b.key.price < p) →
        ∃ m1 ss1, m.sell p q id = some m1 ∧
          m.submitLog (StockMarket.Call.sell p q id) = some (m1, []) ∧
          m1.books = m.books ∧ m1.bank = m.bank ∧ m1.buyOrders = m.buyOrders ∧
          CompleteBT.Stores m1.sellOrders ss1 ∧ ss1.Perm (⟨⟨p, m.counter⟩, ⟨q, id⟩⟩ :: ss) ∧
          m1.sellOrders.n = m.sellOrders.n + 1 ∧ m1.counter = m.counter + 1) := by
  obtain ⟨m0, bs, ss, h1, hB, hS, hU⟩ :=
    StockMarket.run_uncrossed cs (StockMarket.init : StockMarket α) [] [] Heap.Holds.of_init
      Heap.Holds.of_init uncrossed_nil
  rw [hrun] at h1
  cases h1
  refine ⟨bs, ss, hB.1, hS.1, ?_, ?_⟩
  · intro hnc
    have hb : ∀ s, ss.head? = some s → - -p < s.key.price := by
      intro s hsh
      rw [hS.min_eq, hsh] at hnc
      rcases hnc with h0 | ⟨s2, h0, h2⟩
      · cases h0
      · cases h0
        simpa using h2
    obtain ⟨m1, bs1, ss1, hp, hlog, hB1, hS1, f1, _, f3, f4, f5⟩ :=
      rest_spec hB hS hU (StockMarket.Call.buy p q id) (fun _ => hb) (fun h => by cases h)
    obtain ⟨g1, _, g3⟩ := f1 rfl
    have hp2 : ({ m with counter := m.counter + 1 } : StockMarket α).buyAux q p id m.counter
      = some m1 := hp
    refine ⟨m1, bs1, ?_, ?_, f3, f4, g3, hB1.1, g1, ?_, f5⟩
    · simp only [StockMarket.buy, hp2, trade_of_tradeLog hlog]
    · simp only [StockMarket.submitLog, hp2, hlog]
    · rw [hB1.size_eq, hB.size_eq, g1.length_eq]
      simp
  · intro hnc
    have hs : ∀ b, bs.head? = some b → -b.key.price < p := by
      intro b hbh
      rw [hB.min_eq, hbh] at hnc
      rcases hnc with h0 | ⟨b2, h0, h2⟩
      · cases h0
      · cases h0
        exact h2
    obtain ⟨m1, bs1, ss1, hp, hlog, hB1, hS1, _, f2, f3, f4, f5⟩ :=
      rest_spec hB hS hU (StockMarket.Call.sell p q id) (fun h => by cases h) (fun _ => hs)
    obtain ⟨g1, _, g3⟩ := f2 rfl
    have hp2 : ({ m with counter := m.counter + 1 } : StockMarket α).sellAux q p id m.counter
      = some m1 := hp
    refine ⟨m1, ss1, ?_, ?_, f3, f4, g3, hS1.1, g1, ?_, f5⟩
    · simp only [StockMarket.sell, hp2, trade_of_tradeLog hlog]
    · simp only [StockMarket.submitLog, hp2, hlog]
    · rw [hS1.size_eq, hS.size_eq, g1.length_eq]
      simp

end Proofs

/-! # Instances of the theorems on the sample inputs -/

/-- An instance of C2 on `sampleOrders`. -/
theorem min_extraction_order_witness :
    (sampleOrders.map Elem.key).Nodup ∧
    ∃ (out : List (Elem Int)) (t : Heap Int),
      (Heap.insertAll sampleOrders Heap.init).bind (Heap.drain sampleOrders.length)
        = some (out.map some, t) ∧
      out.Perm sampleOrders ∧ out.Pairwise (fun a b => Elem.lt a b = true) ∧
      t.root = none ∧ t.lastNode = none ∧ t.n = 0 :=
  ⟨by decide, min_extraction_order sampleOrders (by decide)⟩

/-- An instance of C5 on `sampleHeap`. -/
theorem removeMin_removes_min_witness :
    Heap.Reachable sampleHeap ∧ sampleHeap.root ≠ none ∧
    ∃ es t1 es1 r, CompleteBT.Stores sampleHeap es ∧ Heap.min sampleHeap = some (some r) ∧
      (∃ a nd, sampleHeap.root = some a ∧ sampleHeap.mem[a]? = some nd ∧ nd.elem = r) ∧
      Heap.removeMin sampleHeap = some t1 ∧ CompleteBT.Stores t1 es1 ∧ t1.n = sampleHeap.n - 1 ∧
      (es1 : Multiset (Elem Int)) = (es : Multiset (Elem Int)).erase r :=
  ⟨⟨sampleCalls, by decide⟩, by decide,
    removeMin_removes_min sampleHeap ⟨sampleCalls, by decide⟩ (by decide)⟩

/-- An instance of C6: inserting the order (5, 2) into `sampleHeap`. -/
theorem insert_adds_one_witness :
    Heap.Reachable sampleHeap ∧
    ∃ es t1 es1, CompleteBT.Stores sampleHeap es ∧
      Heap.insert sampleHeap ⟨⟨5, 2⟩, ⟨7, 3⟩⟩ = some t1 ∧ CompleteBT.Stores t1 es1 ∧
      t1.n = sampleHeap.n + 1 ∧
      (es1 : Multiset (Elem Int)) = ⟨⟨5, 2⟩, ⟨7, 3⟩⟩ ::ₘ (es : Multiset (Elem Int)) :=
  ⟨⟨sampleCalls, by decide⟩,
    insert_adds_one sampleHeap ⟨⟨5, 2⟩, ⟨7, 3⟩⟩ ⟨sampleCalls, by decide⟩⟩

/-- An instance of C7 on `sampleHeap`. -/
theorem min_returns_least_witness :
    Heap.Reachable sampleHeap ∧
    ∃ es, CompleteBT.Stores sampleHeap es ∧ Heap.min sampleHeap = some es.head? ∧
      (Heap.min sampleHeap = some none ↔ sampleHeap.root = none) ∧
      (Heap.min sampleHeap = some none ↔ sampleHeap.n = 0) ∧
      ∀ r, Heap.min sampleHeap = some (some r) →
        (∃ a nd, sampleHeap.root = some a ∧ sampleHeap.mem[a]? = some nd ∧ nd.elem = r) ∧
        (∀ x ∈ es, Elem.lt x r = false) ∧
        (∀ a nd, sampleHeap.toBT.Reach a → sampleHeap.mem[a]? = some nd →
          Elem.lt nd.elem r = false) :=
  ⟨⟨sampleCalls, by decide⟩, min_returns_least sampleHeap ⟨sampleCalls, by decide⟩⟩

/-- An instance of C8 on the empty heap. -/
theorem empty_queue_safety_witness :
    (Heap.init : Heap Int).root = none ∧ (Heap.init : Heap Int).lastNode = none ∧
    (Heap.init : Heap Int).n = 0 ∧
    Heap.removeMin (Heap.init : Heap Int) = some Heap.init ∧
    CompleteBT.remove (Heap.init : Heap Int) = some (Heap.init, none) ∧
    (Heap.init : Heap Int).toBT.size = 0 :=
  ⟨rfl, rfl, rfl, empty_queue_safety Heap.init rfl rfl rfl⟩

/-- An instance of C10 on `sampleMarket`: buy 10 at 105 against sell 4 at 100. -/
theorem processTrade_remainder_witness :
    Heap.Reachable sampleMarket.buyOrders ∧ Heap.Reachable sampleMarket.sellOrders ∧
    sampleMarket.buyOrders.toBT.empty = false ∧ sampleMarket.sellOrders.toBT.empty = false ∧
    ∃ bs ss b s m1 bs1 ss1, CompleteBT.Stores sampleMarket.buyOrders bs ∧
      CompleteBT.Stores sampleMarket.sellOrders ss ∧
      Heap.min sampleMarket.buyOrders = some (some b) ∧
      Heap.min sampleMarket.sellOrders = some (some s) ∧
      sampleMarket.processTrade = some m1 ∧
      CompleteBT.Stores m1.buyOrders bs1 ∧ CompleteBT.Stores m1.sellOrders ss1 ∧
      (b.value.numShares > s.value.numShares →
        (bs1 : Multiset (Elem Int)) =
          { key := { price := -(-b.key.price), timeStamp := b.key.timeStamp },
            value := { numShares := b.value.numShares - s.value.numShares,
                       traderID := b.value.traderID } } ::ₘ (bs : Multiset (Elem Int)).erase b ∧
        (ss1 : Multiset (Elem Int)) = (ss : Multiset (Elem Int)).erase s) ∧
      (s.value.numShares > b.value.numShares →
        (ss1 : Multiset (Elem Int)) =
          { key := { price := s.key.price, timeStamp := s.key.timeStamp },
            value := { numShares := s.value.numShares - b.value.numShares,
                       traderID := s.value.traderID } } ::ₘ (ss : Multiset (Elem Int)).erase s ∧
        (bs1 : Multiset (Elem Int)) = (bs : Multiset (Elem Int)).erase b) ∧
      (b.value.numShares = s.value.numShares →
        (bs1 : Multiset (Elem Int)) = (bs : Multiset (Elem Int)).erase b ∧
        (ss1 : Multiset (Elem Int)) = (ss : Multiset (Elem Int)).erase s) ∧
      m1.counter = sampleMarket.counter :=
  ⟨⟨[Heap.Call.insert ⟨⟨-105, 0⟩, ⟨10, 1⟩⟩], by decide⟩,
    ⟨[Heap.Call.insert ⟨⟨100, 1⟩, ⟨4, 2⟩⟩], by decide⟩, by decide, by decide,
    processTrade_remainder sampleMarket ⟨[Heap.Call.insert ⟨⟨-105, 0⟩, ⟨10, 1⟩⟩], by decide⟩
      ⟨[Heap.Call.insert ⟨⟨100, 1⟩, ⟨4, 2⟩⟩], by decide⟩ (by decide) (by decide)⟩

/-! # Instances of the theorems of the market, the ledger and the tree sites -/

theorem sampleHeap_shape : BT.Shape sampleHeap.toBT [0, 1] := by
  refine ⟨by decide, rfl, rfl, ?_⟩
  intro p h1 h2
  have h3 : p ≤ 2 := h2
  interval_cases p
  · exact ⟨_, rfl, rfl, rfl, rfl⟩
  · exact ⟨_, rfl, rfl, rfl, rfl⟩

theorem tieHeap_shape : BT.Shape tieHeap.toBT [0, 1, 2] := by
  refine ⟨by decide, rfl, rfl, ?_⟩
  intro p h1 h2
  have h3 : p ≤ 3 := h2
  interval_cases p
  · exact ⟨_, rfl, rfl, rfl, rfl⟩
  · exact ⟨_, rfl, rfl, rfl, rfl⟩
  · exact ⟨_, rfl, rfl, rfl, rfl⟩

/-- An instance of C11 on `priorityMarket`: two buy orders at the best price 10, of which the
one of time 0 is filled, against the sell order at 10, the lowest of three. -/
theorem price_time_priority_witness :
    Heap.Reachable priorityMarket.buyOrders ∧ Heap.Reachable priorityMarket.sellOrders ∧
    priorityMarket.buyOrders.toBT.empty = false ∧ priorityMarket.sellOrders.toBT.empty = false ∧
    ∃ bs ss b s m1, CompleteBT.Stores priorityMarket.buyOrders bs ∧
      CompleteBT.Stores priorityMarket.sellOrders ss ∧
      Heap.min priorityMarket.buyOrders = some (some b) ∧
      Heap.min priorityMarket.sellOrders = some (some s) ∧
      b ∈ bs ∧ s ∈ ss ∧ priorityMarket.processTrade = some m1 ∧
      m1.books = (priorityMarket.books.buy (filled b (min b.value.numShares s.value.numShares))).sell
        (filled s (min b.value.numShares s.value.numShares)) ∧
      (∀ x ∈ bs, -x.key.price ≤ -b.key.price ∧
        (-x.key.price = -b.key.price → b.key.timeStamp ≤ x.key.timeStamp)) ∧
      (∀ y ∈ ss, s.key.price ≤ y.key.price ∧
        (y.key.price = s.key.price → s.key.timeStamp ≤ y.key.timeStamp)) :=
  ⟨⟨[Heap.Call.insert ⟨⟨-10, 0⟩, ⟨5, 1⟩⟩, Heap.Call.insert ⟨⟨-10, 1⟩, ⟨5, 2⟩⟩,
      Heap.Call.insert ⟨⟨-9, 2⟩, ⟨5, 3⟩⟩], by decide⟩,
    ⟨[Heap.Call.insert ⟨⟨12, 3⟩, ⟨5, 4⟩⟩, Heap.Call.insert ⟨⟨11, 4⟩, ⟨5, 5⟩⟩,
      Heap.Call.insert ⟨⟨10, 5⟩, ⟨3, 6⟩⟩], by decide⟩, by decide, by decide,
    price_time_priority priorityMarket ⟨[Heap.Call.insert ⟨⟨-10, 0⟩, ⟨5, 1⟩⟩, Heap.Call.insert ⟨⟨-10, 1⟩, ⟨5, 2⟩⟩,
      Heap.Call.insert ⟨⟨-9, 2⟩, ⟨5, 3⟩⟩], by decide⟩
      ⟨[Heap.Call.insert ⟨⟨12, 3⟩, ⟨5, 4⟩⟩, Heap.Call.insert ⟨⟨11, 4⟩, ⟨5, 5⟩⟩,
      Heap.Call.insert ⟨⟨10, 5⟩, ⟨3, 6⟩⟩], by decide⟩ (by decide) (by decide)⟩

/-- An instance of C12 on `sampleMarket`. -/
theorem trade_terminates_witness :
    Heap.Reachable sampleMarket.buyOrders ∧ Heap.Reachable sampleMarket.sellOrders ∧
    ∃ m1 log, sampleMarket.trade = some m1 ∧ sampleMarket.tradeLog = some (m1, log) ∧
      log.length ≤ sampleMarket.buyOrders.n.toNat + sampleMarket.sellOrders.n.toNat - 1 ∧
      (sampleMarket.buyOrders.toBT.empty = false → sampleMarket.sellOrders.toBT.empty = false →
        ∃ m2, sampleMarket.processTrade = some m2 ∧
          m2.buyOrders.n + m2.sellOrders.n + 1 ≤
            sampleMarket.buyOrders.n + sampleMarket.sellOrders.n) :=
  ⟨⟨[Heap.Call.insert ⟨⟨-105, 0⟩, ⟨10, 1⟩⟩], by decide⟩,
    ⟨[Heap.Call.insert ⟨⟨100, 1⟩, ⟨4, 2⟩⟩], by decide⟩,
    trade_terminates sampleMarket ⟨[Heap.Call.insert ⟨⟨-105, 0⟩, ⟨10, 1⟩⟩], by decide⟩
      ⟨[Heap.Call.insert ⟨⟨100, 1⟩, ⟨4, 2⟩⟩], by decide⟩⟩

/-- An instance of C13: `sell(100, 4, 2)`, then `buy(105, 10, 1)`. -/
theorem bank_never_decreases_witness :
    (∀ c ∈ [StockMarket.Call.sell (100 : Int) 4 2] ++ [StockMarket.Call.buy (105 : Int) 10 1],
      0 < c.num) ∧
    ∃ m1 m2 log, StockMarket.run [StockMarket.Call.sell (100 : Int) 4 2] StockMarket.init = some m1 ∧
      StockMarket.runLog [StockMarket.Call.buy (105 : Int) 10 1] m1 = some (m2, log) ∧
      StockMarket.run ([StockMarket.Call.sell (100 : Int) 4 2] ++
        [StockMarket.Call.buy (105 : Int) 10 1]) StockMarket.init = some m2 ∧
      m2.bank = m1.bank + (log.map tradeGain).sum ∧
      (∀ tr ∈ log, tr.2.key.price ≤ -tr.1.key.price ∧ 0 < tr.1.value.numShares ∧
        0 < tr.2.value.numShares ∧ 0 ≤ tradeGain tr) ∧
      0 ≤ m1.bank ∧ m1.bank ≤ m2.bank :=
  ⟨by decide,
    bank_never_decreases [StockMarket.Call.sell (100 : Int) 4 2]
      [StockMarket.Call.buy (105 : Int) 10 1] (by decide)⟩

/-- An instance of C14 on `sampleMarket`. -/
theorem trade_buyer_ledger_witness :
    Heap.Reachable sampleMarket.buyOrders ∧ Heap.Reachable sampleMarket.sellOrders ∧
    sampleMarket.buyOrders.toBT.empty = false ∧ sampleMarket.sellOrders.toBT.empty = false ∧
    ∃ b s m1, Heap.min sampleMarket.buyOrders = some (some b) ∧
      Heap.min sampleMarket.sellOrders = some (some s) ∧
      sampleMarket.processTrade = some m1 ∧
      (b.value.traderID ≠ s.value.traderID →
        m1.books.recordOf b.value.traderID =
          { id := (sampleMarket.books.recordOf b.value.traderID).id,
            balance := (sampleMarket.books.recordOf b.value.traderID).balance -
              ((min b.value.numShares s.value.numShares : Int) : Int) * -b.key.price,
            holdings := (sampleMarket.books.recordOf b.value.traderID).holdings +
              min b.value.numShares s.value.numShares,
            buyTrans := (sampleMarket.books.recordOf b.value.traderID).buyTrans ++
              [filled b (min b.value.numShares s.value.numShares)],
            sellTrans := (sampleMarket.books.recordOf b.value.traderID).sellTrans } ∧
        (filled b (min b.value.numShares s.value.numShares)).value.numShares =
          min b.value.numShares s.value.numShares) :=
  ⟨⟨[Heap.Call.insert ⟨⟨-105, 0⟩, ⟨10, 1⟩⟩], by decide⟩,
    ⟨[Heap.Call.insert ⟨⟨100, 1⟩, ⟨4, 2⟩⟩], by decide⟩, by decide, by decide,
    trade_buyer_ledger sampleMarket ⟨[Heap.Call.insert ⟨⟨-105, 0⟩, ⟨10, 1⟩⟩], by decide⟩
      ⟨[Heap.Call.insert ⟨⟨100, 1⟩, ⟨4, 2⟩⟩], by decide⟩ (by decide) (by decide)⟩

/-- An instance of C18 on `sampleHeap`: two nodes, the new node becomes the right child of
the root. -/
theorem insertion_site_witness :
    BT.Shape sampleHeap.toBT [0, 1] ∧ sampleHeap.lastNode = atPos [0, 1] 2 ∧
    sampleHeap.getParentOfNewLastNode = some (some 0) ∧
    ∃ t1 pn, CompleteBT.add sampleHeap ⟨⟨5, 2⟩, ⟨7, 3⟩⟩ = some (t1, some 2) ∧
      t1.mem[0]? = some pn ∧ pn.right = some 2 ∧ pn.left = some 1 := by
  obtain ⟨h1, pa, t1, pn, nn, h2, h3, h4, _, _, _, _, _, _, h5⟩ :=
    insertion_site sampleHeap [0, 1] ⟨⟨5, 2⟩, ⟨7, 3⟩⟩ sampleHeap_shape rfl (by decide)
  have hpa : pa = 0 := (Option.some.inj h2).symm
  subst hpa
  exact ⟨sampleHeap_shape, rfl, h1, t1, pn, h3, h4, h5 rfl⟩

/-- An instance of C19 on `tieHeap`: three nodes, the new last node is the left child of the
root. -/
theorem new_last_node_witness :
    BT.Shape tieHeap.toBT [0, 1, 2] ∧ tieHeap.lastNode = atPos [0, 1, 2] 3 ∧
    tieHeap.getNewLastNode = some (some 1) :=
  ⟨tieHeap_shape, rfl,
    (new_last_node tieHeap [0, 1, 2] tieHeap_shape rfl (by decide)).1⟩

/-- C20 fails on ties: in `tieHeap`, which three `insert` calls build, the two children of the
root have equal keys (neither element compares `<` the other) and `minChild` returns the right
child, not the left one. -/
theorem minChild_tie_right :
    Heap.run tieCalls Heap.init = some tieHeap ∧
    tieHeap.mem[0]? = some ⟨⟨⟨5, 0⟩, ⟨1, 1⟩⟩, some 1, some 2, none⟩ ∧
    tieHeap.mem[1]? = some ⟨⟨⟨5, 0⟩, ⟨1, 2⟩⟩, none, none, some 0⟩ ∧
    tieHeap.mem[2]? = some ⟨⟨⟨5, 0⟩, ⟨1, 3⟩⟩, none, none, some 0⟩ ∧
    Elem.lt (⟨⟨5, 0⟩, ⟨1, 2⟩⟩ : Elem Int) ⟨⟨5, 0⟩, ⟨1, 3⟩⟩ = false ∧
    Elem.lt (⟨⟨5, 0⟩, ⟨1, 3⟩⟩ : Elem Int) ⟨⟨5, 0⟩, ⟨1, 2⟩⟩ = false ∧
    tieHeap.toBT.minChild (some 0) = some (some 2) ∧
    tieHeap.toBT.minChild (some 0) ≠ some (some 1) := by
  decide

/-- An instance of C20 on `tieHeap`: equal keys, the right child is returned. -/
theorem minChild_choice_witness :
    tieHeap.toBT.minChild (some 0) = some (some 2) :=
  ((minChild_choice tieHeap.toBT 0 ⟨⟨⟨5, 0⟩, ⟨1, 1⟩⟩, some 1, some 2, none⟩ rfl).2.2.2.2
    1 2 ⟨⟨⟨5, 0⟩, ⟨1, 2⟩⟩, none, none, some 0⟩ ⟨⟨⟨5, 0⟩, ⟨1, 3⟩⟩, none, none, some 0⟩
    rfl rfl rfl rfl).2.2 (by decide) (by decide)

/-! # Instances of the theorems on removal, conservation and resting orders -/

/-- An instance of C21 on `sampleHeap`: removing the leaf at address 1, the left child of
the root. -/
theorem removeNode_contract_witness :
    sampleHeap.mem[1]? = some ⟨⟨⟨5, 0⟩, ⟨10, 1⟩⟩, none, none, some 0⟩ ∧
    ∃ t1, sampleHeap.toBT.removeNode (some 1) = some (t1, ⟨⟨5, 0⟩, ⟨10, 1⟩⟩) ∧
      t1.n = sampleHeap.n - 1 ∧ t1.root = sampleHeap.root ∧
      t1.mem[0]? = some ⟨⟨⟨3, 1⟩, ⟨4, 2⟩⟩, none, none, none⟩ := by
  obtain ⟨t1, h1, h2, _, _, _, h6, h7, _⟩ :=
    removeNode_contract sampleHeap.toBT 1 ⟨⟨⟨5, 0⟩, ⟨10, 1⟩⟩, none, none, some 0⟩ rfl
      (Or.inl rfl)
      (fun za h => by
        cases h
        exact ⟨_, rfl, Or.inl rfl⟩)
      (fun xa h => by simp [Node.onlyChild] at h)
  exact ⟨rfl, t1, h1, h2, h6 (by simp),
    (h7 0 ⟨⟨⟨3, 1⟩, ⟨4, 2⟩⟩, some 1, none, none⟩ rfl rfl).1 rfl⟩

/-- An instance of C25: `sell(100, 4, 2)`, then `buy(105, 10, 1)`. -/
theorem positive_quantities_witness :
    (∀ c ∈ [StockMarket.Call.sell (100 : Int) 4 2, StockMarket.Call.buy 105 10 1], 0 < c.num) ∧
    ∃ m bs ss,
      StockMarket.run [StockMarket.Call.sell (100 : Int) 4 2, StockMarket.Call.buy 105 10 1]
        StockMarket.init = some m ∧
      CompleteBT.Stores m.buyOrders bs ∧ CompleteBT.Stores m.sellOrders ss ∧
      (∀ e ∈ bs ++ ss, 0 < e.value.numShares) ∧
      (∀ p ∈ m.books.book, ∀ e ∈ p.2.buyTrans ++ p.2.sellTrans, 0 < e.value.numShares) :=
  ⟨by decide,
    positive_quantities [StockMarket.Call.sell (100 : Int) 4 2, StockMarket.Call.buy 105 10 1]
      (by decide)⟩

/-- An instance of C26 on `restingMarket`: `buy(90, 5, 1)` against a resting sell at 100. -/
theorem noncrossing_submission_witness :
    StockMarket.run [StockMarket.Call.sell 100 4 2] StockMarket.init = some restingMarket ∧
    Heap.min restingMarket.sellOrders = some (some ⟨⟨100, 0⟩, ⟨4, 2⟩⟩) ∧
    ∃ m1, restingMarket.buy 90 5 1 = some m1 ∧
      restingMarket.submitLog (StockMarket.Call.buy 90 5 1) = some (m1, []) ∧
      m1.books = restingMarket.books ∧ m1.bank = restingMarket.bank ∧
      m1.sellOrders = restingMarket.sellOrders ∧
      m1.buyOrders.n = restingMarket.buyOrders.n + 1 ∧
      m1.counter = restingMarket.counter + 1 := by
  obtain ⟨bs, ss, _, _, h3, _⟩ :=
    noncrossing_submission [StockMarket.Call.sell 100 4 2] restingMarket (by decide) 90 5 1
  obtain ⟨m1, bs1, g1, g2, g3, g4, g5, _, _, g8, g9⟩ :=
    h3 (Or.inr ⟨⟨⟨100, 0⟩, ⟨4, 2⟩⟩, by decide, by decide⟩)
  exact ⟨by decide, by decide, m1, g1, g2, g3, g4, g5, g8, g9⟩

/-! # Runs on the machine arithmetic

With `double` prices that may be NaN and `int` of 32 bits the program leaves the behaviour the
theorems above establish for exact numbers. -/

/-- C1 fails on the code for a NaN price: after `insert` of the keys (0, 0), (1, 1), (NaN, 2),
(5, 3) and one `removeMin`, the root holds the price 5 and its left child the price 1, which
compares `<` its parent. -/
theorem heap_order_fails_on_nan :
    Heap.run nanCalls Heap.init = some nanHeap ∧ ¬ Heap.Ordered nanHeap ∧
    ∃ nd cn, nanHeap.root = some 0 ∧ nanHeap.mem[0]? = some nd ∧ nd.left = some 1 ∧
      nanHeap.mem[1]? = some cn ∧ nd.elem.key.price = Dbl.fin 5 ∧
      cn.elem.key.price = Dbl.fin 1 ∧ Elem.lt cn.elem nd.elem = true :=
  ⟨by decide,
    fun h => absurd (h 0 1 _ _ (BT.Reach.root rfl) rfl (Or.inl rfl) rfl) (by decide),
    _, _, rfl, rfl, rfl, rfl, rfl, rfl, by decide⟩

/-- C2 fails on the code for a NaN price: the four orders `nanOrders` have pairwise distinct
keys, and inserting them and then reading `min()` and calling `removeMin()` four times yields
the prices 0, 5, NaN, 1, which is not ascending (1 compares `<` 5). -/
theorem extraction_order_fails_on_nan :
    (nanOrders.map Elem.key).Nodup ∧
    ((Heap.insertAll nanOrders Heap.init).bind (Heap.drain nanOrders.length)).map Prod.fst =
      some [some ⟨⟨Dbl.fin 0, 0⟩, ⟨1, 1⟩⟩, some ⟨⟨Dbl.fin 5, 3⟩, ⟨1, 4⟩⟩,
        some ⟨⟨Dbl.nan, 2⟩, ⟨1, 3⟩⟩, some ⟨⟨Dbl.fin 1, 1⟩, ⟨1, 2⟩⟩] ∧
    ¬ List.Pairwise (fun a b : Elem Dbl => Elem.lt a b = true)
      [⟨⟨Dbl.fin 0, 0⟩, ⟨1, 1⟩⟩, ⟨⟨Dbl.fin 5, 3⟩, ⟨1, 4⟩⟩, ⟨⟨Dbl.nan, 2⟩, ⟨1, 3⟩⟩,
        ⟨⟨Dbl.fin 1, 1⟩, ⟨1, 2⟩⟩] ∧
    Elem.lt (⟨⟨Dbl.fin 1, 1⟩, ⟨1, 2⟩⟩ : Elem Dbl) ⟨⟨Dbl.fin 5, 3⟩, ⟨1, 4⟩⟩ = true := by
  decide

/-- C7 fails on the code for a NaN price: on the heap `nanHeap`, which `insert` and `removeMin`
calls build, `min()` returns the order with the price 5, while the order with the price 1 is
stored in the left child of the root and compares `<` it. -/
theorem min_not_least_on_nan :
    Heap.Reachable nanHeap ∧
    Heap.min nanHeap = some (some ⟨⟨Dbl.fin 5, 3⟩, ⟨1, 4⟩⟩) ∧
    ∃ a nd, nanHeap.toBT.Reach a ∧ nanHeap.mem[a]? = some nd ∧
      nd.elem = ⟨⟨Dbl.fin 1, 1⟩, ⟨1, 2⟩⟩ ∧
      Elem.lt nd.elem (⟨⟨Dbl.fin 5, 3⟩, ⟨1, 4⟩⟩ : Elem Dbl) = true :=
  ⟨⟨nanCalls, by decide⟩, by decide,
    1, _, BT.Reach.left (BT.Reach.root rfl) rfl rfl, rfl, rfl, by decide⟩

/-- C9 fails on the code for a NaN price: after `buy(NaN, 1, 1)` and `sell(5, 1, 2)` both
books hold an order, no trade was executed, and the best buy price is not below the best sell
price (every comparison with NaN is false). -/
theorem books_crossed_on_nan :
    nanMarket.map (fun m => m.buyOrders.toBT.empty) = some false ∧
    nanMarket.map (fun m => m.sellOrders.toBT.empty) = some false ∧
    nanMarket.bind (fun m => Heap.min m.buyOrders) = some (some ⟨⟨Dbl.nan, 0⟩, ⟨1, 1⟩⟩) ∧
    nanMarket.bind (fun m => Heap.min m.sellOrders) = some (some ⟨⟨Dbl.fin 5, 1⟩, ⟨1, 2⟩⟩) ∧
    nanMarket.map (fun m => m.books) = some ⟨[]⟩ ∧
    ¬ (-Dbl.nan < Dbl.fin 5) := by
  decide

/-- C10 fails on the code when the remainder overflows `int`: with the best buy order of
2147483647 shares and the best sell order of -2 shares (both at price 1), `qb > qs`, but
`qb - qs` wraps to -2147483647, the test `numRemain > 0` fails and `processTrade` leaves the
buy book empty: no remainder is inserted. -/
theorem remainder_lost_on_overflow :
    overflowMarket.bind (fun m => Heap.min m.buyOrders) =
      some (some ⟨⟨Dbl.fin (-1), 1⟩, ⟨2147483647, 1⟩⟩) ∧
    overflowMarket.bind (fun m => Heap.min m.sellOrders) =
      some (some ⟨⟨Dbl.fin 1, 0⟩, ⟨-2, 2⟩⟩) ∧
    (2147483647 : Int) > -2 ∧ wrap32 (2147483647 - -2) = -2147483647 ∧
    (overflowMarket.bind StockMarket.processTrade).map (fun m1 => m1.buyOrders.n) = some 0 ∧
    (overflowMarket.bind StockMarket.processTrade).bind (fun m1 => Heap.min m1.buyOrders) =
      some none ∧
    (overflowMarket.bind StockMarket.processTrade).bind (fun m1 => Heap.min m1.sellOrders) =
      some none := by
  decide

/-- C11 fails on the code for a NaN price: when the matching loop starts in the submission
`sell(4, 1, 6)`, the buy book is `nanBuyBook`, in which the buy order at 9 rests below the root;
`min()` gives the buy order at 5, and `processTrade` fills that one (trader 4). -/
theorem priority_fails_on_nan :
    nanPriorityMarket.map (fun m => m.buyOrders) = some nanBuyBook ∧
    Heap.min nanBuyBook = some (some ⟨⟨Dbl.fin (-5), 3⟩, ⟨1, 4⟩⟩) ∧
    (∃ a nd, nanBuyBook.toBT.Reach a ∧ nanBuyBook.mem[a]? = some nd ∧
      nd.elem = ⟨⟨Dbl.fin (-9), 1⟩, ⟨1, 2⟩⟩) ∧
    -Dbl.fin (-5) < -Dbl.fin (-9) ∧
    nanPriorityMarket.bind (fun m => Heap.min m.sellOrders) =
      some (some ⟨⟨Dbl.fin 4, 5⟩, ⟨1, 6⟩⟩) ∧
    (nanPriorityMarket.bind StockMarket.processTrade).map
      (fun m1 => (m1.books.recordOf 4).buyTrans) = some [⟨⟨Dbl.fin (-5), 3⟩, ⟨1, 4⟩⟩] ∧
    (nanPriorityMarket.bind StockMarket.processTrade).map
      (fun m1 => (m1.books.recordOf 2).buyTrans) = some [] :=
  ⟨by decide, by decide, ⟨1, _, BT.Reach.left (BT.Reach.root rfl) rfl rfl, rfl, rfl⟩,
    by decide, by decide, by decide, by decide⟩

/-- C14 fails on the code when the holdings overflow `int`: after `sell(1, 2147483647, 2)`,
`buy(1, 2147483647, 1)` and `sell(1, 1, 3)`, trader 1 holds 2147483647 shares; the trade of
`buy(1, 1, 1)` against trader 3 has `Q = 1` and leaves trader 1 with -2147483648 shares, not
with 2147483648. -/
theorem buyer_holdings_overflow :
    holdingsMarket.map (fun m => (m.books.recordOf 1).holdings) = some 2147483647 ∧
    holdingsMarket.bind (fun m => Heap.min m.buyOrders) =
      some (some ⟨⟨Dbl.fin (-1), 3⟩, ⟨1, 1⟩⟩) ∧
    holdingsMarket.bind (fun m => Heap.min m.sellOrders) =
      some (some ⟨⟨Dbl.fin 1, 2⟩, ⟨1, 3⟩⟩) ∧
    (holdingsMarket.bind StockMarket.processTrade).map
      (fun m1 => (m1.books.recordOf 1).holdings) = some (-2147483648) ∧
    (-2147483648 : Int) ≠ 2147483647 + min 1 1 := by
  decide

/-- C16 fails on the code when the holdings overflow `int`: in the ledger `fullLedger`
trader 1 holds 2147483647 shares, and `trans` of an order of 1 share leaves trader 1 with
-2147483648 shares, not with the old holdings plus 1. -/
theorem ledger_holdings_overflow :
    (fullLedger.recordOf 1).holdings = 2147483647 ∧
    ((fullLedger.trans ⟨⟨Dbl.fin (-1), 1⟩, ⟨1, 1⟩⟩ true).recordOf 1).holdings = -2147483648 ∧
    ((fullLedger.trans ⟨⟨Dbl.fin 1, 1⟩, ⟨1, 1⟩⟩ false).recordOf 1).holdings = -2147483648 ∧
    (-2147483648 : Int) ≠ (fullLedger.recordOf 1).holdings + 1 := by
  decide
